import Mathlib

/-!
# rasp-cloud: plugin lifecycle manager and alarm uploader

A shallow embedding of `src/cloud/src/rasp-cloud/models/plugin.go`, of the
`mongo` wrappers it calls, and of the alarm buffers of
`src/cloud/src/rasp-cloud/models/logs/log_handle.go`, followed by the
theorems that settle the claims of the specification.

Conventions of the embedding.

* Go strings and byte slices that hold script text are `List Char`; map keys,
  identifiers and error messages are `String`.
* A `map[string]interface{}` holding JSON-native data is an association list
  `JObj`; `range` visits the entries in list order, so a statement proved for
  every list holds for every iteration order Go may choose.  `m[k]` is
  `List.lookup`.
* A Go `error` result is `Option String` or `Failure`; a function that also
  changes the plugin collection returns the collection it leaves behind next
  to its result, also when it fails.
* The libraries the file calls (`crypto/md5`, `encoding/json`, the `otto`
  interpreter, the clock and the id generator) are parameters, gathered in
  `Lib` or passed as arguments.
* A buffered channel is its capacity and the list of the values it holds,
  oldest first; the sender and the uploader take turns, and the case a
  `select` takes when both channels are ready is a parameter.
-/

set_option autoImplicit false
set_option maxRecDepth 100000

namespace RaspCloud

/-! ## JSON-native values (`interface{}` as produced by `encoding/json`) -/

/-- A JSON-native Go value: `nil`, `bool`, `float64` (integral values only),
`string`, `[]interface{}` or `map[string]interface{}`. -/
inductive JValue where
  | null
  | bool (b : Bool)
  | num (n : Int)
  | str (s : String)
  | arr (xs : List JValue)
  | obj (kvs : List (String × JValue))

/-- A Go `map[string]interface{}`. -/
abbrev JObj := List (String × JValue)

/-- The test `v == nil` on an interface value. -/
def JValue.isNull : JValue → Bool
  | .null => true
  | _ => false

/-- The keys of a map. -/
def keys (m : JObj) : List String := m.map Prod.fst

/-! ## The plugin document -/

/-- The `Plugin` struct (plugin.go, lines 38-48). -/
structure Plugin where
  Id : String
  AppId : String
  Name : List Char
  UploadTime : Int
  Version : List Char
  Md5 : String
  Content : List Char
  DefaultAlgorithmConfig : JObj
  AlgorithmConfig : JObj

/-- The plugin collection of the document store. -/
abbrev Store := List Plugin

/-! ## Library parameters -/

/-- What running the embedded interpreter and decoding its answer can give
(plugin.go, lines 130-144): the script fails, the JSON text does not decode
into a `map[string]interface{}`, or a map is obtained. -/
inductive EvalResult where
  | runError (e : String)
  | unmarshalError (e : String)
  | value (cfg : JObj)

/-- The library functions the file calls. -/
structure Lib where
  /-- `fmt.Sprintf("%x", md5.Sum(b))`. -/
  md5Hex : List Char → String
  /-- `json.MarshalIndent(config, "", "\t")` on JSON-native data (never fails there). -/
  MarshalIndent : JObj → List Char
  /-- `otto.New().Run(script)`, `Get("algorithmContent")` and `json.Unmarshal`. -/
  runScript : List Char → EvalResult
  /-- `unicode.IsLetter(r) || unicode.IsDigit(r)` for runes outside ASCII. -/
  isLetterOrDigit : Char → Bool

/-! ## Text primitives -/

/-- The class `\s` of Go's `regexp`: `[\t\n\f\r ]`. -/
def isSpace (c : Char) : Bool :=
  c == '\t' || c == '\n' || c == '\x0c' || c == '\r' || c == ' '

/-- A greedy `\s*`. Every use is followed by a literal that starts with a
non-space character, so the longest run is the only one that can match. -/
def skipSpaces : List Char → List Char
  | [] => []
  | c :: cs => if isSpace c then skipSpaces cs else c :: cs

/-- Match a literal at the head of the text; the result is the text after it. -/
def stripPrefix : List Char → List Char → Option (List Char)
  | [], s => some s
  | _ :: _, [] => none
  | p :: ps, c :: cs => if p = c then stripPrefix ps cs else none

/-- `bytes.Index(s, pat)`: the offset of the first occurrence of `pat`. -/
def indexOf (pat : List Char) : List Char → Option Nat
  | [] => if pat = [] then some 0 else none
  | c :: cs =>
    match stripPrefix pat (c :: cs) with
    | some _ => some 0
    | none => (indexOf pat cs).map (· + 1)

/-- `bufio.Reader.ReadString('\n')`: the line with its newline, and the text
after it; `none` is `io.EOF` before a newline was seen. -/
def readLine : List Char → Option (List Char × List Char)
  | [] => none
  | c :: cs =>
    if c = '\n' then some (['\n'], cs)
    else (readLine cs).map fun lr => (c :: lr.1, lr.2)

/-! ## The regular expression `'.+'|".+"` (plugin.go, lines 111 and 115) -/

/-- A greedy `.*` followed by the quote `q`, at the head of the text: the
text taken by `.*`, the longest possible. `.` does not match a newline. -/
def greedyTo (q : Char) : List Char → Option (List Char)
  | [] => none
  | c :: cs =>
    if c = '\n' then none
    else
      match greedyTo q cs with
      | some inner => some (c :: inner)
      | none => if c = q then some [] else none

/-- One alternative, `q.+q`, at the head of the text: the matched text. -/
def quotedWith (q : Char) : List Char → Option (List Char)
  | o :: c :: cs =>
    if o = q ∧ c ≠ '\n' then (greedyTo q cs).map fun inner => q :: c :: (inner ++ [q])
    else none
  | _ => none

/-- The whole expression at the head of the text, first alternative first. -/
def quotedAt (s : List Char) : Option (List Char) :=
  match quotedWith '\x27' s with
  | some m => some m
  | none => quotedWith '\x22' s

/-- `regexp.MustCompile(...).FindString(line)`: the leftmost match; `none`
stands for the empty string returned when there is no match. -/
def findQuoted : List Char → Option (List Char)
  | [] => none
  | c :: cs =>
    match quotedAt (c :: cs) with
    | some m => some m
    | none => findQuoted cs

/-- The slice `m[1 : len(m)-1]`. -/
def unquote (m : List Char) : List Char := (m.drop 1).dropLast

/-! ## The sentinel expression (plugin.go, line 256) -/

/-- The literal `// BEGIN ALGORITHM CONFIG //`. -/
def algorithmStartMsg : List Char := "// BEGIN ALGORITHM CONFIG //".toList

/-- The literal `// END ALGORITHM CONFIG //`. -/
def algorithmEndMsg : List Char := "// END ALGORITHM CONFIG //".toList

/-- `//\s*WORD\s*ALGORITHM\s*CONFIG\s*//` at the head of the text: the text
after the match. -/
def matchSentinel (word : List Char) (s : List Char) : Option (List Char) :=
  (stripPrefix "//".toList s).bind fun s1 =>
  (stripPrefix word (skipSpaces s1)).bind fun s2 =>
  (stripPrefix "ALGORITHM".toList (skipSpaces s2)).bind fun s3 =>
  (stripPrefix "CONFIG".toList (skipSpaces s3)).bind fun s4 =>
  stripPrefix "//".toList (skipSpaces s4)

/-- The lazy `[\W\w]*?` followed by the END sentinel: the text after the
first END sentinel at or after the head. -/
def findEnd : List Char → Option (List Char)
  | [] => none
  | c :: cs =>
    match matchSentinel "END".toList (c :: cs) with
    | some r => some r
    | none => findEnd cs

/-- The whole expression at the head of the text: the text after the match. -/
def matchRegion (s : List Char) : Option (List Char) :=
  (matchSentinel "BEGIN".toList s).bind findEnd

/-- The leftmost match of the expression in `s`, as the text before it, the
matched text and the text after it. -/
def findRegion : List Char → Option (List Char × List Char × List Char)
  | [] => none
  | c :: cs =>
    match matchRegion (c :: cs) with
    | some rest => some ([], (c :: cs).take ((c :: cs).length - rest.length), rest)
    | none => (findRegion cs).map fun r => (c :: r.1, r.2.1, r.2.2)

/-! ## `Regexp.ReplaceAllString` and the template expansion it performs -/

/-- A character of a `$name`: a letter, a digit or an underscore. -/
def isNameChar (L : Lib) (c : Char) : Bool :=
  c.isAlphanum || c == '_' || (decide (128 ≤ c.toNat) && L.isLetterOrDigit c)

/-- `regexp.extract`: the name after a `$` and the template after the name. -/
def extract (L : Lib) (str : List Char) : Option (List Char × List Char) :=
  match str with
  | [] => none
  | '\x7b' :: t =>
    if t.takeWhile (isNameChar L) = [] then none
    else
      match t.dropWhile (isNameChar L) with
      | '\x7d' :: rest => some (t.takeWhile (isNameChar L), rest)
      | _ => none
  | c :: t =>
    if (c :: t).takeWhile (isNameChar L) = [] then none
    else some ((c :: t).takeWhile (isNameChar L), (c :: t).dropWhile (isNameChar L))

/-- What a reference `$name` stands for: the expression has no capturing
group, so `$0` is the whole match and every other name is empty. -/
def submatch (name matched : List Char) : List Char :=
  if name = ['0'] then matched else []

/-- `Regexp.expand`, with `fuel` bounding the number of steps: text up to a
`$` is copied; `$$` is a `$`; a `$` that no name follows is copied; a
reference is replaced by what it stands for. -/
def expandAux (L : Lib) (matched : List Char) : Nat → List Char → List Char
  | 0, template => template
  | _ + 1, [] => []
  | fuel + 1, c :: t =>
    if c ≠ '$' then c :: expandAux L matched fuel t
    else if t.head? = some '$' then '$' :: expandAux L matched fuel t.tail
    else
      match extract L t with
      | none => '$' :: expandAux L matched fuel t
      | some (name, rest) => submatch name matched ++ expandAux L matched fuel rest

/-- `Regexp.expand(nil, template, src, match)`. -/
def expand (L : Lib) (template matched : List Char) : List Char :=
  expandAux L matched template.length template

/-- The loop of `Regexp.replaceAll`, with `fuel` bounding the number of matches. -/
def replaceAllAux (repl : List Char → List Char) : Nat → List Char → List Char
  | 0, src => src
  | fuel + 1, src =>
    match findRegion src with
    | none => src
    | some (before, matched, after) => before ++ repl matched ++ replaceAllAux repl fuel after

/-- `regexp.MustCompile(regex).ReplaceAllString(src, repl)` for the sentinel
expression. A match is never empty, so `src.length` matches are enough. -/
def ReplaceAllString (L : Lib) (src repl : List Char) : List Char :=
  replaceAllAux (expand L repl) src.length src

/-! ## Results -/

/-- An error of the document store: one reported by the server or the
connection (`fault`), `mgo.ErrNotFound`, or a duplicate `_id`. -/
inductive StoreError where
  | fault
  | notFound
  | duplicateKey
  deriving DecidableEq

/-- How a call can fail: an `errors.New(msg)`, an error of the store passed
on unchanged, or a run-time panic (a slice expression out of range). -/
inductive Failure where
  | error (msg : String)
  | store (e : StoreError)
  | panic
  deriving DecidableEq

/-! ## The `mongo` wrappers (mongo.go) on the plugin collection

Each wrapper takes a flag `fault` saying whether the store fails this
operation; a failed operation leaves the collection as it was. -/

/-- `mongo.Insert(pluginCollectionName, doc)`: `_id` is a unique key. -/
def mongo.Insert (fault : Bool) (doc : Plugin) (s : Store) : Except StoreError Store :=
  if fault then .error .fault
  else if s.any (fun p => p.Id == doc.Id) then .error .duplicateKey
  else .ok (s ++ [doc])

/-- Remove the first document whose `_id` is `id`. -/
def removeFirst (id : String) : Store → Option Store
  | [] => none
  | p :: ps => if p.Id = id then some ps else (removeFirst id ps).map (p :: ·)

/-- `mongo.RemoveId(pluginCollectionName, id)`. -/
def mongo.RemoveId (fault : Bool) (id : String) (s : Store) : Except StoreError Store :=
  if fault then .error .fault
  else
    match removeFirst id s with
    | none => .error .notFound
    | some s1 => .ok s1

/-- Apply `f` to the first document whose `_id` is `id`. -/
def updateFirst (id : String) (f : Plugin → Plugin) : Store → Option Store
  | [] => none
  | p :: ps => if p.Id = id then some (f p :: ps) else (updateFirst id f ps).map (p :: ·)

/-- `mongo.UpdateId(pluginCollectionName, id, bson.M{"content": .., "algorithm_config": ..,
"md5": ..})`: a `$set` of the three fields. -/
def mongo.UpdateId (fault : Bool) (id : String) (content : List Char) (config : JObj)
    (md5 : String) (s : Store) : Except StoreError Store :=
  if fault then .error .fault
  else
    match updateFirst id
        (fun p => { p with Content := content, AlgorithmConfig := config, Md5 := md5 }) s with
    | none => .error .notFound
    | some s1 => .ok s1

/-- The projection `Select(bson.M{"content": 0})`: the document without its content. -/
def withoutContent (p : Plugin) : Plugin := { p with Content := [] }

/-- `GetPluginById` (plugin.go, lines 271-281). -/
def GetPluginById (fault : Bool) (s : Store) (id : String) (hasContent : Bool) :
    Except StoreError Plugin :=
  if fault then .error .fault
  else
    match s.find? (fun p => p.Id == id) with
    | none => .error .notFound
    | some p => .ok (if hasContent then p else withoutContent p)

/-- The order of `Sort("-upload_time")`: newest first. -/
def newerFirst (a b : Plugin) : Prop := b.UploadTime ≤ a.UploadTime

instance : DecidableRel newerFirst := fun a b => Int.decLe b.UploadTime a.UploadTime

/-- `GetPluginsByApp` (plugin.go, lines 283-296): the number of plugins of the
application and, without their content, the plugins sorted by upload time
descending, after `skip` of them, at most `limit` of them when `limit` is
positive (a limit of 0 is no limit). The store does not fix the order among
plugins of equal upload time; here it is the one insertion sort gives. -/
def GetPluginsByApp (fault : Bool) (s : Store) (appId : String) (skip limit : Nat) :
    Except StoreError (Nat × List Plugin) :=
  if fault then .error .fault
  else
    let found := ((s.filter (fun p => p.AppId == appId)).insertionSort newerFirst).drop skip
    .ok ((s.filter (fun p => p.AppId == appId)).length,
      ((if limit = 0 then found else found.take limit).map withoutContent))

/-! ## `AddPlugin` and `addPluginToDb` (plugin.go, lines 98-184) -/

/-- The loop `for _, oldPlugin := range oldPlugins` (lines 174-179); the
`i`-th store operation of the call fails when `fault i`. -/
def removeOld (fault : Nat → Bool) : Nat → List Plugin → Store → Option StoreError × Store
  | _, [], s => (none, s)
  | i, oldPlugin :: rest, s =>
    match mongo.RemoveId (fault i) oldPlugin.Id s with
    | .error e => (some e, s)
    | .ok s1 => removeOld fault (i + 1) rest s1

/-- The last statement of `addPluginToDb`, `err = mongo.Insert(...)`. (When the
insertion fails Go returns the error next to the document it built; callers
look at the error first, and the result here is the error.) -/
def insertPlugin (fault : Bool) (plugin : Plugin) (s : Store) : Except Failure Plugin × Store :=
  match mongo.Insert fault plugin s with
  | .error e => (.error (.store e), s)
  | .ok s1 => (.ok plugin, s1)

/-- The document `addPluginToDb` builds (lines 151-162); `id` is the value of
`generatePluginId(appId)` and `now` that of `time.Now().UnixNano() / 1000000`. -/
def pluginDoc (L : Lib) (id : String) (now : Int) (version name content : List Char)
    (appId : String) (defaultAlgorithmConfig : JObj) : Plugin :=
  { Id := id, Version := version, Name := name, Md5 := L.md5Hex content, Content := content,
    UploadTime := now, AppId := appId, DefaultAlgorithmConfig := defaultAlgorithmConfig,
    AlgorithmConfig := defaultAlgorithmConfig }

/-- `addPluginToDb` (lines 149-184). The store operations of the call are
numbered from 0 and operation `i` fails when `fault i`: the eviction query is
operation 0, the removals follow, the insertion is last. -/
def addPluginToDb (L : Lib) (MaxPlugins : Nat) (fault : Nat → Bool) (id : String) (now : Int)
    (version name content : List Char) (appId : String) (defaultAlgorithmConfig : JObj)
    (s : Store) : Except Failure Plugin × Store :=
  if 0 < MaxPlugins then
    match GetPluginsByApp (fault 0) s appId (MaxPlugins - 1) 0 with
    | .error e => (.error (.store e), s)
    | .ok (_, oldPlugins) =>
      match removeOld fault 1 oldPlugins s with
      | (some e, s1) => (.error (.store e), s1)
      | (none, s1) =>
        insertPlugin (fault (oldPlugins.length + 1))
          (pluginDoc L id now version name content appId defaultAlgorithmConfig) s1
  else insertPlugin (fault 0) (pluginDoc L id now version name content appId defaultAlgorithmConfig) s

/-- The text appended to the script given to the interpreter (line 132). -/
def stringifySuffix : List Char := "\n algorithmContent=JSON.stringify(algorithmConfig)".toList

/-- The parsing stage of `AddPlugin` (lines 100-144): version, name and
default configuration of the artifact. -/
def parsePlugin (L : Lib) (pluginContent : List Char) :
    Except Failure (List Char × List Char × JObj) :=
  match readLine pluginContent with
  | none => .error (.error "failed to read the plugin file: EOF")
  | some (firstLine, afterFirst) =>
    match readLine afterFirst with
    | none => .error (.error "failed to read the plugin file: EOF")
    | some (secondLine, _) =>
      match findQuoted firstLine with
      | none => .error (.error "failed to find the plugin version")
      | some newVersion =>
        match findQuoted secondLine with
        | none => .error (.error "failed to find the plugin name")
        | some newPluginName =>
          match indexOf algorithmStartMsg pluginContent with
          | none => .error (.error ("failed to find the start of algorithmConfig variable: "
              ++ String.mk algorithmStartMsg))
          | some start =>
            match indexOf algorithmEndMsg pluginContent with
            | none => .error (.error ("failed to find the end of algorithmConfig variable: "
                ++ String.mk algorithmEndMsg))
            | some algorithmEnd =>
              if algorithmEnd < start + algorithmStartMsg.length then .error .panic
              else
                match L.runScript
                    (((pluginContent.drop (start + algorithmStartMsg.length)).take
                      (algorithmEnd - (start + algorithmStartMsg.length))) ++ stringifySuffix) with
                | .runError e =>
                  .error (.error ("failed to get algorithm config from plugin: " ++ e))
                | .unmarshalError e =>
                  .error (.error ("failed to unmarshal algorithm json data: " ++ e))
                | .value algorithmData =>
                  .ok (unquote newVersion, unquote newPluginName, algorithmData)

/-- `AddPlugin` (lines 98-147). -/
def AddPlugin (L : Lib) (MaxPlugins : Nat) (fault : Nat → Bool) (id : String) (now : Int)
    (pluginContent : List Char) (appId : String) (s : Store) : Except Failure Plugin × Store :=
  match parsePlugin L pluginContent with
  | .error e => (.error e, s)
  | .ok (newVersion, newPluginName, algorithmData) =>
    addPluginToDb L MaxPlugins fault id now newVersion newPluginName pluginContent appId
      algorithmData s

/-! ## `validAlgorithmConfig` (plugin.go, lines 227-249) -/

/-- The local `errMsg` of `validAlgorithmConfig`. -/
def errMsg : String :=
  "failed to match the new config format to default algorithm config format"

/-- The error returned when `key` is absent (or null against a non-null default). -/
def missingKeyError (key : String) : String :=
  errMsg ++ ", " ++ "can not find the key '" ++ key ++ "' in new config"

/-- The error returned when the object at `key` lacks `subKey`. -/
def missingSubKeyError (key subKey : String) : String :=
  errMsg ++ ", " ++ "can not find the key '" ++ key ++ "." ++ subKey ++ "' in new config"

/-- The error returned when the value at `key` is not an object. -/
def notObjectError (key : String) : String :=
  errMsg ++ ", " ++ "the key '" ++ key ++ "' must be an object"

/-- The inner loop `for subKey := range defaultItem` (lines 236-241). -/
def checkSubKeys (key : String) (item : JObj) : JObj → Option String
  | [] => none
  | (subKey, _) :: rest =>
    match item.lookup subKey with
    | none => some (missingSubKeyError key subKey)
    | some _ => checkSubKeys key item rest

/-- The body of the outer loop for one entry of the default (lines 230-246). -/
def checkEntry (config : JObj) (key : String) (defaultValue : JValue) : Option String :=
  match config.lookup key with
  | none => some (missingKeyError key)
  | some c =>
    if c.isNull && !defaultValue.isNull then some (missingKeyError key)
    else
      match defaultValue with
      | .obj defaultItem =>
        match c with
        | .obj item => checkSubKeys key item defaultItem
        | _ => some (notObjectError key)
      | _ => none

/-- The outer loop `for key, defaultValue := range plugin.DefaultAlgorithmConfig`. -/
def checkEntries (config : JObj) : JObj → Option String
  | [] => none
  | (key, defaultValue) :: rest =>
    match checkEntry config key defaultValue with
    | some e => some e
    | none => checkEntries config rest

/-- The function `validAlgorithmConfig`: `none` is the `nil` error. -/
def validAlgorithmConfig (plugin : Plugin) (config : JObj) : Option String :=
  checkEntries config plugin.DefaultAlgorithmConfig

/-! ## `handleAlgorithmConfig`, `UpdateAlgorithmConfig`, `RestoreDefaultConfiguration` -/

/-- The local `newContent` of `handleAlgorithmConfig` (lines 257-259). -/
def newContent (L : Lib) (config : JObj) : List Char :=
  "// BEGIN ALGORITHM CONFIG //\n\n".toList ++ "var algorithmConfig = ".toList ++
    L.MarshalIndent config ++ "\n\n// END ALGORITHM CONFIG //".toList

/-- `handleAlgorithmConfig` (lines 251-269); `fault` is the flag of its `UpdateId`. -/
def handleAlgorithmConfig (L : Lib) (fault : Bool) (plugin : Plugin) (config : JObj)
    (s : Store) : Except Failure String × Store :=
  match findRegion plugin.Content with
  | none => (.error (.error "failed to find algorithmConfig variable"), s)
  | some _ =>
    match mongo.UpdateId fault plugin.Id (ReplaceAllString L plugin.Content (newContent L config))
        config (L.md5Hex (ReplaceAllString L plugin.Content (newContent L config))) s with
    | .error e => (.error (.store e), s)
    | .ok s1 => (.ok plugin.AppId, s1)

/-- `RestoreDefaultConfiguration` (lines 208-214). -/
def RestoreDefaultConfiguration (L : Lib) (faultGet faultUpdate : Bool) (pluginId : String)
    (s : Store) : Except Failure String × Store :=
  match GetPluginById faultGet s pluginId true with
  | .error e => (.error (.store e), s)
  | .ok plugin => handleAlgorithmConfig L faultUpdate plugin plugin.DefaultAlgorithmConfig s

/-- `UpdateAlgorithmConfig` (lines 216-225). -/
def UpdateAlgorithmConfig (L : Lib) (faultGet faultUpdate : Bool) (pluginId : String)
    (config : JObj) (s : Store) : Except Failure String × Store :=
  match GetPluginById faultGet s pluginId true with
  | .error e => (.error (.store e), s)
  | .ok plugin =>
    match validAlgorithmConfig plugin config with
    | some e => (.error (.error e), s)
    | none => handleAlgorithmConfig L faultUpdate plugin config s

/-! ## Notions used to state the theorems -/

/-- The `_id`s of the documents of a collection. -/
def ids (s : Store) : List String := s.map Plugin.Id

/-- The collection without the documents whose `_id` is in `gone`. -/
def without (gone : List String) (s : Store) : Store := s.filter fun p => decide (p.Id ∉ gone)

/-- The excess plugins of an application under the ceiling `MaxPlugins`: its
plugins after the `MaxPlugins - 1` newest, newest first; the documents of the
eviction query `GetPluginsByApp(appId, MaxPlugins-1, 0)`. -/
def excess (MaxPlugins : Nat) (appId : String) (s : Store) : List Plugin :=
  ((s.filter (fun p => p.AppId == appId)).insertionSort newerFirst).drop (MaxPlugins - 1)

/-- The document `handleAlgorithmConfig` leaves in place of `plugin`: content
rewritten, configuration replaced, digest recomputed. -/
def rewritten (L : Lib) (plugin : Plugin) (config : JObj) : Plugin :=
  { plugin with
    Content := ReplaceAllString L plugin.Content (newContent L config)
    AlgorithmConfig := config
    Md5 := L.md5Hex (ReplaceAllString L plugin.Content (newContent L config)) }

/-- The last `n` elements of a list. -/
def lastN {α : Type} (n : Nat) (l : List α) : List α := l.drop (l.length - n)

/-- One call of `AddPlugin`: the id and the time the call draws, and the artifact. -/
structure Upload where
  id : String
  now : Int
  content : List Char

/-- The plugin a call of `AddPlugin` creates, when its artifact parses. -/
def createdBy (L : Lib) (appId : String) (u : Upload) : Option Plugin :=
  match parsePlugin L u.content with
  | .ok (v, n, cfg) => some (pluginDoc L u.id u.now v n u.content appId cfg)
  | .error _ => none

/-- Sequential calls of `AddPlugin` for one application, no store operation failing. -/
def uploadAll (L : Lib) (MaxPlugins : Nat) (appId : String) (us : List Upload) (s : Store) :
    Store :=
  us.foldl (fun s1 u => (AddPlugin L MaxPlugins (fun _ => false) u.id u.now u.content appId s1).2) s

/-! ## Specification-side predicates -/

/-- The condition of the specification on `config` for one entry `k ↦ dv` of
the default: `config` has `k`; its value is non-null when `dv` is; and when
`dv` is an object, its value is an object with every sub-key of `dv`. -/
def EntryOk (config : JObj) (k : String) (dv : JValue) : Prop :=
  ∃ cv, config.lookup k = some cv ∧ (dv.isNull = false → cv.isNull = false) ∧
    ∀ dobj, dv = .obj dobj → ∃ cobj, cv = .obj cobj ∧ ∀ sk ∈ keys dobj, sk ∈ keys cobj

/-- The configuration is a superset by key of the default at depth at most 1:
it has every top-level key of the default, and where the default value is an
object its value is an object with every sub-key of the default's. -/
def SupersetByKey (d c : JObj) : Prop :=
  ∀ k dv, (k, dv) ∈ d → ∃ cv, c.lookup k = some cv ∧
    ∀ dobj, dv = .obj dobj → ∃ cobj, cv = .obj cobj ∧ ∀ sk ∈ keys dobj, sk ∈ keys cobj

/-- The configuration has no null value at a key whose default value is not null. -/
def NonNullWhereDefault (d c : JObj) : Prop :=
  ∀ k dv, (k, dv) ∈ d → dv.isNull = false → ∀ cv, c.lookup k = some cv → cv.isNull = false

/-- The message `msg` names the key `k`: it contains `k` between single quotes. -/
def Names (msg k : String) : Prop := ("'" ++ k ++ "'").toList <:+: msg.toList

instance (msg k : String) : Decidable (Names msg k) := by unfold Names; infer_instance

/-- `q` is one of the two quote characters. -/
def IsQuote (q : Char) : Prop := q = '\x27' ∨ q = '\x22'

/-- The line holds a quoted literal: a quote, one character or more with no
newline among them, and the same quote again. -/
def HasQuotedLiteral (line : List Char) : Prop :=
  ∃ q pre inner post, IsQuote q ∧ inner ≠ [] ∧ '\n' ∉ inner ∧
    line = pre ++ q :: (inner ++ q :: post)

/-- `text` is the text between the quotes of the literal of `line`: of the
leftmost quoted literal of the line, the longest one that starts there. -/
def IsLiteralOf (line text : List Char) : Prop :=
  ∃ q pre post, IsQuote q ∧ text ≠ [] ∧ '\n' ∉ text ∧ line = pre ++ q :: (text ++ q :: post) ∧
    ∀ q1 pre1 inner1 post1, IsQuote q1 → inner1 ≠ [] → '\n' ∉ inner1 →
      line = pre1 ++ q1 :: (inner1 ++ q1 :: post1) →
      pre.length ≤ pre1.length ∧ (pre1.length = pre.length → inner1.length ≤ text.length)

/-- The text holds the two literal markers, the BEGIN marker first. -/
def HasMarkers (content : List Char) : Prop :=
  ∃ pre mid post, content = pre ++ (algorithmStartMsg ++ (mid ++ (algorithmEndMsg ++ post)))

/-- The key-set invariant of a stored plugin: its configuration has every
top-level key of its default, and where the default value is an object the
configuration's value is an object with every sub-key of the default's. -/
def KeySetOk (p : Plugin) : Prop :=
  ∀ k dv, p.DefaultAlgorithmConfig.lookup k = some dv →
    ∃ cv, p.AlgorithmConfig.lookup k = some cv ∧
      ∀ dobj, dv = .obj dobj → ∃ cobj, cv = .obj cobj ∧ ∀ sk ∈ keys dobj, sk ∈ keys cobj

/-- What holds of every plugin of a reachable collection: its content has the
two markers, its configuration matches its default, its digest is that of
its content. -/
def Good (L : Lib) (p : Plugin) : Prop :=
  HasMarkers p.Content ∧ KeySetOk p ∧ p.Md5 = L.md5Hex p.Content

/-- The collections reached from the empty one by calls of `AddPlugin`,
`UpdateAlgorithmConfig` and `RestoreDefaultConfiguration`, with any
arguments and whichever store operations failing. -/
inductive Reachable (L : Lib) (MaxPlugins : Nat) : Store → Prop
  | empty : Reachable L MaxPlugins []
  | add (s : Store) (fault : Nat → Bool) (id : String) (now : Int) (content : List Char)
      (appId : String) : Reachable L MaxPlugins s →
      Reachable L MaxPlugins (AddPlugin L MaxPlugins fault id now content appId s).2
  | update (s : Store) (faultGet faultUpdate : Bool) (pluginId : String) (config : JObj) :
      Reachable L MaxPlugins s →
      Reachable L MaxPlugins (UpdateAlgorithmConfig L faultGet faultUpdate pluginId config s).2
  | restore (s : Store) (faultGet faultUpdate : Bool) (pluginId : String) :
      Reachable L MaxPlugins s →
      Reachable L MaxPlugins (RestoreDefaultConfiguration L faultGet faultUpdate pluginId s).2

/-- The invariant of a collection: distinct `_id`s and good plugins. -/
def StoreOk (L : Lib) (s : Store) : Prop := (ids s).Nodup ∧ ∀ p ∈ s, Good L p

/-! ## A model of `json.MarshalIndent(v, "", "\t")` for the examples -/

/-- A hexadecimal digit, lower case. -/
def hexDigit (n : Nat) : Char :=
  if n < 10 then Char.ofNat (48 + n) else Char.ofNat (87 + n)

/-- One character of a string as `encoding/json` writes it, HTML-safe. -/
def escapeChar (c : Char) : List Char :=
  if c = '\x22' then ['\\', '\x22']
  else if c = '\\' then ['\\', '\\']
  else if c = '\n' then ['\\', 'n']
  else if c = '\r' then ['\\', 'r']
  else if c = '\t' then ['\\', 't']
  else if c.toNat < 32 ∨ c = '<' ∨ c = '>' ∨ c = '&' ∨ c.toNat = 0x2028 ∨ c.toNat = 0x2029 then
    ['\\', 'u', hexDigit (c.toNat / 4096), hexDigit (c.toNat / 256 % 16),
      hexDigit (c.toNat / 16 % 16), hexDigit (c.toNat % 16)]
  else [c]

/-- A string as a JSON string literal. -/
def marshalString (s : String) : List Char :=
  '\x22' :: (s.toList.flatMap escapeChar ++ ['\x22'])

/-- A newline followed by `depth` tabs. -/
def newlineIndent (depth : Nat) : List Char := '\n' :: List.replicate depth '\t'

/-- Insert a member into a list of members sorted by key. -/
def insertMember (kv : String × JValue) : JObj → JObj
  | [] => [kv]
  | kv1 :: rest => if kv.1 ≤ kv1.1 then kv :: kv1 :: rest else kv1 :: insertMember kv rest

mutual
/-- The value with the members of every object sorted by key, the order in
which `encoding/json` writes a map. -/
def sortKeys : JValue → JValue
  | .arr xs => .arr (sortKeysList xs)
  | .obj kvs => .obj (sortKeysMembers kvs)
  | v => v
/-- `sortKeys` on the elements of an array. -/
def sortKeysList : List JValue → List JValue
  | [] => []
  | x :: xs => sortKeys x :: sortKeysList xs
/-- `sortKeys` on the members of an object, and the members sorted. -/
def sortKeysMembers : List (String × JValue) → List (String × JValue)
  | [] => []
  | (k, v) :: kvs => insertMember (k, sortKeys v) (sortKeysMembers kvs)
end

mutual
/-- The indented text of a value at nesting depth `depth`. -/
def marshalValue (depth : Nat) : JValue → List Char
  | .null => "null".toList
  | .bool b => if b then "true".toList else "false".toList
  | .num n => (toString n).toList
  | .str s => marshalString s
  | .arr [] => "[]".toList
  | .arr (x :: xs) =>
    '[' :: (newlineIndent (depth + 1) ++ marshalValue (depth + 1) x ++
      marshalElems (depth + 1) xs ++ newlineIndent depth ++ [']'])
  | .obj [] => ['\x7b', '\x7d']
  | .obj ((k, v) :: kvs) =>
    '\x7b' :: (newlineIndent (depth + 1) ++ marshalString k ++ ": ".toList ++
      marshalValue (depth + 1) v ++ marshalMembers (depth + 1) kvs ++ newlineIndent depth ++
      ['\x7d'])
/-- The elements of an array after the first, each after a comma. -/
def marshalElems (depth : Nat) : List JValue → List Char
  | [] => []
  | x :: xs => ',' :: (newlineIndent depth ++ marshalValue depth x ++ marshalElems depth xs)
/-- The members of an object after the first, each after a comma. -/
def marshalMembers (depth : Nat) : List (String × JValue) → List Char
  | [] => []
  | (k, v) :: kvs =>
    ',' :: (newlineIndent depth ++ marshalString k ++ ": ".toList ++ marshalValue depth v ++
      marshalMembers depth kvs)
end

/-- The text `json.MarshalIndent(config, "", "\t")` of a map. -/
def marshalIndent (config : JObj) : List Char := marshalValue 0 (sortKeys (.obj config))

/-! ## Examples -/

/-- The artifact of the specification's scenario. -/
def scenarioArtifact : List Char :=
  ("const version = \"v1.0\"\nconst name = \"MyPlugin\"\n// BEGIN ALGORITHM CONFIG //\n" ++
   "var algorithmConfig = \x7b\"a\": \x7b\"b\": 1\x7d\x7d\n// END ALGORITHM CONFIG //").toList

/-- The configuration of the specification's scenario, `a ↦ (b ↦ 1)`. -/
def scenarioConfig : JObj := [("a", .obj [("b", .num 1)])]

/-- The script the interpreter is given for the scenario's artifact. -/
def scenarioScript : List Char :=
  "\nvar algorithmConfig = \x7b\"a\": \x7b\"b\": 1\x7d\x7d\n".toList ++ stringifySuffix

/-- An artifact whose configuration is `a ↦ 1`. -/
def flatArtifact : List Char :=
  ("const version = \"v1.0\"\nconst name = \"MyPlugin\"\n// BEGIN ALGORITHM CONFIG //\n" ++
   "var algorithmConfig = \x7b\"a\": 1\x7d\n// END ALGORITHM CONFIG //").toList

/-- The configuration `a ↦ 1`. -/
def flatConfig : JObj := [("a", .num 1)]

/-- The script the interpreter is given for `flatArtifact`. -/
def flatScript : List Char := "\nvar algorithmConfig = \x7b\"a\": 1\x7d\n".toList ++ stringifySuffix

/-- The scenario's artifact with its configuration block in the form
`handleAlgorithmConfig` writes. -/
def canonicalArtifact : List Char :=
  "const version = \"v1.0\"\nconst name = \"MyPlugin\"\n".toList ++
    (algorithmStartMsg ++ "\n\nvar algorithmConfig = ".toList ++ marshalIndent scenarioConfig ++
      "\n\n".toList ++ algorithmEndMsg) ++ "\n".toList

/-- The script the interpreter is given for `canonicalArtifact`. -/
def canonicalScript : List Char :=
  "\n\nvar algorithmConfig = ".toList ++ marshalIndent scenarioConfig ++ "\n\n".toList ++
    stringifySuffix

/-- The scripts the interpreter of the examples knows, with their values. -/
def knownScripts : List (List Char × JObj) :=
  [(scenarioScript, scenarioConfig), (flatScript, flatConfig), (canonicalScript, scenarioConfig)]

/-- Library functions for the examples: a checksum in place of MD5, the model
of `MarshalIndent` above, and an interpreter that knows the scripts above. -/
def exampleLib : Lib :=
  { md5Hex := fun b => toString ((b.map Char.toNat).sum % 4294967296)
    MarshalIndent := marshalIndent
    runScript := fun script =>
      match knownScripts.lookup script with
      | some cfg => .value cfg
      | none => .runError "ReferenceError: 'algorithmConfig' is not defined"
    isLetterOrDigit := fun _ => false }

/-- A plugin for examples: the given default configuration, stored under id `p1`. -/
def examplePlugin (content : List Char) (d : JObj) : Plugin :=
  { Id := "p1", AppId := "app", Name := "MyPlugin".toList, UploadTime := 1,
    Version := "v1.0".toList, Md5 := "", Content := content,
    DefaultAlgorithmConfig := d, AlgorithmConfig := d }

/-- The plugin `AddPlugin` creates from the scenario's artifact. -/
def scenarioPlugin : Plugin :=
  pluginDoc exampleLib "p1" 1 "v1.0".toList "MyPlugin".toList scenarioArtifact "app" scenarioConfig

/-- The collection after that one create. -/
def scenarioStore : Store :=
  (AddPlugin exampleLib 10 (fun _ => false) "p1" 1 scenarioArtifact "app" []).2

/-- A configuration with more keys than the scenario's default. -/
def widerConfig : JObj := [("a", .obj [("b", .num 2), ("c", .str "x")]), ("d", .null)]

/-- A configuration with a `$` in a string value: `a ↦ (b ↦ "$5")`. -/
def dollarConfig : JObj := [("a", .obj [("b", .str "$5")])]

/-- An artifact whose first line holds the empty literal `""`. -/
def emptyVersionArtifact : List Char :=
  ("const version = \"\"\nconst name = \"MyPlugin\"\n// BEGIN ALGORITHM CONFIG //\n" ++
   "var algorithmConfig = \x7b\"a\": \x7b\"b\": 1\x7d\x7d\n// END ALGORITHM CONFIG //").toList

/-- Ten plugins of the application `app`, uploaded at times 0 to 9. -/
def tenPlugins : Store :=
  (List.range 10).map fun i =>
    { Id := toString i, AppId := "app", Name := "MyPlugin".toList, UploadTime := i,
      Version := "v1.0".toList, Md5 := "", Content := scenarioArtifact,
      DefaultAlgorithmConfig := scenarioConfig, AlgorithmConfig := scenarioConfig }

/-- Twelve uploads of the scenario's artifact, at times 0 to 11. -/
def twelveUploads : List Upload :=
  (List.range 12).map fun i => { id := toString i, now := i, content := scenarioArtifact }

/-! ## The alarm buffers and the batch uploader (`models/logs/log_handle.go`)

A buffered channel is its capacity and the events it holds, oldest first. The
functions below are run one at a time: a producer's `AddLogWithES` and a
cycle of the consumer's `handleEsLogPush` are steps on the pair of channels.
`es.BulkInsert` is a parameter; what it is called with is part of a cycle's
result. -/

/-- The variable `AttackAlarmType`. -/
def AttackAlarmType : String := "attack-alarm"

/-- The variable `PolicyAlarmType`. -/
def PolicyAlarmType : String := "policy-alarm"

/-- The buffer size `init` arrives at (log_handle.go, lines 100-106) from the
configured `AlarmBufferSize`: `none` is the fatal `tools.Panic` for a value
that is not positive; a value below 100 is raised to 100. -/
def alarmBufferSize (configured : Int) : Option Nat :=
  if configured ≤ 0 then none
  else if configured < 100 then some 100
  else some configured.toNat

/-- A channel `chan map[string]interface{}` made with `make(chan ..., cap)`. -/
structure Chan where
  cap : Nat
  buf : List JObj

/-- The two package-level channels. -/
structure AlarmBuffers where
  esAttackAlarmBuffer : Chan
  esPolicyAlarmBuffer : Chan

/-- The channels as `init` makes them (lines 107-108), both empty. -/
def makeBuffers (size : Nat) : AlarmBuffers :=
  { esAttackAlarmBuffer := { cap := size, buf := [] }
    esPolicyAlarmBuffer := { cap := size, buf := [] } }

/-- The statement `select { case ch <- alarm: default: ... }`: the send goes
through when the channel holds fewer events than its capacity; the result
is the channel afterwards and whether the event was sent. -/
def Chan.trySend (ch : Chan) (alarm : JObj) : Chan × Bool :=
  if ch.buf.length < ch.cap then ({ ch with buf := ch.buf ++ [alarm] }, true)
  else (ch, false)

/-- What a call of `AddLogWithES` leaves: the error it returns, the channels,
and the event whose drop it logged with `logs.Error`, if any. -/
structure Enqueued where
  err : Option String
  buffers : AlarmBuffers
  dropped : Option JObj

/-- `AddLogWithES` (lines 196-211). -/
def AddLogWithES (alarmType : String) (alarm : JObj) (b : AlarmBuffers) : Enqueued :=
  if alarmType = AttackAlarmType then
    match b.esAttackAlarmBuffer.trySend alarm with
    | (ch, true) => { err := none, buffers := { b with esAttackAlarmBuffer := ch }, dropped := none }
    | (_, false) => { err := none, buffers := b, dropped := some alarm }
  else if alarmType = PolicyAlarmType then
    match b.esPolicyAlarmBuffer.trySend alarm with
    | (ch, true) => { err := none, buffers := { b with esPolicyAlarmBuffer := ch }, dropped := none }
    | (_, false) => { err := none, buffers := b, dropped := some alarm }
  else { err := none, buffers := b, dropped := none }

/-- How a call of `es.BulkInsert` ends. -/
inductive BulkResult where
  | ok
  | error (msg : String)
  | panic

/-- A line `handleEsLogPush` writes with `beego.Error`. -/
inductive ErrorLine where
  | bulkInsertFailed (msg : String)
  | recovered
  deriving DecidableEq

/-- The lines a cycle logs after its call of `es.BulkInsert` (lines 148-152,
162-164): the error returned, or the panic the deferred function recovers. -/
def afterBulk : BulkResult → List ErrorLine
  | .ok => []
  | .error msg => [.bulkInsertFailed msg]
  | .panic => [.recovered]

/-- The loop `for len(ch) > 0 && len(alarms) < 200 { alarm := <-ch; alarms =
append(alarms, alarm) }` (lines 157-160): the batch and what the channel
still holds. -/
def receiveMore : List JObj → List JObj → List JObj × List JObj
  | alarms, [] => (alarms, [])
  | alarms, alarm :: rest =>
    if alarms.length < 200 then receiveMore (alarms ++ [alarm]) rest
    else (alarms, alarm :: rest)

/-- The two alarm categories, the two cases of the `select`. -/
inductive Category where
  | attack
  | policy
  deriving DecidableEq

/-- The `select` of `handleEsLogPush`: a case is ready when its channel holds
an event, and the case taken receives the oldest event of its channel; of
two ready cases Go takes either one, here `pick`; `none` is the `select`
waiting, with no case ready. The result is the case taken, the event received
and what the channel still holds. -/
def selectCase (pick : Category) (b : AlarmBuffers) : Option (Category × JObj × List JObj) :=
  match b.esAttackAlarmBuffer.buf, b.esPolicyAlarmBuffer.buf with
  | [], [] => none
  | alarm :: rest, [] => some (.attack, alarm, rest)
  | [], alarm :: rest => some (.policy, alarm, rest)
  | alarm1 :: rest1, alarm2 :: rest2 =>
    match pick with
    | .attack => some (.attack, alarm1, rest1)
    | .policy => some (.policy, alarm2, rest2)

/-- What one cycle of `handleEsLogPush` does: the calls of `es.BulkInsert` it
makes, each with its type and batch, the channels it leaves, and the lines
it logs. -/
structure Cycle where
  bulkCalls : List (String × List JObj)
  buffers : AlarmBuffers
  logged : List ErrorLine

/-- `handleEsLogPush` (lines 147-177), a cycle with no send in between;
`bulk` is `es.BulkInsert`, and `none` is the cycle waiting in its `select`. -/
def handleEsLogPush (pick : Category) (bulk : String → List JObj → BulkResult)
    (b : AlarmBuffers) : Option Cycle :=
  match selectCase pick b with
  | none => none
  | some (.attack, alarm, rest) =>
    some
      { bulkCalls := [(AttackAlarmType, (receiveMore [alarm] rest).1)]
        buffers :=
          { b with esAttackAlarmBuffer :=
              { b.esAttackAlarmBuffer with buf := (receiveMore [alarm] rest).2 } }
        logged := afterBulk (bulk AttackAlarmType (receiveMore [alarm] rest).1) }
  | some (.policy, alarm, rest) =>
    some
      { bulkCalls := [(PolicyAlarmType, (receiveMore [alarm] rest).1)]
        buffers :=
          { b with esPolicyAlarmBuffer :=
              { b.esPolicyAlarmBuffer with buf := (receiveMore [alarm] rest).2 } }
        logged := afterBulk (bulk PolicyAlarmType (receiveMore [alarm] rest).1) }

/-- The loop of `startEsAlarmLogPush` (lines 139-145) run for at most `fuel`
cycles, until a cycle would wait: the calls of `es.BulkInsert` made, in
order, and the channels left. `pick i` settles the `select` of cycle `i`. -/
def pushCycles (pick : Nat → Category) (bulk : String → List JObj → BulkResult) :
    Nat → Nat → AlarmBuffers → List (String × List JObj) × AlarmBuffers
  | 0, _, b => ([], b)
  | fuel + 1, i, b =>
    match handleEsLogPush (pick i) bulk b with
    | none => ([], b)
    | some cycle =>
      (cycle.bulkCalls ++ (pushCycles pick bulk fuel (i + 1) cycle.buffers).1,
        (pushCycles pick bulk fuel (i + 1) cycle.buffers).2)

/-- Events sent one after the other with `AddLogWithES`: the channels left and
the events dropped, in order. -/
def enqueueAll (alarmType : String) : List JObj → AlarmBuffers → AlarmBuffers × List JObj
  | [], b => (b, [])
  | alarm :: rest, b =>
    ((enqueueAll alarmType rest (AddLogWithES alarmType alarm b).buffers).1,
      (AddLogWithES alarmType alarm b).dropped.toList ++
        (enqueueAll alarmType rest (AddLogWithES alarmType alarm b).buffers).2)

/-- The name of a category's alarm type. -/
def Category.alarmType : Category → String
  | .attack => AttackAlarmType
  | .policy => PolicyAlarmType

/-- The channel of a category. -/
def AlarmBuffers.chan (b : AlarmBuffers) : Category → Chan
  | .attack => b.esAttackAlarmBuffer
  | .policy => b.esPolicyAlarmBuffer

/-- The other category. -/
def Category.other : Category → Category
  | .attack => .policy
  | .policy => .attack

/-- The events given to `es.BulkInsert` for one alarm type, over a run of calls. -/
def delivered (alarmType : String) (calls : List (String × List JObj)) : List JObj :=
  (calls.filter fun call => call.1 == alarmType).flatMap Prod.snd

/-- No channel holds more events than its capacity. -/
def WithinCapacity (b : AlarmBuffers) : Prop :=
  b.esAttackAlarmBuffer.buf.length ≤ b.esAttackAlarmBuffer.cap ∧
    b.esPolicyAlarmBuffer.buf.length ≤ b.esPolicyAlarmBuffer.cap

/-- The channels with the content of one category's channel replaced. -/
def AlarmBuffers.setBuf (b : AlarmBuffers) (cat : Category) (buf : List JObj) : AlarmBuffers :=
  match cat with
  | .attack => { b with esAttackAlarmBuffer := { b.esAttackAlarmBuffer with buf := buf } }
  | .policy => { b with esPolicyAlarmBuffer := { b.esPolicyAlarmBuffer with buf := buf } }

/-- The cycle the specification describes for the category whose case the
`select` takes: one call of `es.BulkInsert` with the first 200 events of the
category's channel (all of them when there are fewer), which leave the
channel. -/
def cycleFor (cat : Category) (bulk : String → List JObj → BulkResult) (b : AlarmBuffers) :
    Cycle :=
  { bulkCalls := [(cat.alarmType, (b.chan cat).buf.take 200)]
    buffers := b.setBuf cat ((b.chan cat).buf.drop 200)
    logged := afterBulk (bulk cat.alarmType ((b.chan cat).buf.take 200)) }

/-- An event for the examples, numbered `i`. -/
def exampleAlarm (i : Nat) : JObj := [("event_id", .num i)]

/-- The events numbered 0 to `n - 1`. -/
def exampleAlarms (n : Nat) : List JObj := (List.range n).map exampleAlarm

/-- Channels of capacity 300 with 201 attack events and one policy event. -/
def busyBuffers : AlarmBuffers :=
  { esAttackAlarmBuffer := { cap := 300, buf := exampleAlarms 201 }
    esPolicyAlarmBuffer := { cap := 300, buf := [exampleAlarm 1000] } }

/-- An artifact whose END marker comes before its BEGIN marker. -/
def endFirstArtifact : List Char :=
  ("const version = \"v1.0\"\nconst name = \"MyPlugin\"\n// END ALGORITHM CONFIG //\n" ++
   "var algorithmConfig = \x7b\"a\": 1\x7d\n// BEGIN ALGORITHM CONFIG //").toList

/-- An artifact whose two markers overlap. -/
def overlapArtifact : List Char :=
  ("const version = \"v1.0\"\nconst name = \"MyPlugin\"\n" ++
   "// BEGIN ALGORITHM CONFIG // END ALGORITHM CONFIG //").toList

/-! # Theorems -/

/-! ## Maps -/

theorem lookup_eq_none_iff (m : JObj) (k : String) : m.lookup k = none ↔ k ∉ keys m := by
  induction m with
  | nil => simp [keys]
  | cons e m ih =>
    obtain ⟨k1, v1⟩ := e
    by_cases h : k = k1
    · subst h; simp [keys, List.lookup]
    · have h1 : (k == k1) = false := by simpa using h
      simp [keys, List.lookup, h1, h] at ih ⊢
      exact ih

theorem lookup_of_mem_nodup (m : JObj) (k : String) (v : JValue) (hn : (keys m).Nodup)
    (hm : (k, v) ∈ m) : m.lookup k = some v := by
  induction m with
  | nil => simp at hm
  | cons e m ih =>
    obtain ⟨k1, v1⟩ := e
    simp only [keys, List.map_cons, List.nodup_cons] at hn
    rcases List.mem_cons.1 hm with h | h
    · cases h; simp [List.lookup]
    · have hk : k ≠ k1 := by
        rintro rfl
        exact hn.1 (List.mem_map.2 ⟨(k, v), h, rfl⟩)
      have h1 : (k == k1) = false := by simpa using hk
      simp only [List.lookup, h1]
      exact ih hn.2 h

theorem checkSubKeys_eq_none_iff (key : String) (item dobj : JObj) :
    checkSubKeys key item dobj = none ↔ ∀ sk ∈ keys dobj, sk ∈ keys item := by
  induction dobj with
  | nil => simp [checkSubKeys, keys]
  | cons e dobj ih =>
    obtain ⟨sk, v⟩ := e
    have hk : keys ((sk, v) :: dobj) = sk :: keys dobj := rfl
    cases hl : item.lookup sk with
    | none =>
      have hnot := (lookup_eq_none_iff item sk).1 hl
      simp only [checkSubKeys, hl, hk]
      constructor
      · intro h; cases h
      · intro h; exact absurd (h sk (List.mem_cons_self _ _)) hnot
    | some w =>
      have hin : sk ∈ keys item := by
        by_contra hc
        rw [(lookup_eq_none_iff item sk).2 hc] at hl
        cases hl
      simp only [checkSubKeys, hl, ih, hk]
      constructor
      · intro h k1 hm
        rcases List.mem_cons.1 hm with h1 | h1
        · rw [h1]; exact hin
        · exact h k1 h1
      · intro h k1 hm
        exact h k1 (List.mem_cons_of_mem _ hm)

theorem checkEntry_eq_none_iff (config : JObj) (k : String) (dv : JValue) :
    checkEntry config k dv = none ↔ EntryOk config k dv := by
  unfold checkEntry EntryOk
  cases hl : config.lookup k with
  | none => simp
  | some c =>
    cases c <;> cases dv <;>
      simp [JValue.isNull, checkSubKeys_eq_none_iff]

theorem checkEntries_eq_none_iff (config d : JObj) :
    checkEntries config d = none ↔ ∀ k dv, (k, dv) ∈ d → EntryOk config k dv := by
  induction d with
  | nil => simp [checkEntries]
  | cons e d ih =>
    obtain ⟨k, dv⟩ := e
    cases hc : checkEntry config k dv with
    | some msg =>
      simp only [checkEntries, hc]
      constructor
      · intro h; cases h
      · intro h
        have := (checkEntry_eq_none_iff config k dv).2 (h k dv (List.mem_cons_self _ _))
        rw [hc] at this; cases this
    | none =>
      simp only [checkEntries, hc, ih]
      have h0 := (checkEntry_eq_none_iff config k dv).1 hc
      constructor
      · intro h k1 dv1 hm
        rcases List.mem_cons.1 hm with h1 | h1
        · cases h1; exact h0
        · exact h k1 dv1 h1
      · intro h k1 dv1 hm
        exact h k1 dv1 (List.mem_cons_of_mem _ hm)

/-! ## Validation -/

theorem names_missingKeyError (k : String) : Names (missingKeyError k) k := by
  refine ⟨(errMsg ++ ", " ++ "can not find the key ").toList, " in new config".toList, ?_⟩
  simp [missingKeyError, String.toList]

theorem names_missingSubKeyError (k sk : String) :
    Names (missingSubKeyError k sk) (k ++ "." ++ sk) := by
  refine ⟨(errMsg ++ ", " ++ "can not find the key ").toList, " in new config".toList, ?_⟩
  simp [missingSubKeyError, String.toList]

theorem checkEntry_cons_config (config : JObj) (k k1 : String) (v dv : JValue) (h : k1 ≠ k) :
    checkEntry ((k, v) :: config) k1 dv = checkEntry config k1 dv := by
  have h1 : (k1 == k) = false := by simpa using h
  simp [checkEntry, List.lookup, h1]

theorem checkEntries_cons_config (config d : JObj) (k : String) (v : JValue)
    (h : k ∉ keys d) : checkEntries ((k, v) :: config) d = checkEntries config d := by
  induction d with
  | nil => rfl
  | cons e d ih =>
    obtain ⟨k1, dv⟩ := e
    have hk : keys ((k1, dv) :: d) = k1 :: keys d := rfl
    rw [hk, List.mem_cons, not_or] at h
    simp only [checkEntries, checkEntry_cons_config config k k1 v dv (Ne.symm h.1), ih h.2]

theorem checkEntries_append (config pre rest : JObj)
    (h : ∀ e ∈ pre, checkEntry config e.1 e.2 = none) :
    checkEntries config (pre ++ rest) = checkEntries config rest := by
  induction pre with
  | nil => rfl
  | cons e pre ih =>
    obtain ⟨k, dv⟩ := e
    have h0 := h (k, dv) (List.mem_cons_self _ _)
    simp only [List.cons_append, checkEntries, h0]
    exact ih fun e he => h e (List.mem_cons_of_mem _ he)

theorem checkSubKeys_append (key : String) (item pre rest : JObj)
    (h : ∀ e ∈ pre, e.1 ∈ keys item) :
    checkSubKeys key item (pre ++ rest) = checkSubKeys key item rest := by
  induction pre with
  | nil => rfl
  | cons e pre ih =>
    obtain ⟨sk, sv⟩ := e
    have h0 := h (sk, sv) (List.mem_cons_self _ _)
    cases hl : item.lookup sk with
    | none => exact absurd h0 ((lookup_eq_none_iff item sk).1 hl)
    | some w =>
      simp only [List.cons_append, checkSubKeys, hl]
      exact ih fun e he => h e (List.mem_cons_of_mem _ he)

theorem entryOk_self (d : JObj) (hn : (keys d).Nodup) (k : String) (dv : JValue)
    (hm : (k, dv) ∈ d) : EntryOk d k dv :=
  ⟨dv, lookup_of_mem_nodup d k dv hn hm, fun h => h, fun dobj h => ⟨dobj, h, fun _ hs => hs⟩⟩

/-! ## The expression for quoted literals -/

theorem greedyTo_some (q : Char) (s inner : List Char) (h : greedyTo q s = some inner) :
    '\n' ∉ inner ∧ ∃ post, s = inner ++ q :: post := by
  induction s generalizing inner with
  | nil => simp [greedyTo] at h
  | cons c cs ih =>
    unfold greedyTo at h
    by_cases hc : c = '\n'
    · simp [hc] at h
    · simp only [hc, if_false] at h
      cases hg : greedyTo q cs with
      | some inner1 =>
        rw [hg] at h
        simp only [Option.some.injEq] at h
        subst h
        obtain ⟨h1, post, h2⟩ := ih inner1 hg
        refine ⟨?_, post, by rw [h2]; rfl⟩
        simp only [List.mem_cons, not_or]
        exact ⟨fun e => hc e.symm, h1⟩
      | none =>
        rw [hg] at h
        by_cases hq : c = q
        · simp only [hq, if_true, Option.some.injEq] at h
          subst h
          exact ⟨by simp, cs, by simp [hq]⟩
        · simp [hq] at h

theorem greedyTo_none (q : Char) (hq : q ≠ '\n') (s : List Char) (h : greedyTo q s = none)
    (inner post : List Char) (hi : '\n' ∉ inner) : s ≠ inner ++ q :: post := by
  induction s generalizing inner with
  | nil => simp
  | cons c cs ih =>
    unfold greedyTo at h
    intro heq
    by_cases hc : c = '\n'
    · cases inner with
      | nil =>
        simp only [List.nil_append, List.cons.injEq] at heq
        exact hq (heq.1 ▸ hc)
      | cons a inner1 =>
        simp only [List.cons_append, List.cons.injEq] at heq
        exact hi (by rw [← heq.1, hc]; exact List.mem_cons_self _ _)
    · simp only [hc, if_false] at h
      cases hg : greedyTo q cs with
      | some inner1 => rw [hg] at h; cases h
      | none =>
        rw [hg] at h
        cases inner with
        | nil =>
          simp only [List.nil_append, List.cons.injEq] at heq
          simp [heq.1] at h
        | cons a inner1 =>
          simp only [List.cons_append, List.cons.injEq] at heq
          exact ih hg inner1 (fun hm => hi (List.mem_cons_of_mem _ hm)) heq.2

theorem quotedWith_some (q : Char) (s m : List Char) (h : quotedWith q s = some m) :
    ∃ inner post, inner ≠ [] ∧ '\n' ∉ inner ∧ m = q :: (inner ++ [q]) ∧
      s = q :: (inner ++ q :: post) := by
  match s, h with
  | o :: c :: cs, h =>
    simp only [quotedWith] at h
    by_cases hc : o = q ∧ c ≠ '\n'
    · rw [if_pos hc] at h
      cases hg : greedyTo q cs with
      | none => simp [hg] at h
      | some inner1 =>
        simp only [hg, Option.map_some', Option.some.injEq] at h
        obtain ⟨h1, post, h2⟩ := greedyTo_some q cs inner1 hg
        refine ⟨c :: inner1, post, by simp, ?_, by rw [← h]; simp, by rw [hc.1, h2]; simp⟩
        simp only [List.mem_cons, not_or]
        exact ⟨fun e => hc.2 e.symm, h1⟩
    · rw [if_neg hc] at h; cases h
  | [], h => simp [quotedWith] at h
  | [_], h => simp [quotedWith] at h

theorem quotedWith_none (q : Char) (hq : q ≠ '\n') (s : List Char) (h : quotedWith q s = none)
    (inner post : List Char) (hne : inner ≠ []) (hi : '\n' ∉ inner) :
    s ≠ q :: (inner ++ q :: post) := by
  intro heq
  cases inner with
  | nil => exact hne rfl
  | cons c inner1 =>
    subst heq
    simp only [List.mem_cons, not_or] at hi
    have hc : c ≠ '\n' := fun e => hi.1 e.symm
    simp only [quotedWith, List.cons_append, hc, ne_eq, not_false_eq_true, and_self, if_true,
      Option.map_eq_none'] at h
    exact greedyTo_none q hq _ h inner1 post hi.2 rfl

theorem quotedAt_some (s m : List Char) (h : quotedAt s = some m) :
    ∃ q inner post, IsQuote q ∧ inner ≠ [] ∧ '\n' ∉ inner ∧ m = q :: (inner ++ [q]) ∧
      s = q :: (inner ++ q :: post) := by
  unfold quotedAt at h
  cases h1 : quotedWith '\x27' s with
  | some m1 =>
    rw [h1] at h
    rw [Option.some.inj h] at h1
    obtain ⟨inner, post, a, b, c, d⟩ := quotedWith_some _ s m h1
    exact ⟨_, inner, post, Or.inl rfl, a, b, c, d⟩
  | none =>
    rw [h1] at h
    obtain ⟨inner, post, a, b, c, d⟩ := quotedWith_some _ s m h
    exact ⟨_, inner, post, Or.inr rfl, a, b, c, d⟩

theorem quotedAt_none (s : List Char) (h : quotedAt s = none) (q : Char) (hq : IsQuote q)
    (inner post : List Char) (hne : inner ≠ []) (hi : '\n' ∉ inner) :
    s ≠ q :: (inner ++ q :: post) := by
  unfold quotedAt at h
  cases h1 : quotedWith '\x27' s with
  | some m1 => rw [h1] at h; cases h
  | none =>
    rw [h1] at h
    rcases hq with rfl | rfl
    · exact quotedWith_none _ (by decide) s h1 inner post hne hi
    · exact quotedWith_none _ (by decide) s h inner post hne hi

theorem findQuoted_cons (c : Char) (cs : List Char) :
    findQuoted (c :: cs) =
      match quotedAt (c :: cs) with
      | some m => some m
      | none => findQuoted cs := rfl

theorem findQuoted_some (s m : List Char) (h : findQuoted s = some m) :
    ∃ q pre inner post, IsQuote q ∧ inner ≠ [] ∧ '\n' ∉ inner ∧ m = q :: (inner ++ [q]) ∧
      s = pre ++ q :: (inner ++ q :: post) := by
  induction s with
  | nil => simp [findQuoted] at h
  | cons c cs ih =>
    rw [findQuoted_cons] at h
    cases h1 : quotedAt (c :: cs) with
    | some m1 =>
      rw [h1] at h
      rw [Option.some.inj h] at h1
      obtain ⟨q, inner, post, a, b, c1, d, e⟩ := quotedAt_some _ _ h1
      exact ⟨q, [], inner, post, a, b, c1, d, e⟩
    | none =>
      rw [h1] at h
      obtain ⟨q, pre, inner, post, a, b, c1, d, e⟩ := ih h
      exact ⟨q, c :: pre, inner, post, a, b, c1, d, by rw [e]; rfl⟩

theorem findQuoted_none (s : List Char) (h : findQuoted s = none) : ¬ HasQuotedLiteral s := by
  rintro ⟨q, pre, inner, post, hq, hne, hi, heq⟩
  induction pre generalizing s with
  | nil =>
    subst heq
    rw [List.nil_append, findQuoted_cons] at h
    cases h1 : quotedAt (q :: (inner ++ q :: post)) with
    | some m1 => rw [h1] at h; cases h
    | none => exact quotedAt_none _ h1 q hq inner post hne hi rfl
  | cons c pre ih =>
    subst heq
    rw [List.cons_append, findQuoted_cons] at h
    cases h1 : quotedAt (c :: (pre ++ q :: (inner ++ q :: post))) with
    | some m1 => rw [h1] at h; cases h
    | none =>
      rw [h1] at h
      exact ih _ h rfl

theorem findQuoted_eq_none_iff (s : List Char) : findQuoted s = none ↔ ¬ HasQuotedLiteral s := by
  constructor
  · exact findQuoted_none s
  · intro h
    cases hf : findQuoted s with
    | none => rfl
    | some m =>
      obtain ⟨q, pre, inner, post, a, b, c, _, e⟩ := findQuoted_some s m hf
      exact absurd ⟨q, pre, inner, post, a, b, c, e⟩ h

theorem unquote_quoted (q : Char) (inner : List Char) : unquote (q :: (inner ++ [q])) = inner := by
  simp [unquote]

theorem greedyTo_longest (q : Char) (hq : q ≠ '\n') (s inner : List Char)
    (h : greedyTo q s = some inner) (inner1 post1 : List Char) (hi : '\n' ∉ inner1)
    (heq : s = inner1 ++ q :: post1) : inner1.length ≤ inner.length := by
  induction s generalizing inner inner1 with
  | nil => simp [greedyTo] at h
  | cons c cs ih =>
    cases inner1 with
    | nil => simp
    | cons a inner2 =>
      simp only [List.cons_append, List.cons.injEq] at heq
      simp only [List.mem_cons, not_or] at hi
      have hc : c ≠ '\n' := fun e => hi.1 (by rw [← heq.1, e])
      unfold greedyTo at h
      rw [if_neg hc] at h
      cases hg : greedyTo q cs with
      | some inner3 =>
        rw [hg] at h
        rw [← Option.some.inj h]
        simpa using ih inner3 hg inner2 hi.2 heq.2
      | none => exact absurd heq.2 (greedyTo_none q hq cs hg inner2 post1 hi.2)

theorem quotedWith_longest (q : Char) (hq : q ≠ '\n') (s inner post : List Char)
    (h : s = q :: (inner ++ q :: post)) (hne : inner ≠ []) (hi : '\n' ∉ inner) :
    ∃ inner0 post0, quotedWith q s = some (q :: (inner0 ++ [q])) ∧ '\n' ∉ inner0 ∧
      s = q :: (inner0 ++ q :: post0) ∧ inner.length ≤ inner0.length := by
  cases inner with
  | nil => exact absurd rfl hne
  | cons c inner1 =>
    subst h
    simp only [List.mem_cons, not_or] at hi
    have hc : c ≠ '\n' := fun e => hi.1 e.symm
    cases hg : greedyTo q (inner1 ++ q :: post) with
    | none => exact absurd rfl (greedyTo_none q hq _ hg inner1 post hi.2)
    | some inner2 =>
      obtain ⟨h1, post2, h2⟩ := greedyTo_some q _ inner2 hg
      refine ⟨c :: inner2, post2, ?_, ?_, ?_, ?_⟩
      · simp [quotedWith, hc, hg]
      · simp only [List.mem_cons, not_or]; exact ⟨hi.1, h1⟩
      · simp [h2]
      · simpa using greedyTo_longest q hq _ inner2 hg inner1 post hi.2 rfl

theorem quotedWith_head (q o : Char) (t : List Char) (h : o ≠ q) : quotedWith q (o :: t) = none := by
  cases t with
  | nil => rfl
  | cons c cs => simp [quotedWith, h]

theorem quotedAt_eq (q : Char) (hq : IsQuote q) (t : List Char) :
    quotedAt (q :: t) = quotedWith q (q :: t) := by
  unfold quotedAt
  rcases hq with rfl | rfl
  · cases h : quotedWith '\x27' ('\x27' :: t) with
    | some m => rfl
    | none => exact quotedWith_head _ _ t (by decide)
  · rw [quotedWith_head '\x27' '\x22' t (by decide)]

theorem isQuote_ne_newline (q : Char) (hq : IsQuote q) : q ≠ '\n' := by
  rcases hq with rfl | rfl <;> decide

theorem findQuoted_literal (s m : List Char) (h : findQuoted s = some m) :
    IsLiteralOf s (unquote m) := by
  induction s with
  | nil => simp [findQuoted] at h
  | cons c cs ih =>
    rw [findQuoted_cons] at h
    cases h1 : quotedAt (c :: cs) with
    | some m1 =>
      rw [h1] at h
      rw [Option.some.inj h] at h1
      obtain ⟨q, inner, post, a, b, c1, d, e⟩ := quotedAt_some _ _ h1
      rw [d, unquote_quoted]
      refine ⟨q, [], post, a, b, c1, e, ?_⟩
      intro q1 pre1 inner1 post1 hq1 hne1 hi1 heq
      refine ⟨Nat.zero_le _, fun hl => ?_⟩
      have hp : pre1 = [] := List.length_eq_zero.1 hl
      subst hp
      rw [List.nil_append] at heq
      obtain ⟨inner0, post0, g1, _, _, g4⟩ :=
        quotedWith_longest q1 (isQuote_ne_newline q1 hq1) _ inner1 post1 heq hne1 hi1
      have hc : c = q1 := by
        have := congrArg List.head? heq
        simpa using this
      subst hc
      rw [quotedAt_eq c hq1 cs, g1, d] at h1
      have h2 := Option.some.inj h1
      simp only [List.cons.injEq] at h2
      have h3 := congrArg List.length h2.2
      simp only [List.length_append, List.length_singleton] at h3
      omega
    | none =>
      rw [h1] at h
      obtain ⟨q, pre, post, a, b, c1, e, f⟩ := ih h
      refine ⟨q, c :: pre, post, a, b, c1, by rw [e]; rfl, ?_⟩
      intro q1 pre1 inner1 post1 hq1 hne1 hi1 heq
      cases pre1 with
      | nil => exact absurd heq (quotedAt_none _ h1 q1 hq1 inner1 post1 hne1 hi1)
      | cons a1 pre2 =>
        simp only [List.cons_append, List.cons.injEq] at heq
        have := f q1 pre2 inner1 post1 hq1 hne1 hi1 heq.2
        simp only [List.length_cons]
        exact ⟨by omega, fun hl => this.2 (by omega)⟩

theorem readLine_line (x rest : List Char) (h : '\n' ∉ x) :
    readLine (x ++ '\n' :: rest) = some (x ++ ['\n'], rest) := by
  induction x with
  | nil => simp [readLine]
  | cons c x ih =>
    simp only [List.mem_cons, not_or] at h
    have hc : c ≠ '\n' := fun e => h.1 e.symm
    simp [readLine, hc, ih h.2]

theorem append_ne_of_mismatch (a b e : String) (h : ¬ a.data <+: b.data) : a ++ e ≠ b := by
  intro heq
  apply h
  rw [← heq]
  exact ⟨e.data, by simp⟩

/-! ## `AddPlugin` -/

theorem insertPlugin_fst (fault : Bool) (plugin : Plugin) (s : Store) :
    (insertPlugin fault plugin s).1 = .ok plugin ∨
      ∃ e, (insertPlugin fault plugin s).1 = .error (.store e) := by
  unfold insertPlugin
  cases mongo.Insert fault plugin s with
  | error e => exact Or.inr ⟨e, rfl⟩
  | ok s1 => exact Or.inl rfl

theorem addPluginToDb_fst (L : Lib) (N : Nat) (fault : Nat → Bool) (id : String) (now : Int)
    (version name content : List Char) (appId : String) (d : JObj) (s : Store) :
    (addPluginToDb L N fault id now version name content appId d s).1 =
        .ok (pluginDoc L id now version name content appId d) ∨
      ∃ e, (addPluginToDb L N fault id now version name content appId d s).1 =
        .error (.store e) := by
  unfold addPluginToDb
  split
  · split
    · exact Or.inr ⟨_, rfl⟩
    · split
      · exact Or.inr ⟨_, rfl⟩
      · exact insertPlugin_fst _ _ _
  · exact insertPlugin_fst _ _ _

theorem addPlugin_error_msg (L : Lib) (N : Nat) (fault : Nat → Bool) (id : String) (now : Int)
    (content : List Char) (appId : String) (s : Store) (msg : String)
    (h : (AddPlugin L N fault id now content appId s).1 = .error (.error msg)) :
    parsePlugin L content = .error (.error msg) := by
  unfold AddPlugin at h
  cases hp : parsePlugin L content with
  | error e => rw [hp] at h; simpa using h
  | ok r =>
    obtain ⟨v, n, cfg⟩ := r
    rw [hp] at h
    simp only at h
    rcases addPluginToDb_fst L N fault id now v n content appId cfg s with h1 | ⟨e, h1⟩
    · rw [h1] at h; cases h
    · rw [h1] at h; cases h

theorem addPlugin_ok (L : Lib) (N : Nat) (fault : Nat → Bool) (id : String) (now : Int)
    (content : List Char) (appId : String) (s : Store) (p : Plugin)
    (h : (AddPlugin L N fault id now content appId s).1 = .ok p) :
    ∃ v n cfg, parsePlugin L content = .ok (v, n, cfg) ∧
      p = pluginDoc L id now v n content appId cfg := by
  unfold AddPlugin at h
  cases hp : parsePlugin L content with
  | error e => rw [hp] at h; cases h
  | ok r =>
    obtain ⟨v, n, cfg⟩ := r
    rw [hp] at h
    simp only at h
    rcases addPluginToDb_fst L N fault id now v n content appId cfg s with h1 | ⟨e, h1⟩
    · rw [h1] at h
      exact ⟨v, n, cfg, rfl, by cases h; rfl⟩
    · rw [h1] at h; cases h

theorem parsePlugin_lines (L : Lib) (x1 x2 rest : List Char) (h1 : '\n' ∉ x1) (h2 : '\n' ∉ x2) :
    (parsePlugin L (x1 ++ '\n' :: (x2 ++ '\n' :: rest)) =
        .error (.error "failed to find the plugin version") ↔ findQuoted (x1 ++ ['\n']) = none) ∧
    (findQuoted (x1 ++ ['\n']) ≠ none →
      (parsePlugin L (x1 ++ '\n' :: (x2 ++ '\n' :: rest)) =
        .error (.error "failed to find the plugin name") ↔ findQuoted (x2 ++ ['\n']) = none)) ∧
    (∀ v n cfg, parsePlugin L (x1 ++ '\n' :: (x2 ++ '\n' :: rest)) = .ok (v, n, cfg) →
      ∃ m1 m2, findQuoted (x1 ++ ['\n']) = some m1 ∧ findQuoted (x2 ++ ['\n']) = some m2 ∧
        v = unquote m1 ∧ n = unquote m2) := by
  unfold parsePlugin
  rw [readLine_line x1 _ h1]
  simp only []
  rw [readLine_line x2 _ h2]
  simp only []
  cases hf1 : findQuoted (x1 ++ ['\n']) with
  | none => simp
  | some m1 =>
    cases hf2 : findQuoted (x2 ++ ['\n']) with
    | none => simp
    | some m2 =>
      simp only []
      split
      · simp
        exact ⟨append_ne_of_mismatch _ _ _ (by decide),
          append_ne_of_mismatch _ _ _ (by decide)⟩
      · split
        · simp
          exact ⟨append_ne_of_mismatch _ _ _ (by decide),
            append_ne_of_mismatch _ _ _ (by decide)⟩
        · split
          · simp
          · split
            · simp [append_ne_of_mismatch]
            · simp [append_ne_of_mismatch]
            · simp

/-! ## The collection -/

theorem removeFirst_of_mem (id : String) (s : Store) (hn : (ids s).Nodup) (hm : id ∈ ids s) :
    removeFirst id s = some (without [id] s) := by
  induction s with
  | nil => simp [ids] at hm
  | cons p ps ih =>
    simp only [ids, List.map_cons, List.nodup_cons] at hn
    by_cases hp : p.Id = id
    · have hnot : ∀ q ∈ ps, decide (q.Id ∉ [id]) = true := by
        intro q hq
        simp only [List.mem_singleton, decide_not, Bool.not_eq_true', decide_eq_false_iff_not]
        intro hq1
        exact hn.1 (List.mem_map.2 ⟨q, hq, by rw [hq1, hp]⟩)
      have hfil : without [id] ps = ps := List.filter_eq_self.2 hnot
      have h1 : without [id] (p :: ps) = without [id] ps := by simp [without, hp]
      rw [h1, hfil]
      simp [removeFirst, hp]
    · have hm1 : id ∈ ids ps := by
        simp only [ids, List.map_cons, List.mem_cons] at hm
        rcases hm with h | h
        · exact absurd h.symm hp
        · exact h
      have h1 : without [id] (p :: ps) = p :: without [id] ps := by simp [without, hp]
      rw [h1]
      simp [removeFirst, hp, ih hn.2 hm1]

theorem without_without (a b : List String) (s : Store) :
    without b (without a s) = without (a ++ b) s := by
  simp only [without, List.filter_filter]
  congr 1
  funext p
  simp only [List.mem_append, not_or, Bool.decide_and, Bool.and_comm]

theorem ids_without_sublist (gone : List String) (s : Store) : (ids (without gone s)).Sublist (ids s) :=
  List.Sublist.map _ (List.filter_sublist _)

theorem mem_ids_without (gone : List String) (s : Store) (id : String) :
    id ∈ ids (without gone s) ↔ id ∈ ids s ∧ id ∉ gone := by
  simp only [ids, without, List.mem_map, List.mem_filter, decide_eq_true_eq]
  constructor
  · rintro ⟨p, ⟨h1, h2⟩, rfl⟩; exact ⟨⟨p, h1, rfl⟩, h2⟩
  · rintro ⟨⟨p, h1, rfl⟩, h2⟩; exact ⟨p, ⟨h1, h2⟩, rfl⟩

theorem without_nil (s : Store) : without [] s = s := by
  simp [without]

theorem removeOld_ok (fault : Nat → Bool) (olds : List Plugin) (i : Nat) (s : Store)
    (hn : (ids s).Nodup) (ho : (ids olds).Nodup) (hsub : ∀ id ∈ ids olds, id ∈ ids s)
    (hf : ∀ j, j < olds.length → fault (i + j) = false) :
    removeOld fault i olds s = (none, without (ids olds) s) := by
  induction olds generalizing i s with
  | nil => simp [removeOld, ids, without_nil]
  | cons o olds ih =>
    simp only [ids, List.map_cons, List.nodup_cons] at ho
    have h0 : fault i = false := by simpa using hf 0 (by simp)
    have hm : o.Id ∈ ids s := hsub o.Id (by simp [ids])
    simp only [removeOld, mongo.RemoveId, h0, removeFirst_of_mem o.Id s hn hm]
    simp only [Bool.false_eq_true, if_false]
    rw [ih (i + 1) (without [o.Id] s) ((ids_without_sublist _ s).nodup hn) ho.2]
    · rw [without_without]; rfl
    · intro id hid
      rw [mem_ids_without]
      refine ⟨hsub id (by simp only [ids, List.map_cons]; exact List.mem_cons_of_mem _ hid), ?_⟩
      simp only [List.mem_singleton]
      rintro rfl
      exact ho.1 hid
    · intro j hj
      have := hf (j + 1) (by simp only [List.length_cons]; omega)
      rw [← this]; congr 1; omega

theorem removeOld_fault (fault : Nat → Bool) (olds : List Plugin) (i j : Nat) (s : Store)
    (hn : (ids s).Nodup) (ho : (ids olds).Nodup) (hsub : ∀ id ∈ ids olds, id ∈ ids s)
    (hj : j < olds.length) (hf : ∀ j1, j1 < j → fault (i + j1) = false)
    (hfj : fault (i + j) = true) :
    removeOld fault i olds s = (some .fault, without (ids (olds.take j)) s) := by
  induction olds generalizing i j s with
  | nil => simp at hj
  | cons o olds ih =>
    simp only [ids, List.map_cons, List.nodup_cons] at ho
    cases j with
    | zero =>
      have h0 : fault i = true := by simpa using hfj
      simp [removeOld, mongo.RemoveId, h0, ids, without_nil]
    | succ j =>
      have h0 : fault i = false := by simpa using hf 0 (by omega)
      have hm : o.Id ∈ ids s := hsub o.Id (by simp [ids])
      simp only [removeOld, mongo.RemoveId, h0, removeFirst_of_mem o.Id s hn hm]
      simp only [Bool.false_eq_true, if_false]
      rw [ih (i + 1) j (without [o.Id] s) ((ids_without_sublist _ s).nodup hn) ho.2]
      · rw [without_without]; rfl
      · intro id hid
        rw [mem_ids_without]
        refine ⟨hsub id (by simp only [ids, List.map_cons]; exact List.mem_cons_of_mem _ hid), ?_⟩
        simp only [List.mem_singleton]
        rintro rfl
        exact ho.1 hid
      · simpa using hj
      · intro j1 hj1
        have := hf (j1 + 1) (by omega)
        rw [← this]; congr 1; omega
      · rw [← hfj]; congr 1; omega

theorem ids_map_withoutContent (l : List Plugin) : ids (l.map withoutContent) = ids l := by
  simp [ids, withoutContent, Function.comp_def]

theorem getPluginsByApp_excess (s : Store) (appId : String) (N : Nat) :
    GetPluginsByApp false s appId (N - 1) 0 =
      .ok ((s.filter (fun p => p.AppId == appId)).length, (excess N appId s).map withoutContent) := by
  simp [GetPluginsByApp, excess]

theorem excess_ids_nodup (N : Nat) (appId : String) (s : Store) (hn : (ids s).Nodup) :
    (ids (excess N appId s)).Nodup := by
  have h1 : (ids (s.filter (fun p => p.AppId == appId))).Nodup :=
    (List.Sublist.map _ (List.filter_sublist _)).nodup hn
  have h2 : (ids ((s.filter (fun p => p.AppId == appId)).insertionSort newerFirst)).Nodup :=
    ((List.perm_insertionSort newerFirst _).map Plugin.Id).nodup_iff.2 h1
  exact (List.Sublist.map _ (List.drop_sublist _ _)).nodup h2

theorem excess_ids_subset (N : Nat) (appId : String) (s : Store) :
    ∀ id ∈ ids (excess N appId s), id ∈ ids s := by
  intro id hid
  have h1 := (List.Sublist.map Plugin.Id (List.drop_sublist (N - 1)
    ((s.filter (fun p => p.AppId == appId)).insertionSort newerFirst))).subset hid
  have h2 := ((List.perm_insertionSort newerFirst _).map Plugin.Id).subset h1
  exact (List.Sublist.map Plugin.Id (List.filter_sublist _)).subset h2

theorem addPluginToDb_cases (L : Lib) (MaxPlugins : Nat) (fault : Nat → Bool) (id : String)
    (now : Int) (version name content : List Char) (appId : String) (d : JObj) (s : Store)
    (hN : 0 < MaxPlugins) (hn : (ids s).Nodup) :
    (fault 0 = true →
      addPluginToDb L MaxPlugins fault id now version name content appId d s =
        (.error (.store .fault), s)) ∧
    (fault 0 = false → ∀ j, j < (excess MaxPlugins appId s).length →
      (∀ j1, j1 < j → fault (1 + j1) = false) → fault (1 + j) = true →
      addPluginToDb L MaxPlugins fault id now version name content appId d s =
        (.error (.store .fault), without (ids ((excess MaxPlugins appId s).take j)) s)) ∧
    (fault 0 = false → (∀ j, j < (excess MaxPlugins appId s).length → fault (1 + j) = false) →
      addPluginToDb L MaxPlugins fault id now version name content appId d s =
        insertPlugin (fault ((excess MaxPlugins appId s).length + 1))
          (pluginDoc L id now version name content appId d)
          (without (ids (excess MaxPlugins appId s)) s)) := by
  have hq := getPluginsByApp_excess s appId MaxPlugins
  refine ⟨?_, ?_, ?_⟩
  · intro h0
    simp [addPluginToDb, hN, GetPluginsByApp, h0]
  · intro h0 j hj hf hfj
    have := removeOld_fault fault ((excess MaxPlugins appId s).map withoutContent) 1 j s hn
      (by rw [ids_map_withoutContent]; exact excess_ids_nodup _ _ _ hn)
      (by rw [ids_map_withoutContent]; exact excess_ids_subset _ _ _)
      (by simpa using hj) hf hfj
    rw [← List.map_take, ids_map_withoutContent] at this
    simp only [addPluginToDb, hN, if_true, h0, hq, this]
  · intro h0 hf
    have := removeOld_ok fault ((excess MaxPlugins appId s).map withoutContent) 1 s hn
      (by rw [ids_map_withoutContent]; exact excess_ids_nodup _ _ _ hn)
      (by rw [ids_map_withoutContent]; exact excess_ids_subset _ _ _)
      (by simpa using hf)
    rw [ids_map_withoutContent] at this
    simp only [addPluginToDb, hN, if_true, h0, hq, this, List.length_map]

theorem removeOld_prefix (fault : Nat → Bool) (olds : List Plugin) (i : Nat) (s : Store)
    (hn : (ids s).Nodup) (ho : (ids olds).Nodup) (hsub : ∀ id ∈ ids olds, id ∈ ids s) :
    ∃ j, j ≤ olds.length ∧ (removeOld fault i olds s).2 = without (ids (olds.take j)) s ∧
      ((removeOld fault i olds s).1 = none → j = olds.length) := by
  induction olds generalizing i s with
  | nil => exact ⟨0, le_refl _, by simp [removeOld, ids, without_nil], fun _ => rfl⟩
  | cons o olds ih =>
    simp only [ids, List.map_cons, List.nodup_cons] at ho
    cases h0 : fault i with
    | true =>
      refine ⟨0, Nat.zero_le _, ?_, ?_⟩
      · simp [removeOld, mongo.RemoveId, h0, ids, without_nil]
      · simp [removeOld, mongo.RemoveId, h0]
    | false =>
      have hm : o.Id ∈ ids s := hsub o.Id (by simp [ids])
      have hstep : removeOld fault i (o :: olds) s =
          removeOld fault (i + 1) olds (without [o.Id] s) := by
        simp only [removeOld, mongo.RemoveId, h0, removeFirst_of_mem o.Id s hn hm]
        simp only [Bool.false_eq_true, if_false]
      obtain ⟨j, hj, h1, h2⟩ := ih (i + 1) (without [o.Id] s)
        ((ids_without_sublist _ s).nodup hn) ho.2 (by
          intro id hid
          rw [mem_ids_without]
          refine ⟨hsub id (by simp only [ids, List.map_cons]; exact List.mem_cons_of_mem _ hid), ?_⟩
          simp only [List.mem_singleton]
          rintro rfl
          exact ho.1 hid)
      refine ⟨j + 1, by simpa using hj, ?_, ?_⟩
      · rw [hstep, h1, without_without]; rfl
      · rw [hstep]; intro h; simp [h2 h]

theorem insertPlugin_ok (fault : Bool) (p q : Plugin) (s : Store)
    (h : (insertPlugin fault p s).1 = .ok q) :
    q = p ∧ (insertPlugin fault p s).2 = s ++ [p] := by
  unfold insertPlugin mongo.Insert at h ⊢
  cases fault with
  | true => cases h
  | false =>
    cases hd : s.any (fun x => x.Id == p.Id) with
    | true => simp [hd] at h
    | false =>
      simp only [hd] at h ⊢
      simp only [Bool.false_eq_true, if_false, Except.ok.injEq] at h ⊢
      exact ⟨h.symm, trivial⟩

theorem insertPlugin_error (fault : Bool) (p : Plugin) (s : Store) (e : Failure)
    (h : (insertPlugin fault p s).1 = .error e) : (insertPlugin fault p s).2 = s := by
  unfold insertPlugin at h ⊢
  cases hi : mongo.Insert fault p s with
  | error e1 => rfl
  | ok s1 => rw [hi] at h; cases h

theorem addPluginToDb_shape (L : Lib) (MaxPlugins : Nat) (fault : Nat → Bool) (id : String)
    (now : Int) (version name content : List Char) (appId : String) (d : JObj) (s : Store)
    (hN : 0 < MaxPlugins) :
    addPluginToDb L MaxPlugins fault id now version name content appId d s =
      if fault 0 = true then (.error (.store .fault), s)
      else
        match (removeOld fault 1 ((excess MaxPlugins appId s).map withoutContent) s).1 with
        | some e =>
          (.error (.store e),
            (removeOld fault 1 ((excess MaxPlugins appId s).map withoutContent) s).2)
        | none =>
          insertPlugin (fault ((excess MaxPlugins appId s).length + 1))
            (pluginDoc L id now version name content appId d)
            (removeOld fault 1 ((excess MaxPlugins appId s).map withoutContent) s).2 := by
  have hq := getPluginsByApp_excess s appId MaxPlugins
  cases h0 : fault 0 with
  | true => simp [addPluginToDb, hN, GetPluginsByApp, h0]
  | false =>
    simp only [addPluginToDb, hN, if_true, h0, hq, List.length_map, Bool.false_eq_true, if_false]
    rcases removeOld fault 1 ((excess MaxPlugins appId s).map withoutContent) s with ⟨r1, r2⟩
    cases r1 <;> rfl

/-! ## Retention -/

theorem orderedInsert_oldest (a : Plugin) (l : List Plugin)
    (h : ∀ b ∈ l, a.UploadTime < b.UploadTime) : l.orderedInsert newerFirst a = l ++ [a] := by
  induction l with
  | nil => rfl
  | cons b l ih =>
    have hb : ¬ newerFirst a b := by
      have := h b (List.mem_cons_self _ _)
      simp only [newerFirst, not_le]; exact this
    simp only [List.orderedInsert, hb, if_false, List.cons_append,
      ih fun c hc => h c (List.mem_cons_of_mem _ hc)]

theorem insertionSort_ascending (l : List Plugin)
    (h : l.Pairwise fun a b => a.UploadTime < b.UploadTime) :
    l.insertionSort newerFirst = l.reverse := by
  induction l with
  | nil => rfl
  | cons a l ih =>
    rw [List.pairwise_cons] at h
    rw [List.insertionSort, ih h.2, List.reverse_cons]
    exact orderedInsert_oldest a _ fun b hb => h.1 b (List.mem_reverse.1 hb)

theorem without_take (l : List Plugin) (m : Nat) (hn : (ids l).Nodup) :
    without (ids (l.take m)) l = l.drop m := by
  induction l generalizing m with
  | nil => simp [without]
  | cons p l ih =>
    simp only [ids, List.map_cons, List.nodup_cons] at hn
    cases m with
    | zero => simp [ids, without_nil]
    | succ m =>
      have h1 : without (ids ((p :: l).take (m + 1))) (p :: l) =
          without (ids ((p :: l).take (m + 1))) l := by
        simp [without, ids]
      have h2 : without (ids ((p :: l).take (m + 1))) l = without (ids (l.take m)) l := by
        simp only [without, ids, List.take_succ_cons, List.map_cons]
        apply List.filter_congr
        intro q hq
        have : q.Id ≠ p.Id := fun e => hn.1 (List.mem_map.2 ⟨q, hq, e⟩)
        simp [this]
      rw [h1, h2, ih m hn.2]; rfl

theorem without_disjoint (gone : List String) (s : Store) (h : ∀ p ∈ s, p.Id ∉ gone) :
    without gone s = s :=
  List.filter_eq_self.2 fun p hp => by simpa using h p hp

theorem without_append (gone : List String) (s t : Store) :
    without gone (s ++ t) = without gone s ++ without gone t := by
  simp [without]

theorem without_reverse (l : List Plugin) (s : Store) :
    without (ids l.reverse) s = without (ids l) s := by
  simp only [without, ids, List.map_reverse, List.mem_reverse]

theorem filter_app_append (appId : String) (s0 l : Store) (h0 : ∀ p ∈ s0, p.AppId ≠ appId)
    (hl : ∀ p ∈ l, p.AppId = appId) :
    (s0 ++ l).filter (fun p => p.AppId == appId) = l := by
  rw [List.filter_append, List.filter_eq_nil_iff.2 (fun p hp => by simpa using h0 p hp),
    List.filter_eq_self.2 (fun p hp => by simpa using hl p hp), List.nil_append]

theorem addPluginToDb_step (L : Lib) (N : Nat) (hN : 0 < N) (id : String) (now : Int)
    (version name content : List Char) (appId : String) (d : JObj) (s0 l : Store)
    (h0 : ∀ p ∈ s0, p.AppId ≠ appId) (hl : ∀ p ∈ l, p.AppId = appId)
    (hasc : l.Pairwise fun a b => a.UploadTime < b.UploadTime)
    (hn : (ids (s0 ++ l)).Nodup) (hid : id ∉ ids (s0 ++ l)) :
    addPluginToDb L N (fun _ => false) id now version name content appId d (s0 ++ l) =
      (.ok (pluginDoc L id now version name content appId d),
        s0 ++ (lastN (N - 1) l ++ [pluginDoc L id now version name content appId d])) := by
  have hex : excess N appId (s0 ++ l) = (l.take (l.length - (N - 1))).reverse := by
    rw [excess, filter_app_append appId s0 l h0 hl, insertionSort_ascending l hasc,
      List.drop_reverse]
  have hnl : (ids l).Nodup := by
    simp only [ids, List.map_append] at hn
    exact (List.nodup_append.1 hn).2.1
  have hdis : ∀ p ∈ s0, p.Id ∉ ids (l.take (l.length - (N - 1))) := by
    intro p hp hmem
    simp only [ids, List.map_append] at hn
    have h1 : p.Id ∈ s0.map Plugin.Id := List.mem_map.2 ⟨p, hp, rfl⟩
    have h2 : p.Id ∈ l.map Plugin.Id :=
      (List.Sublist.map Plugin.Id (List.take_sublist _ l)).subset hmem
    exact (List.nodup_append.1 hn).2.2 h1 h2
  have hw : without (ids (excess N appId (s0 ++ l))) (s0 ++ l) = s0 ++ lastN (N - 1) l := by
    rw [hex, without_reverse, without_append, without_disjoint _ s0 hdis,
      without_take l _ hnl]
    rfl
  have hc := (addPluginToDb_cases L N (fun _ => false) id now version name content appId d
    (s0 ++ l) hN hn).2.2 rfl (fun _ _ => rfl)
  rw [hc, hw]
  have hany : (s0 ++ lastN (N - 1) l).any
      (fun p => p.Id == (pluginDoc L id now version name content appId d).Id) = false := by
    rw [List.any_eq_false]
    intro p hp
    have hp1 : p ∈ s0 ++ l := by
      rcases List.mem_append.1 hp with h | h
      · exact List.mem_append_left _ h
      · exact List.mem_append_right _ (List.mem_of_mem_drop h)
    have : p.Id ≠ id := fun e => hid (List.mem_map.2 ⟨p, hp1, e⟩)
    simpa [pluginDoc] using this
  simp only [insertPlugin, mongo.Insert, hany, Bool.false_eq_true, if_false, List.append_assoc]

theorem createdBy_some (L : Lib) (appId : String) (u : Upload) (p : Plugin)
    (h : createdBy L appId u = some p) :
    p.Id = u.id ∧ p.UploadTime = u.now ∧ p.AppId = appId ∧
      ∃ v n cfg, parsePlugin L u.content = .ok (v, n, cfg) ∧
        p = pluginDoc L u.id u.now v n u.content appId cfg := by
  unfold createdBy at h
  cases hp : parsePlugin L u.content with
  | error e => rw [hp] at h; cases h
  | ok r =>
    obtain ⟨v, n, cfg⟩ := r
    rw [hp] at h
    simp only [Option.some.injEq] at h
    subst h
    exact ⟨rfl, rfl, rfl, v, n, cfg, rfl, rfl⟩

theorem createdBy_none (L : Lib) (appId : String) (u : Upload)
    (h : createdBy L appId u = none) : ∃ e, parsePlugin L u.content = .error e := by
  unfold createdBy at h
  cases hp : parsePlugin L u.content with
  | error e => exact ⟨e, rfl⟩
  | ok r => rw [hp] at h; cases h

theorem lastN_lastN {α : Type} (N : Nat) (l : List α) :
    lastN (N - 1) (lastN N l) = lastN (N - 1) l := by
  simp only [lastN, List.drop_drop, List.length_drop]
  congr 1
  omega

theorem lastN_snoc {α : Type} (N : Nat) (hN : 0 < N) (l : List α) (a : α) :
    lastN (N - 1) l ++ [a] = lastN N (l ++ [a]) := by
  simp only [lastN, List.length_append, List.length_singleton]
  rw [List.drop_append_of_le_length (by omega)]
  congr 2
  omega

theorem ids_created_sublist (L : Lib) (appId : String) (us : List Upload) :
    (ids (us.filterMap (createdBy L appId))).Sublist (us.map Upload.id) := by
  induction us with
  | nil => simp [ids]
  | cons u us ih =>
    cases h : createdBy L appId u with
    | none =>
      rw [List.filterMap_cons_none h]
      exact List.Sublist.cons _ ih
    | some p =>
      rw [List.filterMap_cons_some h]
      simp only [ids, List.map_cons, (createdBy_some L appId u p h).1]
      exact List.Sublist.cons₂ _ ih

theorem uploadAll_eq (L : Lib) (N : Nat) (hN : 0 < N) (appId : String) (s0 : Store)
    (us : List Upload) (h0 : ∀ p ∈ s0, p.AppId ≠ appId)
    (hids : (ids s0 ++ us.map Upload.id).Nodup)
    (ht : us.Pairwise fun a b => a.now < b.now) :
    uploadAll L N appId us s0 = s0 ++ lastN N (us.filterMap (createdBy L appId)) := by
  induction us using List.reverseRecOn with
  | nil => simp [uploadAll, lastN]
  | append_singleton us u ih =>
    have hids1 : (ids s0 ++ us.map Upload.id).Nodup := by
      rw [List.map_append, ← List.append_assoc] at hids
      exact (List.nodup_append.1 hids).1
    have hufresh : u.id ∉ ids s0 ++ us.map Upload.id := by
      rw [List.map_append, ← List.append_assoc] at hids
      intro hm
      exact (List.nodup_append.1 hids).2.2 hm (by simp)
    have ht1 : us.Pairwise fun a b => a.now < b.now := (List.pairwise_append.1 ht).1
    have hlt : ∀ a ∈ us, a.now < u.now := fun a ha =>
      (List.pairwise_append.1 ht).2.2 a ha u (by simp)
    have ih1 := ih hids1 ht1
    have hstep : uploadAll L N appId (us ++ [u]) s0 =
        (AddPlugin L N (fun _ => false) u.id u.now u.content appId (uploadAll L N appId us s0)).2 := by
      simp [uploadAll, List.foldl_append]
    rw [hstep, ih1, List.filterMap_append]
    cases hc : createdBy L appId u with
    | none =>
      obtain ⟨e, he⟩ := createdBy_none L appId u hc
      simp only [List.filterMap_cons_none hc, List.filterMap_nil, List.append_nil, AddPlugin, he]
    | some p =>
      obtain ⟨g1, g2, g3, v, n, cfg, hparse, hdoc⟩ := createdBy_some L appId u p hc
      simp only [List.filterMap_cons_some hc, List.filterMap_nil, AddPlugin, hparse]
      have hsub := ids_created_sublist L appId us
      have hdocs : ∀ q ∈ us.filterMap (createdBy L appId), q.AppId = appId ∧
          q.UploadTime < u.now := by
        intro q hq
        obtain ⟨a, ha, hqa⟩ := List.mem_filterMap.1 hq
        obtain ⟨_, k2, k3, _⟩ := createdBy_some L appId a q hqa
        exact ⟨k3, by rw [k2]; exact hlt a ha⟩
      have hasc : (us.filterMap (createdBy L appId)).Pairwise
          fun a b => a.UploadTime < b.UploadTime := by
        refine List.Pairwise.filterMap _ ?_ ht1
        intro a a1 haa b hb b1 hb1
        rw [(createdBy_some L appId a b hb).2.1, (createdBy_some L appId a1 b1 hb1).2.1]
        exact haa
      have hlast_sub : (lastN N (us.filterMap (createdBy L appId))).Sublist
          (us.filterMap (createdBy L appId)) := List.drop_sublist _ _
      have hidsub : (ids (s0 ++ lastN N (us.filterMap (createdBy L appId)))).Sublist
          (ids s0 ++ us.map Upload.id) := by
        simp only [ids, List.map_append]
        exact List.Sublist.append (List.Sublist.refl _)
          ((List.Sublist.map Plugin.Id hlast_sub).trans hsub)
      rw [addPluginToDb_step L N hN u.id u.now v n u.content appId cfg s0
        (lastN N (us.filterMap (createdBy L appId))) h0
        (fun q hq => (hdocs q (hlast_sub.subset hq)).1)
        (hasc.sublist hlast_sub) (hidsub.nodup hids1)
        (fun hm => hufresh (hidsub.subset hm))]
      simp only [lastN_lastN, ← hdoc, lastN_snoc N hN]

theorem created_length (L : Lib) (appId : String) (us : List Upload)
    (hp : ∀ u ∈ us, ∃ r, parsePlugin L u.content = .ok r) :
    (us.filterMap (createdBy L appId)).length = us.length := by
  induction us with
  | nil => rfl
  | cons u us ih =>
    obtain ⟨r, hr⟩ := hp u (List.mem_cons_self _ _)
    obtain ⟨v, n, cfg⟩ := r
    have hc : createdBy L appId u =
        some (pluginDoc L u.id u.now v n u.content appId cfg) := by
      simp [createdBy, hr]
    rw [List.filterMap_cons_some hc, List.length_cons, List.length_cons,
      ih fun a ha => hp a (List.mem_cons_of_mem _ ha)]

/-! ## The sentinel expression -/

theorem matchSentinel_end (post : List Char) :
    matchSentinel "END".toList (algorithmEndMsg ++ post) = some post := by
  rfl

theorem matchSentinel_begin (post : List Char) :
    matchSentinel "BEGIN".toList (algorithmStartMsg ++ post) = some post := by
  rfl

theorem findEnd_of_literal (mid post : List Char) :
    findEnd (mid ++ (algorithmEndMsg ++ post)) ≠ none := by
  induction mid with
  | nil =>
    have : findEnd (algorithmEndMsg ++ post) = some post := rfl
    rw [List.nil_append, this]; simp
  | cons c mid ih =>
    rw [List.cons_append]
    unfold findEnd
    cases matchSentinel "END".toList (c :: (mid ++ (algorithmEndMsg ++ post))) with
    | some r => simp
    | none => exact ih

theorem matchRegion_of_literals (mid post : List Char) :
    matchRegion (algorithmStartMsg ++ (mid ++ (algorithmEndMsg ++ post))) ≠ none := by
  unfold matchRegion
  rw [matchSentinel_begin]
  exact findEnd_of_literal mid post

theorem findRegion_cons (c : Char) (cs : List Char) :
    findRegion (c :: cs) =
      match matchRegion (c :: cs) with
      | some rest => some ([], (c :: cs).take ((c :: cs).length - rest.length), rest)
      | none => (findRegion cs).map fun r => (c :: r.1, r.2.1, r.2.2) := rfl

theorem findRegion_of_matchRegion (pre rest : List Char) (h : matchRegion rest ≠ none) :
    findRegion (pre ++ rest) ≠ none := by
  induction pre with
  | nil =>
    cases rest with
    | nil => exact absurd rfl h
    | cons c cs =>
      rw [List.nil_append, findRegion_cons]
      cases hm : matchRegion (c :: cs) with
      | none => exact absurd hm h
      | some r => simp
  | cons c pre ih =>
    rw [List.cons_append, findRegion_cons]
    cases matchRegion (c :: (pre ++ rest)) with
    | some r => simp
    | none =>
      cases hf : findRegion (pre ++ rest) with
      | none => exact absurd hf ih
      | some r => simp

theorem findRegion_of_markers (content : List Char) (h : HasMarkers content) :
    findRegion content ≠ none := by
  obtain ⟨pre, mid, post, rfl⟩ := h
  exact findRegion_of_matchRegion pre _ (matchRegion_of_literals mid post)

theorem stripPrefix_some (p s r : List Char) (h : stripPrefix p s = some r) : s = p ++ r := by
  induction p generalizing s with
  | nil => simp only [stripPrefix, Option.some.injEq] at h; simp [h]
  | cons a p ih =>
    cases s with
    | nil => simp [stripPrefix] at h
    | cons c cs =>
      simp only [stripPrefix] at h
      by_cases hac : a = c
      · rw [if_pos hac] at h
        rw [hac, ih cs h]; rfl
      · rw [if_neg hac] at h; cases h

theorem indexOf_some (pat s : List Char) (i : Nat) (h : indexOf pat s = some i) :
    ∃ post, s.drop i = pat ++ post := by
  induction s generalizing i with
  | nil =>
    simp only [indexOf] at h
    by_cases hp : pat = []
    · simp only [hp, if_true, Option.some.injEq] at h
      exact ⟨[], by simp [hp]⟩
    · simp [hp] at h
  | cons c cs ih =>
    simp only [indexOf] at h
    cases hs : stripPrefix pat (c :: cs) with
    | some r =>
      rw [hs] at h
      simp only [Option.some.injEq] at h
      subst h
      exact ⟨r, stripPrefix_some _ _ _ hs⟩
    | none =>
      rw [hs] at h
      cases hi : indexOf pat cs with
      | none => rw [hi] at h; cases h
      | some j =>
        rw [hi] at h
        simp only [Option.map_some', Option.some.injEq] at h
        subst h
        exact ih j hi

theorem hasMarkers_of_indices (s : List Char) (i e : Nat)
    (hi : indexOf algorithmStartMsg s = some i) (he : indexOf algorithmEndMsg s = some e)
    (hle : i + algorithmStartMsg.length ≤ e) : HasMarkers s := by
  obtain ⟨post1, h1⟩ := indexOf_some _ _ _ hi
  obtain ⟨post2, h2⟩ := indexOf_some _ _ _ he
  have hp1 : post1 = s.drop (i + algorithmStartMsg.length) := by
    rw [← List.drop_drop, h1, List.drop_left]
  have hk : post1.drop (e - (i + algorithmStartMsg.length)) = algorithmEndMsg ++ post2 := by
    rw [hp1, List.drop_drop, ← h2]
    congr 1
    omega
  refine ⟨s.take i, post1.take (e - (i + algorithmStartMsg.length)), post2, ?_⟩
  rw [← hk, List.take_append_drop, ← h1, List.take_append_drop]

theorem parsePlugin_ok_markers (L : Lib) (content : List Char)
    (r : List Char × List Char × JObj) (h : parsePlugin L content = .ok r) :
    HasMarkers content := by
  unfold parsePlugin at h
  split at h
  · cases h
  · split at h
    · cases h
    · split at h
      · cases h
      · split at h
        · cases h
        · split at h
          · cases h
          · rename_i start hstart
            split at h
            · cases h
            · rename_i algorithmEnd hend
              split at h
              · cases h
              · rename_i hle
                exact hasMarkers_of_indices content start algorithmEnd hstart hend
                  (Nat.le_of_not_lt hle)

/-! ## Template expansion -/

theorem isNameChar_newline (L : Lib) : isNameChar L '\n' = false := rfl

theorem expandAux_plain (L : Lib) (m : List Char) (fuel : Nat) (t : List Char)
    (h : '$' ∉ t) : expandAux L m fuel t = t := by
  induction t generalizing fuel with
  | nil => cases fuel <;> rfl
  | cons c t ih =>
    simp only [List.mem_cons, not_or] at h
    have hc : c ≠ '$' := fun e => h.1 e.symm
    cases fuel with
    | zero => rfl
    | succ fuel => simp only [expandAux, hc, ne_eq, not_false_eq_true, if_true, ih fuel h.2]

theorem expandAux_plain_append (L : Lib) (m : List Char) (n : Nat) (p t : List Char)
    (h : '$' ∉ p) : expandAux L m (p.length + n) (p ++ t) = p ++ expandAux L m n t := by
  induction p with
  | nil => simp
  | cons c p ih =>
    simp only [List.mem_cons, not_or] at h
    have hc : c ≠ '$' := fun e => h.1 e.symm
    have hl : (c :: p).length + n = (p.length + n) + 1 := by simp only [List.length_cons]; omega
    rw [hl, List.cons_append]
    simp only [expandAux, hc, ne_eq, not_false_eq_true, if_true, ih h.2, List.cons_append]

theorem takeWhile_append_stop (p : Char → Bool) (a : List Char) (c : Char) (S : List Char)
    (hc : p c = false) : (a ++ c :: S).takeWhile p = a.takeWhile p := by
  induction a with
  | nil => simp [List.takeWhile, hc]
  | cons x a ih =>
    simp only [List.cons_append, List.takeWhile]
    cases p x <;> simp [ih]

theorem dropWhile_append_stop (p : Char → Bool) (a : List Char) (c : Char) (S : List Char)
    (hc : p c = false) : (a ++ c :: S).dropWhile p = a.dropWhile p ++ c :: S := by
  induction a with
  | nil => simp [List.dropWhile, hc]
  | cons x a ih =>
    simp only [List.cons_append, List.dropWhile]
    cases p x <;> simp [ih]

theorem extract_cons (L : Lib) (c : Char) (t : List Char) (hb : c ≠ '\x7b') :
    extract L (c :: t) =
      if (c :: t).takeWhile (isNameChar L) = [] then none
      else some ((c :: t).takeWhile (isNameChar L), (c :: t).dropWhile (isNameChar L)) := by
  unfold extract
  split
  · rename_i heq; cases heq
  · rename_i heq
    simp only [List.cons.injEq] at heq
    exact absurd heq.1 hb
  · rename_i heq
    cases heq
    rfl

theorem extract_brace (L : Lib) (t : List Char) :
    extract L ('\x7b' :: t) =
      if t.takeWhile (isNameChar L) = [] then none
      else
        match t.dropWhile (isNameChar L) with
        | '\x7d' :: rest => some (t.takeWhile (isNameChar L), rest)
        | _ => none := rfl

theorem extract_append_newline (L : Lib) (t S : List Char) (name rest : List Char)
    (h : extract L (t ++ '\n' :: S) = some (name, rest)) : ∃ r, rest = r ++ '\n' :: S := by
  cases t with
  | nil =>
    rw [List.nil_append, extract_cons L '\n' S (by decide)] at h
    have : ('\n' :: S).takeWhile (isNameChar L) = [] := by
      simp [List.takeWhile, isNameChar_newline]
    rw [if_pos this] at h
    cases h
  | cons c t =>
    rw [List.cons_append] at h
    by_cases hb : c = '\x7b'
    · subst hb
      rw [extract_brace, takeWhile_append_stop _ t '\n' S (isNameChar_newline L),
        dropWhile_append_stop _ t '\n' S (isNameChar_newline L)] at h
      split at h
      · cases h
      · cases hd : t.dropWhile (isNameChar L) with
        | nil => rw [hd] at h; simp at h
        | cons y ys =>
          rw [hd] at h
          simp only [List.cons_append] at h
          split at h
          · rename_i rest1 heq
            simp only [List.cons.injEq] at heq
            simp only [Option.some.injEq, Prod.mk.injEq] at h
            exact ⟨ys, by rw [← h.2, ← heq.2]⟩
          · cases h
    · rw [extract_cons L c _ hb] at h
      split at h
      · cases h
      · simp only [Option.some.injEq, Prod.mk.injEq] at h
        refine ⟨(c :: t).dropWhile (isNameChar L), ?_⟩
        rw [← h.2, ← List.cons_append, dropWhile_append_stop _ _ '\n' S (isNameChar_newline L)]

theorem expandAux_char (L : Lib) (m : List Char) (fuel : Nat) (c : Char) (t : List Char)
    (hc : c ≠ '$') : expandAux L m (fuel + 1) (c :: t) = c :: expandAux L m fuel t := by
  simp only [expandAux, hc, ne_eq, not_false_eq_true, if_true]

theorem expandAux_dollar_dollar (L : Lib) (m : List Char) (fuel : Nat) (t : List Char) :
    expandAux L m (fuel + 1) ('$' :: '$' :: t) = '$' :: expandAux L m fuel t := by
  simp [expandAux]

theorem expandAux_dollar (L : Lib) (m : List Char) (fuel : Nat) (t : List Char)
    (h : t.head? ≠ some '$') :
    expandAux L m (fuel + 1) ('$' :: t) =
      match extract L t with
      | none => '$' :: expandAux L m fuel t
      | some (name, rest) => submatch name m ++ expandAux L m fuel rest := by
  simp only [expandAux, ne_eq, not_true_eq_false, if_false, h]

theorem expandAux_keeps_tail (L : Lib) (m : List Char) (S : List Char) (hS : '$' ∉ S)
    (fuel : Nat) (t : List Char) : ∃ X, expandAux L m fuel (t ++ '\n' :: S) = X ++ '\n' :: S := by
  induction fuel generalizing t with
  | zero => exact ⟨t, rfl⟩
  | succ fuel ih =>
    cases t with
    | nil =>
      refine ⟨[], ?_⟩
      rw [List.nil_append, expandAux_plain L m _ _ (by
        simp only [List.mem_cons, not_or]; exact ⟨by decide, hS⟩)]
    | cons c t =>
      rw [List.cons_append]
      by_cases hc : c = '$'
      · subst hc
        by_cases hd : ∃ t1, t = '$' :: t1
        · obtain ⟨t1, rfl⟩ := hd
          obtain ⟨X, hX⟩ := ih t1
          exact ⟨'$' :: X, by rw [List.cons_append, expandAux_dollar_dollar, hX]; rfl⟩
        · have hnot : (t ++ '\n' :: S).head? ≠ some '$' := by
            intro heq
            cases t with
            | nil =>
              simp only [List.nil_append, List.head?_cons, Option.some.injEq] at heq
              exact absurd heq (by decide)
            | cons c1 t1 =>
              simp only [List.cons_append, List.head?_cons, Option.some.injEq] at heq
              exact hd ⟨t1, by rw [heq]⟩
          rw [expandAux_dollar L m fuel _ hnot]
          cases hx : extract L (t ++ '\n' :: S) with
          | none =>
            obtain ⟨X, hX⟩ := ih t
            exact ⟨'$' :: X, by simp only [hX, List.cons_append]⟩
          | some r =>
            obtain ⟨name, rest⟩ := r
            obtain ⟨r1, hr1⟩ := extract_append_newline L t S name rest hx
            obtain ⟨X, hX⟩ := ih r1
            exact ⟨submatch name m ++ X, by simp only [hr1, hX, List.append_assoc]⟩
      · obtain ⟨X, hX⟩ := ih t
        exact ⟨c :: X, by rw [expandAux_char L m fuel c _ hc, hX]; rfl⟩

/-! ## The rewrite of the content -/

theorem newContent_eq (L : Lib) (c : JObj) :
    newContent L c =
      (algorithmStartMsg ++ "\n\nvar algorithmConfig = ".toList) ++
        (L.MarshalIndent c ++ '\n' :: ('\n' :: algorithmEndMsg)) := by
  simp only [newContent, List.append_assoc]
  rfl

theorem expand_newContent (L : Lib) (c : JObj) (m : List Char) :
    ∃ mid, expand L (newContent L c) m = algorithmStartMsg ++ (mid ++ (algorithmEndMsg ++ [])) := by
  rw [expand, newContent_eq, List.length_append,
    expandAux_plain_append L m _ _ _ (by decide)]
  obtain ⟨X, hX⟩ := expandAux_keeps_tail L m ('\n' :: algorithmEndMsg) (by decide)
    (L.MarshalIndent c ++ '\n' :: ('\n' :: algorithmEndMsg)).length (L.MarshalIndent c)
  rw [hX]
  exact ⟨"\n\nvar algorithmConfig = ".toList ++ X ++ ['\n', '\n'], by simp⟩

theorem expand_newContent_plain (L : Lib) (c : JObj) (m : List Char)
    (h : '$' ∉ L.MarshalIndent c) : expand L (newContent L c) m = newContent L c := by
  rw [expand]
  apply expandAux_plain
  rw [newContent_eq]
  simp only [List.mem_append, List.mem_cons, not_or]
  exact ⟨by decide, h, by decide, by decide, by decide⟩

theorem skipSpaces_suffix (s : List Char) : skipSpaces s <:+ s := by
  induction s with
  | nil => exact List.suffix_refl _
  | cons c cs ih =>
    unfold skipSpaces
    split
    · exact ih.trans (List.suffix_cons _ _)
    · exact List.suffix_refl _

theorem stripPrefix_suffix (p s r : List Char) (h : stripPrefix p s = some r) : r <:+ s :=
  ⟨p, (stripPrefix_some p s r h).symm⟩

theorem matchSentinel_suffix (w s r : List Char) (h : matchSentinel w s = some r) :
    r <:+ s ∧ r.length < s.length := by
  simp only [matchSentinel, Option.bind_eq_some] at h
  obtain ⟨s1, h1, s2, h2, s3, h3, s4, h4, h5⟩ := h
  have e1 := stripPrefix_some _ _ _ h1
  have k1 : s1 <:+ s := stripPrefix_suffix _ _ _ h1
  have k2 : s2 <:+ s1 := (stripPrefix_suffix _ _ _ h2).trans (skipSpaces_suffix _)
  have k3 : s3 <:+ s2 := (stripPrefix_suffix _ _ _ h3).trans (skipSpaces_suffix _)
  have k4 : s4 <:+ s3 := (stripPrefix_suffix _ _ _ h4).trans (skipSpaces_suffix _)
  have k5 : r <:+ s4 := (stripPrefix_suffix _ _ _ h5).trans (skipSpaces_suffix _)
  have hr1 : r <:+ s1 := k5.trans (k4.trans (k3.trans k2))
  refine ⟨hr1.trans k1, ?_⟩
  have := hr1.length_le
  rw [e1]
  simp only [List.length_append, String.toList, List.length_cons, List.length_nil]
  omega

theorem findEnd_suffix (s r : List Char) (h : findEnd s = some r) : r <:+ s := by
  induction s with
  | nil => simp [findEnd] at h
  | cons c cs ih =>
    unfold findEnd at h
    cases hm : matchSentinel "END".toList (c :: cs) with
    | some r1 =>
      rw [hm] at h
      simp only [Option.some.injEq] at h
      subst h
      exact (matchSentinel_suffix _ _ _ hm).1
    | none =>
      rw [hm] at h
      exact (ih h).trans (List.suffix_cons _ _)

theorem matchRegion_suffix (s r : List Char) (h : matchRegion s = some r) :
    r <:+ s ∧ r.length < s.length := by
  simp only [matchRegion, Option.bind_eq_some] at h
  obtain ⟨s1, h1, h2⟩ := h
  have k1 := matchSentinel_suffix _ _ _ h1
  have k2 := findEnd_suffix _ _ h2
  exact ⟨k2.trans k1.1, lt_of_le_of_lt k2.length_le k1.2⟩

theorem findRegion_some (s b m a : List Char) (h : findRegion s = some (b, m, a)) :
    s = b ++ (m ++ a) ∧ a.length < s.length := by
  induction s generalizing b with
  | nil => simp [findRegion] at h
  | cons c cs ih =>
    rw [findRegion_cons] at h
    cases hm : matchRegion (c :: cs) with
    | some rest =>
      rw [hm] at h
      simp only [Option.some.injEq, Prod.mk.injEq] at h
      obtain ⟨hb, hm1, ha⟩ := h
      subst hb ha
      obtain ⟨⟨t, ht⟩, hlt⟩ := matchRegion_suffix _ _ hm
      refine ⟨?_, hlt⟩
      rw [← hm1, List.nil_append, ← ht]
      simp
    | none =>
      rw [hm] at h
      cases hf : findRegion cs with
      | none => rw [hf] at h; cases h
      | some r =>
        obtain ⟨b1, m1, a1⟩ := r
        rw [hf] at h
        simp only [Option.map_some', Option.some.injEq, Prod.mk.injEq] at h
        obtain ⟨hb, hm1, ha⟩ := h
        subst hb hm1 ha
        obtain ⟨e1, e2⟩ := ih b1 hf
        exact ⟨by rw [e1]; rfl, by simp only [List.length_cons]; omega⟩

theorem replaceAllAux_none (repl : List Char → List Char) (fuel : Nat) (s : List Char)
    (h : findRegion s = none) : replaceAllAux repl fuel s = s := by
  cases fuel with
  | zero => rfl
  | succ fuel => simp only [replaceAllAux, h]

theorem replaceAllString_some (L : Lib) (s repl b m a : List Char)
    (h : findRegion s = some (b, m, a)) :
    ReplaceAllString L s repl =
      b ++ expand L repl m ++ replaceAllAux (expand L repl) (s.length - 1) a := by
  have hpos : s.length = (s.length - 1) + 1 := by
    have := (findRegion_some s b m a h).2
    omega
  rw [ReplaceAllString, hpos]
  simp only [replaceAllAux, h, Nat.add_sub_cancel]

theorem hasMarkers_replaceAllString (L : Lib) (content : List Char) (c : JObj)
    (h : findRegion content ≠ none) :
    HasMarkers (ReplaceAllString L content (newContent L c)) := by
  cases hf : findRegion content with
  | none => exact absurd hf h
  | some r =>
    obtain ⟨b, m, a⟩ := r
    obtain ⟨mid, hmid⟩ := expand_newContent L c m
    rw [replaceAllString_some L content _ b m a hf, hmid]
    exact ⟨b, mid, replaceAllAux (expand L (newContent L c)) (content.length - 1) a, by simp⟩

theorem find_split (s : Store) (id : String) (p : Plugin)
    (h : s.find? (fun q => q.Id == id) = some p) :
    p.Id = id ∧ ∃ s1 s2, s = s1 ++ p :: s2 ∧ (∀ q ∈ s1, q.Id ≠ id) := by
  induction s with
  | nil => simp at h
  | cons x s ih =>
    rw [List.find?_cons] at h
    by_cases hx : x.Id = id
    · have : (x.Id == id) = true := by simpa using hx
      rw [this] at h
      simp only [Option.some.injEq] at h
      subst h
      exact ⟨hx, [], s, rfl, by simp⟩
    · have : (x.Id == id) = false := by simpa using hx
      rw [this] at h
      obtain ⟨h1, s1, s2, h2, h3⟩ := ih h
      refine ⟨h1, x :: s1, s2, by rw [h2]; rfl, ?_⟩
      intro q hq
      rcases List.mem_cons.1 hq with e | e
      · rw [e]; exact hx
      · exact h3 q e

theorem updateFirst_split (id : String) (f : Plugin → Plugin) (s1 s2 : Store) (p : Plugin)
    (hp : p.Id = id) (h1 : ∀ q ∈ s1, q.Id ≠ id) :
    updateFirst id f (s1 ++ p :: s2) = some (s1 ++ f p :: s2) := by
  induction s1 with
  | nil => simp [updateFirst, hp]
  | cons x s1 ih =>
    have hx : x.Id ≠ id := h1 x (List.mem_cons_self _ _)
    have ih1 := ih fun q hq => h1 q (List.mem_cons_of_mem _ hq)
    rw [List.cons_append, updateFirst, if_neg hx, ih1]
    rfl

theorem getPluginById_ok (s : Store) (id : String) (p : Plugin)
    (h : GetPluginById false s id true = .ok p) : s.find? (fun q => q.Id == id) = some p := by
  unfold GetPluginById at h
  simp only [Bool.false_eq_true, if_false, if_true] at h
  cases hf : s.find? (fun q => q.Id == id) with
  | none => rw [hf] at h; cases h
  | some q => rw [hf] at h; cases h; rfl

theorem getPluginById_of_find (s : Store) (id : String) (p : Plugin)
    (h : s.find? (fun q => q.Id == id) = some p) : GetPluginById false s id true = .ok p := by
  simp [GetPluginById, h]

theorem getPluginById_of_mem (s : Store) (p : Plugin) (hn : (ids s).Nodup) (hp : p ∈ s) :
    GetPluginById false s p.Id true = .ok p := by
  apply getPluginById_of_find
  induction s with
  | nil => simp at hp
  | cons x s ih =>
    simp only [ids, List.map_cons, List.nodup_cons] at hn
    rw [List.find?_cons]
    rcases List.mem_cons.1 hp with e | e
    · subst e; simp
    · have hx : x.Id ≠ p.Id := fun e1 => hn.1 (List.mem_map.2 ⟨p, e, e1.symm⟩)
      have : (x.Id == p.Id) = false := by simpa using hx
      rw [this]
      exact ih hn.2 e

theorem handleAlgorithmConfig_ok (L : Lib) (s s1 s2 : Store) (p : Plugin) (c : JObj)
    (hs : s = s1 ++ p :: s2) (h1 : ∀ q ∈ s1, q.Id ≠ p.Id) (hr : findRegion p.Content ≠ none) :
    handleAlgorithmConfig L false p c s = (.ok p.AppId, s1 ++ rewritten L p c :: s2) := by
  cases hf : findRegion p.Content with
  | none => exact absurd hf hr
  | some r =>
    simp only [handleAlgorithmConfig, hf, mongo.UpdateId, Bool.false_eq_true, if_false, hs,
      updateFirst_split p.Id _ s1 s2 p rfl h1]
    rfl

theorem handleAlgorithmConfig_snd (L : Lib) (fault : Bool) (s : Store) (p : Plugin) (c : JObj)
    (hfind : s.find? (fun q => q.Id == p.Id) = some p) :
    (handleAlgorithmConfig L fault p c s).2 = s ∨
      ∃ s1 s2, s = s1 ++ p :: s2 ∧ findRegion p.Content ≠ none ∧
        handleAlgorithmConfig L fault p c s = (.ok p.AppId, s1 ++ rewritten L p c :: s2) := by
  obtain ⟨_, s1, s2, hs, h1⟩ := find_split s p.Id p hfind
  cases hf : findRegion p.Content with
  | none => left; simp [handleAlgorithmConfig, hf]
  | some r =>
    cases fault with
    | true => left; simp [handleAlgorithmConfig, hf, mongo.UpdateId]
    | false =>
      right
      exact ⟨s1, s2, hs, by simp,
        handleAlgorithmConfig_ok L s s1 s2 p c hs h1 (by rw [hf]; simp)⟩

/-! ## Reachable collections -/

theorem lookup_some_mem (m : JObj) (k : String) (v : JValue) (h : m.lookup k = some v) :
    (k, v) ∈ m := by
  induction m with
  | nil => simp [List.lookup] at h
  | cons e m ih =>
    obtain ⟨k1, v1⟩ := e
    by_cases hk : k = k1
    · subst hk
      simp only [List.lookup, beq_self_eq_true, Option.some.injEq] at h
      subst h
      exact List.mem_cons_self _ _
    · have h1 : (k == k1) = false := by simpa using hk
      simp only [List.lookup, h1] at h
      exact List.mem_cons_of_mem _ (ih h)

theorem keySetOk_default (p : Plugin) (h : p.AlgorithmConfig = p.DefaultAlgorithmConfig) :
    KeySetOk p := by
  intro k dv hk
  rw [h]
  exact ⟨dv, hk, fun dobj hd => ⟨dobj, hd, fun _ hs => hs⟩⟩

theorem keySetOk_of_valid (p q : Plugin) (c : JObj) (hv : validAlgorithmConfig p c = none)
    (hd : q.DefaultAlgorithmConfig = p.DefaultAlgorithmConfig) (hc : q.AlgorithmConfig = c) :
    KeySetOk q := by
  intro k dv hk
  rw [hd] at hk
  obtain ⟨cv, h1, _, h3⟩ := (checkEntries_eq_none_iff c p.DefaultAlgorithmConfig).1 hv k dv
    (lookup_some_mem _ _ _ hk)
  rw [hc]
  exact ⟨cv, h1, h3⟩

theorem removeFirst_sublist (id : String) (s s1 : Store) (h : removeFirst id s = some s1) :
    s1.Sublist s := by
  induction s generalizing s1 with
  | nil => simp [removeFirst] at h
  | cons p ps ih =>
    unfold removeFirst at h
    split at h
    · simp only [Option.some.injEq] at h
      rw [← h]; exact List.sublist_cons_self _ _
    · cases hr : removeFirst id ps with
      | none => rw [hr] at h; cases h
      | some s2 =>
        rw [hr] at h
        simp only [Option.map_some', Option.some.injEq] at h
        rw [← h]
        exact (ih s2 hr).cons₂ _

theorem removeOld_sublist (fault : Nat → Bool) (i : Nat) (olds : List Plugin) (s : Store) :
    (removeOld fault i olds s).2.Sublist s := by
  induction olds generalizing i s with
  | nil => exact List.Sublist.refl _
  | cons o olds ih =>
    unfold removeOld mongo.RemoveId
    cases fault i with
    | true => exact List.Sublist.refl _
    | false =>
      simp only [Bool.false_eq_true, if_false]
      cases hr : removeFirst o.Id s with
      | none => exact List.Sublist.refl _
      | some s1 => exact (ih (i + 1) s1).trans (removeFirst_sublist _ _ _ hr)

theorem insertPlugin_snd (fault : Bool) (p : Plugin) (s : Store) :
    (insertPlugin fault p s).2 = s ∨
      ((insertPlugin fault p s).2 = s ++ [p] ∧ p.Id ∉ ids s) := by
  unfold insertPlugin mongo.Insert
  cases fault with
  | true => left; rfl
  | false =>
    cases hd : s.any (fun x => x.Id == p.Id) with
    | true => left; simp [hd]
    | false =>
      right
      refine ⟨by simp [hd], ?_⟩
      rw [List.any_eq_false] at hd
      intro hm
      obtain ⟨q, hq, he⟩ := List.mem_map.1 hm
      exact hd q hq (by simpa using he)

theorem addPluginToDb_snd (L : Lib) (N : Nat) (fault : Nat → Bool) (id : String) (now : Int)
    (version name content : List Char) (appId : String) (d : JObj) (s : Store) :
    ∃ s1, s1.Sublist s ∧
      ((addPluginToDb L N fault id now version name content appId d s).2 = s1 ∨
        ((addPluginToDb L N fault id now version name content appId d s).2 =
            s1 ++ [pluginDoc L id now version name content appId d] ∧
          (pluginDoc L id now version name content appId d).Id ∉ ids s1)) := by
  by_cases hN : 0 < N
  · rw [addPluginToDb_shape L N fault id now version name content appId d s hN]
    cases fault 0 with
    | true => exact ⟨s, List.Sublist.refl _, Or.inl rfl⟩
    | false =>
      simp only [Bool.false_eq_true, if_false]
      have hsub := removeOld_sublist fault 1 ((excess N appId s).map withoutContent) s
      cases (removeOld fault 1 ((excess N appId s).map withoutContent) s).1 with
      | some e => exact ⟨_, hsub, Or.inl rfl⟩
      | none => exact ⟨_, hsub, insertPlugin_snd _ _ _⟩
  · simp only [addPluginToDb, hN, if_false]
    exact ⟨s, List.Sublist.refl _, insertPlugin_snd _ _ _⟩

theorem good_pluginDoc (L : Lib) (id : String) (now : Int) (content : List Char)
    (appId : String) (v n : List Char) (cfg : JObj)
    (h : parsePlugin L content = .ok (v, n, cfg)) :
    Good L (pluginDoc L id now v n content appId cfg) :=
  ⟨parsePlugin_ok_markers L content _ h, keySetOk_default _ rfl, rfl⟩

theorem good_rewritten (L : Lib) (p : Plugin) (c : JObj) (hr : findRegion p.Content ≠ none)
    (hk : KeySetOk (rewritten L p c)) : Good L (rewritten L p c) :=
  ⟨hasMarkers_replaceAllString L p.Content c hr, hk, rfl⟩

theorem storeOk_addPlugin (L : Lib) (N : Nat) (fault : Nat → Bool) (id : String) (now : Int)
    (content : List Char) (appId : String) (s : Store) (h : StoreOk L s) :
    StoreOk L (AddPlugin L N fault id now content appId s).2 := by
  unfold AddPlugin
  cases hp : parsePlugin L content with
  | error e => exact h
  | ok r =>
    obtain ⟨v, n, cfg⟩ := r
    simp only
    obtain ⟨s1, hsub, hcase⟩ := addPluginToDb_snd L N fault id now v n content appId cfg s
    have h1 : StoreOk L s1 :=
      ⟨(List.Sublist.map Plugin.Id hsub).nodup h.1, fun p hp1 => h.2 p (hsub.subset hp1)⟩
    rcases hcase with e | ⟨e, hfresh⟩
    · rw [e]; exact h1
    · rw [e]
      refine ⟨?_, ?_⟩
      · simp only [ids, List.map_append, List.map_cons, List.map_nil]
        refine List.Nodup.append h1.1 (List.nodup_singleton _) ?_
        intro x hx1 hx2
        rw [List.mem_singleton] at hx2
        subst hx2
        exact hfresh hx1
      · intro p hp1
        rcases List.mem_append.1 hp1 with hm | hm
        · exact h1.2 p hm
        · rw [List.mem_singleton] at hm
          rw [hm]
          exact good_pluginDoc L id now content appId v n cfg hp

theorem storeOk_handle (L : Lib) (fault : Bool) (s : Store) (p : Plugin) (c : JObj)
    (h : StoreOk L s) (hfind : s.find? (fun q => q.Id == p.Id) = some p)
    (hk : KeySetOk (rewritten L p c)) :
    StoreOk L (handleAlgorithmConfig L fault p c s).2 := by
  rcases handleAlgorithmConfig_snd L fault s p c hfind with e | ⟨s1, s2, hs, hr, e⟩
  · rw [e]; exact h
  · rw [e]
    simp only
    subst hs
    refine ⟨?_, ?_⟩
    · have : ids (s1 ++ rewritten L p c :: s2) = ids (s1 ++ p :: s2) := by
        simp [ids, rewritten]
      rw [this]; exact h.1
    · intro q hq
      rcases List.mem_append.1 hq with hm | hm
      · exact h.2 q (List.mem_append_left _ hm)
      · rcases List.mem_cons.1 hm with hm1 | hm1
        · rw [hm1]; exact good_rewritten L p c hr hk
        · exact h.2 q (List.mem_append_right _ (List.mem_cons_of_mem _ hm1))

theorem getPluginById_find (fault : Bool) (s : Store) (id : String) (p : Plugin)
    (h : GetPluginById fault s id true = .ok p) :
    s.find? (fun q => q.Id == p.Id) = some p := by
  cases fault with
  | true => simp [GetPluginById] at h
  | false =>
    have hf := getPluginById_ok s id p h
    rw [(find_split s id p hf).1]
    exact hf

theorem storeOk_update (L : Lib) (fg fu : Bool) (pluginId : String) (c : JObj) (s : Store)
    (h : StoreOk L s) : StoreOk L (UpdateAlgorithmConfig L fg fu pluginId c s).2 := by
  unfold UpdateAlgorithmConfig
  cases hg : GetPluginById fg s pluginId true with
  | error e => exact h
  | ok p =>
    simp only
    cases hv : validAlgorithmConfig p c with
    | some e => exact h
    | none =>
      exact storeOk_handle L fu s p c h (getPluginById_find fg s pluginId p hg)
        (keySetOk_of_valid p _ c hv rfl rfl)

theorem storeOk_restore (L : Lib) (fg fu : Bool) (pluginId : String) (s : Store)
    (h : StoreOk L s) : StoreOk L (RestoreDefaultConfiguration L fg fu pluginId s).2 := by
  unfold RestoreDefaultConfiguration
  cases hg : GetPluginById fg s pluginId true with
  | error e => exact h
  | ok p =>
    exact storeOk_handle L fu s p _ h (getPluginById_find fg s pluginId p hg)
      (keySetOk_default _ rfl)

theorem reachable_storeOk (L : Lib) (N : Nat) (s : Store) (h : Reachable L N s) :
    StoreOk L s := by
  induction h with
  | empty => exact ⟨List.nodup_nil, fun p hp => absurd hp (List.not_mem_nil p)⟩
  | add s fault id now content appId _ ih => exact storeOk_addPlugin L N fault id now content appId s ih
  | update s fg fu pluginId c _ ih => exact storeOk_update L fg fu pluginId c s ih
  | restore s fg fu pluginId _ ih => exact storeOk_restore L fg fu pluginId s ih

/-! ## Fuel -/

theorem dropWhile_length_le (p : Char → Bool) (l : List Char) :
    (l.dropWhile p).length ≤ l.length :=
  (List.dropWhile_suffix p).length_le

theorem extract_length (L : Lib) (t name rest : List Char)
    (h : extract L t = some (name, rest)) : rest.length ≤ t.length := by
  cases t with
  | nil => simp [extract] at h
  | cons c t =>
    by_cases hb : c = '\x7b'
    · subst hb
      rw [extract_brace] at h
      split at h
      · cases h
      · split at h
        · rename_i rest1 heq
          simp only [Option.some.injEq, Prod.mk.injEq] at h
          have := dropWhile_length_le (isNameChar L) t
          rw [heq] at this
          rw [← h.2]
          simp only [List.length_cons] at this ⊢
          omega
        · cases h
    · rw [extract_cons L c t hb] at h
      split at h
      · cases h
      · simp only [Option.some.injEq, Prod.mk.injEq] at h
        rw [← h.2]
        exact dropWhile_length_le _ _

/-- The fuel `expand` gives `expandAux` is enough: more fuel changes nothing. -/
theorem expandAux_fuel (L : Lib) (m : List Char) (fuel : Nat) (t : List Char)
    (h : t.length ≤ fuel) : expandAux L m (fuel + 1) t = expandAux L m fuel t := by
  induction fuel generalizing t with
  | zero =>
    have : t = [] := List.length_eq_zero.1 (Nat.le_zero.1 h)
    subst this
    rfl
  | succ fuel ih =>
    cases t with
    | nil => rfl
    | cons c t =>
      simp only [List.length_cons, Nat.add_le_add_iff_right] at h
      by_cases hc : c = '$'
      · subst hc
        by_cases hd : t.head? = some '$'
        · have ht : t.tail.length ≤ fuel := by
            rw [List.length_tail]; omega
          simp only [expandAux, ne_eq, not_true_eq_false, if_false, hd, if_true, ih t.tail ht]
        · rw [expandAux_dollar L m (fuel + 1) t hd, expandAux_dollar L m fuel t hd]
          cases hx : extract L t with
          | none => simp only [ih t h]
          | some r =>
            obtain ⟨name, rest⟩ := r
            simp only [ih rest (le_trans (extract_length L t name rest hx) h)]
      · rw [expandAux_char L m (fuel + 1) c t hc, expandAux_char L m fuel c t hc, ih t h]

/-- The fuel `ReplaceAllString` gives `replaceAllAux` is enough: more fuel
changes nothing. -/
theorem replaceAllAux_fuel (repl : List Char → List Char) (fuel : Nat) (s : List Char)
    (h : s.length ≤ fuel) : replaceAllAux repl (fuel + 1) s = replaceAllAux repl fuel s := by
  induction fuel generalizing s with
  | zero =>
    have : s = [] := List.length_eq_zero.1 (Nat.le_zero.1 h)
    subst this
    rfl
  | succ fuel ih =>
    cases hf : findRegion s with
    | none => rw [replaceAllAux_none _ _ s hf, replaceAllAux_none _ _ s hf]
    | some r =>
      obtain ⟨b, m, a⟩ := r
      have hlt := (findRegion_some s b m a hf).2
      have e1 : replaceAllAux repl (fuel + 1 + 1) s =
          b ++ repl m ++ replaceAllAux repl (fuel + 1) a := by
        simp only [replaceAllAux, hf]
      have e2 : replaceAllAux repl (fuel + 1) s = b ++ repl m ++ replaceAllAux repl fuel a := by
        simp only [replaceAllAux, hf]
      rw [e1, e2, ih a (by omega)]

/-! ## The alarm buffers -/

theorem receiveMore_eq (alarms buf : List JObj) :
    receiveMore alarms buf =
      (alarms ++ buf.take (200 - alarms.length), buf.drop (200 - alarms.length)) := by
  induction buf generalizing alarms with
  | nil => simp [receiveMore]
  | cons a rest ih =>
    unfold receiveMore
    by_cases h : alarms.length < 200
    · rw [if_pos h, ih]
      have e : 200 - alarms.length = (200 - (alarms ++ [a]).length) + 1 := by
        simp only [List.length_append, List.length_singleton]; omega
      rw [e]
      simp
    · rw [if_neg h]
      have e : 200 - alarms.length = 0 := by omega
      simp [e]

theorem receiveMore_first (alarm : JObj) (rest : List JObj) :
    receiveMore [alarm] rest = ((alarm :: rest).take 200, (alarm :: rest).drop 200) := by
  rw [receiveMore_eq]
  rfl

theorem handleEsLogPush_eq (pick : Category) (bulk : String → List JObj → BulkResult)
    (b : AlarmBuffers) (cat : Category) (hn : (b.chan cat).buf ≠ [])
    (hsel : (b.chan cat.other).buf = [] ∨ pick = cat) :
    handleEsLogPush pick bulk b = some (cycleFor cat bulk b) := by
  obtain ⟨⟨ca, ba⟩, ⟨cp, bp⟩⟩ := b
  cases cat with
  | attack =>
    simp only [AlarmBuffers.chan, Category.other] at hn hsel
    cases ba with
    | nil => exact absurd rfl hn
    | cons a ra =>
      cases bp with
      | nil =>
        simp only [handleEsLogPush, selectCase, receiveMore_first, cycleFor, AlarmBuffers.chan,
          AlarmBuffers.setBuf, Category.alarmType]
      | cons p rp =>
        rcases hsel with h | h
        · cases h
        · subst h
          simp only [handleEsLogPush, selectCase, receiveMore_first, cycleFor, AlarmBuffers.chan,
            AlarmBuffers.setBuf, Category.alarmType]
  | policy =>
    simp only [AlarmBuffers.chan, Category.other] at hn hsel
    cases bp with
    | nil => exact absurd rfl hn
    | cons p rp =>
      cases ba with
      | nil =>
        simp only [handleEsLogPush, selectCase, receiveMore_first, cycleFor, AlarmBuffers.chan,
          AlarmBuffers.setBuf, Category.alarmType]
      | cons a ra =>
        rcases hsel with h | h
        · cases h
        · subst h
          simp only [handleEsLogPush, selectCase, receiveMore_first, cycleFor, AlarmBuffers.chan,
            AlarmBuffers.setBuf, Category.alarmType]

theorem handleEsLogPush_none (pick : Category) (bulk : String → List JObj → BulkResult)
    (b : AlarmBuffers) (ha : b.esAttackAlarmBuffer.buf = []) (hp : b.esPolicyAlarmBuffer.buf = []) :
    handleEsLogPush pick bulk b = none := by
  simp [handleEsLogPush, selectCase, ha, hp]

theorem handleEsLogPush_cases (pick : Category) (bulk : String → List JObj → BulkResult)
    (b : AlarmBuffers) :
    (b.esAttackAlarmBuffer.buf = [] ∧ b.esPolicyAlarmBuffer.buf = [] ∧
      handleEsLogPush pick bulk b = none) ∨
    ∃ cat, (b.chan cat).buf ≠ [] ∧ handleEsLogPush pick bulk b = some (cycleFor cat bulk b) := by
  by_cases ha : b.esAttackAlarmBuffer.buf = []
  · by_cases hp : b.esPolicyAlarmBuffer.buf = []
    · exact Or.inl ⟨ha, hp, handleEsLogPush_none pick bulk b ha hp⟩
    · exact Or.inr ⟨.policy, hp, handleEsLogPush_eq pick bulk b .policy hp (Or.inl ha)⟩
  · by_cases hp : b.esPolicyAlarmBuffer.buf = []
    · exact Or.inr ⟨.attack, ha, handleEsLogPush_eq pick bulk b .attack ha (Or.inl hp)⟩
    · cases hpick : pick with
      | attack => exact Or.inr ⟨.attack, ha, hpick ▸ handleEsLogPush_eq pick bulk b .attack ha (Or.inr hpick)⟩
      | policy => exact Or.inr ⟨.policy, hp, hpick ▸ handleEsLogPush_eq pick bulk b .policy hp (Or.inr hpick)⟩

theorem chan_setBuf (b : AlarmBuffers) (cat : Category) (buf : List JObj) :
    ((b.setBuf cat buf).chan cat).buf = buf ∧
    ((b.setBuf cat buf).chan cat).cap = (b.chan cat).cap ∧
    (b.setBuf cat buf).chan cat.other = b.chan cat.other := by
  cases cat <;> exact ⟨rfl, rfl, rfl⟩

theorem setBuf_self (b : AlarmBuffers) (cat : Category) : b.setBuf cat (b.chan cat).buf = b := by
  cases cat <;> rfl

theorem setBuf_setBuf (b : AlarmBuffers) (cat : Category) (x y : List JObj) :
    (b.setBuf cat x).setBuf cat y = b.setBuf cat y := by
  cases cat <;> rfl

theorem alarmType_beq (c1 c2 : Category) : (c1.alarmType == c2.alarmType) = decide (c1 = c2) := by
  cases c1 <;> cases c2 <;> decide

theorem delivered_cons (ty : String) (call : String × List JObj)
    (calls : List (String × List JObj)) :
    delivered ty (call :: calls) =
      (if call.1 == ty then call.2 else []) ++ delivered ty calls := by
  unfold delivered
  rw [List.filter_cons]
  cases call.1 == ty <;> simp

theorem total_setBuf_drop (b : AlarmBuffers) (cat : Category) (h : (b.chan cat).buf ≠ []) :
    (b.setBuf cat ((b.chan cat).buf.drop 200)).esAttackAlarmBuffer.buf.length +
        (b.setBuf cat ((b.chan cat).buf.drop 200)).esPolicyAlarmBuffer.buf.length <
      b.esAttackAlarmBuffer.buf.length + b.esPolicyAlarmBuffer.buf.length := by
  have hpos : 0 < (b.chan cat).buf.length := List.length_pos.2 h
  cases cat with
  | attack =>
    simp only [AlarmBuffers.chan] at hpos
    simp only [AlarmBuffers.setBuf, AlarmBuffers.chan, List.length_drop]
    omega
  | policy =>
    simp only [AlarmBuffers.chan] at hpos
    simp only [AlarmBuffers.setBuf, AlarmBuffers.chan, List.length_drop]
    omega

theorem pushCycles_delivers (pick : Nat → Category) (bulk : String → List JObj → BulkResult)
    (fuel i : Nat) (b : AlarmBuffers)
    (h : b.esAttackAlarmBuffer.buf.length + b.esPolicyAlarmBuffer.buf.length ≤ fuel)
    (cat : Category) :
    delivered cat.alarmType (pushCycles pick bulk fuel i b).1 = (b.chan cat).buf ∧
    ((pushCycles pick bulk fuel i b).2.chan cat).buf = [] ∧
    ((pushCycles pick bulk fuel i b).2.chan cat).cap = (b.chan cat).cap := by
  induction fuel generalizing i b with
  | zero =>
    have ha : b.esAttackAlarmBuffer.buf = [] := List.length_eq_zero.1 (by omega)
    have hp : b.esPolicyAlarmBuffer.buf = [] := List.length_eq_zero.1 (by omega)
    cases cat <;> simp [pushCycles, delivered, AlarmBuffers.chan, ha, hp]
  | succ fuel ih =>
    rcases handleEsLogPush_cases (pick i) bulk b with ⟨ha, hp, hnone⟩ | ⟨c, hne, hsome⟩
    · cases cat <;> simp [pushCycles, hnone, delivered, AlarmBuffers.chan, ha, hp]
    · have hlt := total_setBuf_drop b c hne
      obtain ⟨g1, g2, g3⟩ := ih (i + 1) (b.setBuf c ((b.chan c).buf.drop 200)) (by omega)
      obtain ⟨k1, k2, k3⟩ := chan_setBuf b c ((b.chan c).buf.drop 200)
      simp only [pushCycles, hsome, cycleFor, List.singleton_append, delivered_cons,
        alarmType_beq]
      by_cases hcc : c = cat
      · subst hcc
        rw [g1, k1] at *
        simp only [decide_True, if_true, List.take_append_drop]
        exact ⟨trivial, g2, by rw [g3, k2]⟩
      · have hother : cat = c.other := by
          cases c <;> cases cat <;> first | rfl | exact absurd rfl hcc
        simp only [hcc, decide_False, Bool.false_eq_true, if_false, List.nil_append]
        rw [hother] at g1 g3 ⊢
        rw [k3] at g1 g3
        exact ⟨g1, by rw [← hother]; exact g2, g3⟩

theorem addLogWithES_category (cat : Category) (alarm : JObj) (b : AlarmBuffers) :
    AddLogWithES cat.alarmType alarm b =
      if (b.chan cat).buf.length < (b.chan cat).cap then
        { err := none, buffers := b.setBuf cat ((b.chan cat).buf ++ [alarm]), dropped := none }
      else { err := none, buffers := b, dropped := some alarm } := by
  cases cat with
  | attack =>
    have h1 : Category.attack.alarmType = AttackAlarmType := rfl
    by_cases h : b.esAttackAlarmBuffer.buf.length < b.esAttackAlarmBuffer.cap
    · simp only [AddLogWithES, h1, if_true, Chan.trySend, AlarmBuffers.chan, AlarmBuffers.setBuf, h]
    · simp only [AddLogWithES, h1, if_true, Chan.trySend, AlarmBuffers.chan, h, if_false]
  | policy =>
    have h1 : Category.policy.alarmType = PolicyAlarmType := rfl
    have h2 : ¬ PolicyAlarmType = AttackAlarmType := by decide
    by_cases h : b.esPolicyAlarmBuffer.buf.length < b.esPolicyAlarmBuffer.cap
    · simp only [AddLogWithES, h1, h2, if_false, if_true, Chan.trySend, AlarmBuffers.chan,
        AlarmBuffers.setBuf, h]
    · simp only [AddLogWithES, h1, h2, if_false, if_true, Chan.trySend, AlarmBuffers.chan, h]

theorem addLogWithES_unknown (alarmType : String) (alarm : JObj) (b : AlarmBuffers)
    (h1 : alarmType ≠ AttackAlarmType) (h2 : alarmType ≠ PolicyAlarmType) :
    AddLogWithES alarmType alarm b = { err := none, buffers := b, dropped := none } := by
  simp only [AddLogWithES, h1, h2, if_false]

theorem enqueueAll_eq (cat : Category) (events : List JObj) (b : AlarmBuffers) :
    enqueueAll cat.alarmType events b =
      (b.setBuf cat ((b.chan cat).buf ++ events.take ((b.chan cat).cap - (b.chan cat).buf.length)),
        events.drop ((b.chan cat).cap - (b.chan cat).buf.length)) := by
  induction events generalizing b with
  | nil => simp [enqueueAll, setBuf_self]
  | cons e rest ih =>
    simp only [enqueueAll, addLogWithES_category]
    by_cases h : (b.chan cat).buf.length < (b.chan cat).cap
    · simp only [h, if_true, ih, Option.toList, List.nil_append]
      obtain ⟨k1, k2, _⟩ := chan_setBuf b cat ((b.chan cat).buf ++ [e])
      rw [k1, k2, setBuf_setBuf]
      have e1 : (b.chan cat).cap - (b.chan cat).buf.length =
          ((b.chan cat).cap - ((b.chan cat).buf ++ [e]).length) + 1 := by
        simp only [List.length_append, List.length_singleton]; omega
      rw [e1]
      simp
    · simp only [h, if_false, ih, Option.toList]
      have e1 : (b.chan cat).cap - (b.chan cat).buf.length = 0 := by omega
      simp [e1]

theorem alarmBufferSize_some (configured : Int) (c : Nat)
    (h : alarmBufferSize configured = some c) :
    100 ≤ c ∧ (100 ≤ configured → (c : Int) = configured) ∧ (configured < 100 → c = 100) := by
  unfold alarmBufferSize at h
  split at h
  · cases h
  · split at h
    · cases h; omega
    · cases h; omega

/-! # Claims -/

/-- C1: `validAlgorithmConfig(plugin, config)` returns no error if and only if
every entry `k ↦ dv` of `plugin.DefaultAlgorithmConfig` is matched by `config`
(`EntryOk`: `config` has `k`, with a non-null value when `dv` is non-null, and
with an object holding every sub-key of `dv` when `dv` is an object; nothing
is asked of the sub-values); and a key of `config` that the default does not
have never changes the verdict. -/
theorem validAlgorithmConfig_iff (plugin : Plugin) (config : JObj) :
    (validAlgorithmConfig plugin config = none ↔
      ∀ k dv, (k, dv) ∈ plugin.DefaultAlgorithmConfig → EntryOk config k dv) ∧
    (∀ k v, k ∉ keys plugin.DefaultAlgorithmConfig →
      validAlgorithmConfig plugin ((k, v) :: config) = validAlgorithmConfig plugin config) :=
  ⟨checkEntries_eq_none_iff config plugin.DefaultAlgorithmConfig,
    fun k v h => checkEntries_cons_config config plugin.DefaultAlgorithmConfig k v h⟩

/-- C2: with a ceiling `MaxPlugins > 0` and no store operation failing (the
ids drawn are fresh), after sequential `AddPlugin` calls for one application
with strictly increasing upload times, starting with no plugin of that
application, `GetPluginsByApp(appId, 0, 0)` counts `min(k, MaxPlugins)` plugins,
`k` the number of creates, and returns the `min(k, MaxPlugins)` most recently
created ones, newest first (sorted by upload time descending); every call
whose artifact parses is a create. -/
theorem retention_on_create (L : Lib) (MaxPlugins : Nat) (hN : 0 < MaxPlugins)
    (appId : String) (s0 : Store) (us : List Upload) (h0 : ∀ p ∈ s0, p.AppId ≠ appId)
    (hids : (ids s0 ++ us.map Upload.id).Nodup)
    (ht : us.Pairwise fun a b => a.now < b.now) :
    GetPluginsByApp false (uploadAll L MaxPlugins appId us s0) appId 0 0 =
      .ok (min (us.filterMap (createdBy L appId)).length MaxPlugins,
        (((us.filterMap (createdBy L appId)).reverse.take MaxPlugins).map withoutContent)) ∧
    (((us.filterMap (createdBy L appId)).reverse.take MaxPlugins).map withoutContent).Pairwise
      (fun a b => b.UploadTime < a.UploadTime) ∧
    ((∀ u ∈ us, ∃ r, parsePlugin L u.content = .ok r) →
      (us.filterMap (createdBy L appId)).length = us.length) := by
  have hasc : (us.filterMap (createdBy L appId)).Pairwise
      fun a b => a.UploadTime < b.UploadTime := by
    refine List.Pairwise.filterMap _ ?_ ht
    intro a a1 haa b hb b1 hb1
    rw [(createdBy_some L appId a b hb).2.1, (createdBy_some L appId a1 b1 hb1).2.1]
    exact haa
  have hl : ∀ p ∈ lastN MaxPlugins (us.filterMap (createdBy L appId)), p.AppId = appId := by
    intro p hp
    obtain ⟨a, _, hpa⟩ := List.mem_filterMap.1 (List.mem_of_mem_drop hp)
    exact (createdBy_some L appId a p hpa).2.2.1
  have hrev : (lastN MaxPlugins (us.filterMap (createdBy L appId))).reverse =
      (us.filterMap (createdBy L appId)).reverse.take MaxPlugins := by
    rw [lastN, List.reverse_drop]
    by_cases hle : MaxPlugins ≤ (us.filterMap (createdBy L appId)).length
    · congr 1; omega
    · rw [List.take_of_length_le (by simp; omega), List.take_of_length_le (by simp; omega)]
  have hsort : (lastN MaxPlugins (us.filterMap (createdBy L appId))).insertionSort newerFirst =
      (us.filterMap (createdBy L appId)).reverse.take MaxPlugins := by
    have hs : (lastN MaxPlugins (us.filterMap (createdBy L appId))).Pairwise
        fun a b => a.UploadTime < b.UploadTime := hasc.sublist (List.drop_sublist _ _)
    rw [insertionSort_ascending _ hs, hrev]
  refine ⟨?_, ?_, ?_⟩
  · rw [uploadAll_eq L MaxPlugins hN appId s0 us h0 hids ht]
    simp only [GetPluginsByApp, Bool.false_eq_true, if_false, if_true, List.drop_zero,
      filter_app_append appId s0 _ h0 hl, hsort]
    congr 2
    simp only [lastN, List.length_drop]
    omega
  · rw [List.pairwise_map]
    have := (List.pairwise_reverse.2 hasc).sublist
      (List.take_sublist MaxPlugins (us.filterMap (createdBy L appId)).reverse)
    exact this.imp fun h => h
  · exact created_length L appId us

/-- C2 at the specification's scenario: 12 creates against a ceiling of 10
leave the 10 newest, returned newest first. -/
theorem retention_on_create_witness :
    GetPluginsByApp false (uploadAll exampleLib 10 "app" twelveUploads []) "app" 0 0 =
      .ok (min (twelveUploads.filterMap (createdBy exampleLib "app")).length 10,
        (((twelveUploads.filterMap (createdBy exampleLib "app")).reverse.take 10).map
          withoutContent)) ∧
    (twelveUploads.filterMap (createdBy exampleLib "app")).length = 12 ∧
    ids ((twelveUploads.filterMap (createdBy exampleLib "app")).reverse.take 10) =
      ["11", "10", "9", "8", "7", "6", "5", "4", "3", "2"] ∧
    ids (uploadAll exampleLib 10 "app" twelveUploads []) =
      ["2", "3", "4", "5", "6", "7", "8", "9", "10", "11"] :=
  ⟨(retention_on_create exampleLib 10 (by decide) "app" [] twelveUploads (by simp)
      (by decide) (by decide)).1, by decide, by decide, by decide⟩

/-- C3, the claim as stated fails: against the default `a ↦ 1` of a plugin
created by `AddPlugin`, the configuration `a ↦ null` is a superset by key at
depth at most 1, yet `UpdateAlgorithmConfig` rejects it. -/
theorem updateAlgorithmConfig_rejects_null :
    (AddPlugin exampleLib 10 (fun _ => false) "p1" 1 flatArtifact "app" []).1 =
      .ok (pluginDoc exampleLib "p1" 1 "v1.0".toList "MyPlugin".toList flatArtifact "app"
        flatConfig) ∧
    SupersetByKey flatConfig [("a", .null)] ∧
    (UpdateAlgorithmConfig exampleLib false false "p1" [("a", .null)]
      (AddPlugin exampleLib 10 (fun _ => false) "p1" 1 flatArtifact "app" []).2).1 =
      .error (.error (missingKeyError "a")) := by
  refine ⟨rfl, ?_, rfl⟩
  intro k dv hm
  simp only [flatConfig, List.mem_singleton, Prod.mk.injEq] at hm
  obtain ⟨rfl, rfl⟩ := hm
  exact ⟨.null, rfl, fun dobj h => by cases h⟩

/-- C3, amended: for every plugin `p` of a reachable collection (a plugin
created by `AddPlugin`, updated or restored any number of times since) and
every configuration `c` that is a superset by key of `p`'s default at depth
at most 1 and has no null value where the default value is not null,
`UpdateAlgorithmConfig(p.Id, c)` succeeds when the store does, and the
document it leaves has `c` as configuration and as digest the digest of the
content stored in the same update. -/
theorem updateAlgorithmConfig_succeeds (L : Lib) (MaxPlugins : Nat) (s : Store)
    (hs : Reachable L MaxPlugins s) (p : Plugin) (hp : p ∈ s) (c : JObj)
    (hsup : SupersetByKey p.DefaultAlgorithmConfig c)
    (hnull : NonNullWhereDefault p.DefaultAlgorithmConfig c) :
    ∃ s1 s2, s = s1 ++ p :: s2 ∧
      UpdateAlgorithmConfig L false false p.Id c s =
        (.ok p.AppId, s1 ++ rewritten L p c :: s2) ∧
      GetPluginById false (s1 ++ rewritten L p c :: s2) p.Id true = .ok (rewritten L p c) ∧
      (rewritten L p c).AlgorithmConfig = c ∧
      (rewritten L p c).Md5 = L.md5Hex (rewritten L p c).Content := by
  obtain ⟨hn, hgood⟩ := reachable_storeOk L MaxPlugins s hs
  have hget := getPluginById_of_mem s p hn hp
  obtain ⟨_, s1, s2, hsplit, h1⟩ := find_split s p.Id p (getPluginById_ok s p.Id p hget)
  have hv : validAlgorithmConfig p c = none := by
    rw [validAlgorithmConfig, checkEntries_eq_none_iff]
    intro k dv hm
    obtain ⟨cv, g1, g2⟩ := hsup k dv hm
    exact ⟨cv, g1, fun hd => hnull k dv hm hd cv g1, g2⟩
  have hr : findRegion p.Content ≠ none := findRegion_of_markers _ (hgood p hp).1
  refine ⟨s1, s2, hsplit, ?_, ?_, rfl, rfl⟩
  · simp only [UpdateAlgorithmConfig, hget, hv]
    exact handleAlgorithmConfig_ok L s s1 s2 p c hsplit h1 hr
  · apply getPluginById_of_find
    rw [List.find?_append, List.find?_eq_none.2 (fun q hq => by simpa using h1 q hq)]
    simp [rewritten]

/-- C3 at the plugin created from the scenario's artifact, updated with a
configuration that has more keys than the default. -/
theorem updateAlgorithmConfig_succeeds_witness :
    Reachable exampleLib 10 scenarioStore ∧ scenarioPlugin ∈ scenarioStore ∧
    SupersetByKey scenarioPlugin.DefaultAlgorithmConfig widerConfig ∧
    NonNullWhereDefault scenarioPlugin.DefaultAlgorithmConfig widerConfig ∧
    ∃ s1 s2, scenarioStore = s1 ++ scenarioPlugin :: s2 ∧
      UpdateAlgorithmConfig exampleLib false false scenarioPlugin.Id widerConfig scenarioStore =
        (.ok scenarioPlugin.AppId, s1 ++ rewritten exampleLib scenarioPlugin widerConfig :: s2) ∧
      GetPluginById false (s1 ++ rewritten exampleLib scenarioPlugin widerConfig :: s2)
          scenarioPlugin.Id true = .ok (rewritten exampleLib scenarioPlugin widerConfig) ∧
      (rewritten exampleLib scenarioPlugin widerConfig).AlgorithmConfig = widerConfig ∧
      (rewritten exampleLib scenarioPlugin widerConfig).Md5 =
        exampleLib.md5Hex (rewritten exampleLib scenarioPlugin widerConfig).Content :=
  have hr : Reachable exampleLib 10 scenarioStore :=
    Reachable.add [] (fun _ => false) "p1" 1 scenarioArtifact "app" Reachable.empty
  have hm : scenarioPlugin ∈ scenarioStore := List.mem_singleton.2 rfl
  have hsup : SupersetByKey scenarioPlugin.DefaultAlgorithmConfig widerConfig := by
    intro k dv hm
    simp only [scenarioPlugin, pluginDoc, scenarioConfig, List.mem_singleton,
      Prod.mk.injEq] at hm
    obtain ⟨rfl, rfl⟩ := hm
    refine ⟨_, rfl, fun dobj h => ?_⟩
    cases h
    exact ⟨_, rfl, by simp [keys]⟩
  have hnull : NonNullWhereDefault scenarioPlugin.DefaultAlgorithmConfig widerConfig := by
    intro k dv hm _ cv hcv
    simp only [scenarioPlugin, pluginDoc, scenarioConfig, List.mem_singleton,
      Prod.mk.injEq] at hm
    obtain ⟨rfl, rfl⟩ := hm
    cases hcv
    rfl
  ⟨hr, hm, hsup, hnull,
    updateAlgorithmConfig_succeeds exampleLib 10 scenarioStore hr scenarioPlugin hm widerConfig
      hsup hnull⟩

/-- C4, the claim as stated fails: with the default `a ↦ 1, b ↦ 2` and the
empty configuration both keys are missing, yet the error of
`UpdateAlgorithmConfig` names one of them only, in whichever order the
default is visited. -/
theorem updateAlgorithmConfig_names_one_key :
    (∃ msg, (UpdateAlgorithmConfig exampleLib false false "p1" []
        [examplePlugin [] [("a", .num 1), ("b", .num 2)]]).1 = .error (.error msg) ∧
      Names msg "a" ∧ ¬ Names msg "b") ∧
    (∃ msg, (UpdateAlgorithmConfig exampleLib false false "p1" []
        [examplePlugin [] [("b", .num 2), ("a", .num 1)]]).1 = .error (.error msg) ∧
      Names msg "b" ∧ ¬ Names msg "a") :=
  ⟨⟨missingKeyError "a", rfl, by decide, by decide⟩,
   ⟨missingKeyError "b", rfl, by decide, by decide⟩⟩

/-- C4, amended: for a stored plugin, when the configuration violates the
default, `UpdateAlgorithmConfig` fails with a validation error and leaves the
collection as it was; the error names the first violated entry in the order
in which the default is visited: `k` when `k` is missing from the
configuration, `k.s` when the object at `k` lacks the sub-key `s` (the first
such sub-key), the entries and sub-keys visited before being satisfied. -/
theorem updateAlgorithmConfig_first_violation (L : Lib) (faultUpdate : Bool) (s : Store)
    (pluginId : String) (plugin : Plugin) (config : JObj)
    (hget : GetPluginById false s pluginId true = .ok plugin) :
    ((∃ k dv, (k, dv) ∈ plugin.DefaultAlgorithmConfig ∧ ¬ EntryOk config k dv) →
      ∃ msg, UpdateAlgorithmConfig L false faultUpdate pluginId config s =
        (.error (.error msg), s)) ∧
    (∀ pre k dv post, plugin.DefaultAlgorithmConfig = pre ++ (k, dv) :: post →
      (∀ e ∈ pre, EntryOk config e.1 e.2) → config.lookup k = none →
      UpdateAlgorithmConfig L false faultUpdate pluginId config s =
        (.error (.error (missingKeyError k)), s) ∧ Names (missingKeyError k) k) ∧
    (∀ pre k post dobj cobj spre sk sv spost,
      plugin.DefaultAlgorithmConfig = pre ++ (k, .obj dobj) :: post →
      (∀ e ∈ pre, EntryOk config e.1 e.2) → config.lookup k = some (.obj cobj) →
      dobj = spre ++ (sk, sv) :: spost → (∀ e ∈ spre, e.1 ∈ keys cobj) → sk ∉ keys cobj →
      UpdateAlgorithmConfig L false faultUpdate pluginId config s =
        (.error (.error (missingSubKeyError k sk)), s) ∧
      Names (missingSubKeyError k sk) (k ++ "." ++ sk)) := by
  have hv : ∀ pre k dv post, plugin.DefaultAlgorithmConfig = pre ++ (k, dv) :: post →
      (∀ e ∈ pre, EntryOk config e.1 e.2) →
      validAlgorithmConfig plugin config =
        match checkEntry config k dv with
        | some e => some e
        | none => checkEntries config post := by
    intro pre k dv post hd hpre
    unfold validAlgorithmConfig
    rw [hd, checkEntries_append config pre _
      fun e he => (checkEntry_eq_none_iff config e.1 e.2).2 (hpre e he)]
    rfl
  refine ⟨?_, ?_, ?_⟩
  · rintro ⟨k, dv, hm, hbad⟩
    cases hval : validAlgorithmConfig plugin config with
    | none => exact absurd ((checkEntries_eq_none_iff _ _).1 hval k dv hm) hbad
    | some msg => exact ⟨msg, by simp only [UpdateAlgorithmConfig, hget, hval]⟩
  · intro pre k dv post hd hpre hk
    have hc : checkEntry config k dv = some (missingKeyError k) := by
      simp [checkEntry, hk]
    have := hv pre k dv post hd hpre
    rw [hc] at this
    exact ⟨by simp only [UpdateAlgorithmConfig, hget, this], names_missingKeyError k⟩
  · intro pre k post dobj cobj spre sk sv spost hd hpre hk hdobj hspre hsk
    have hsub : checkSubKeys k cobj dobj = some (missingSubKeyError k sk) := by
      rw [hdobj, checkSubKeys_append k cobj spre _ hspre]
      simp [checkSubKeys, (lookup_eq_none_iff cobj sk).2 hsk]
    have hc : checkEntry config k (.obj dobj) = some (missingSubKeyError k sk) := by
      simp [checkEntry, hk, JValue.isNull, hsub]
    have := hv pre k (.obj dobj) post hd hpre
    rw [hc] at this
    exact ⟨by simp only [UpdateAlgorithmConfig, hget, this], names_missingSubKeyError k sk⟩

/-- C4, the scenario of the specification: the configuration `a ↦ (empty object)`
against the default `a ↦ (b ↦ 1)` fails with an error naming `a.b`. -/
theorem updateAlgorithmConfig_first_violation_witness :
    UpdateAlgorithmConfig exampleLib false false "p1" [("a", .obj [])]
        [examplePlugin scenarioArtifact scenarioConfig] =
      (.error (.error (missingSubKeyError "a" "b")),
        [examplePlugin scenarioArtifact scenarioConfig]) ∧
    Names (missingSubKeyError "a" "b") "a.b" :=
  (updateAlgorithmConfig_first_violation exampleLib false
    [examplePlugin scenarioArtifact scenarioConfig] "p1"
    (examplePlugin scenarioArtifact scenarioConfig) [("a", .obj [])] rfl).2.2
    [] "a" [] [("b", .num 1)] [] [] "b" (.num 1) [] rfl (by simp) rfl rfl (by simp)
    (by simp [keys])

/-- C5, the claim as stated fails: with ten plugins stored for the application
and the ceiling 10, a create whose `Insert` fails (store operation 2, after the
eviction query and one `RemoveId`) returns an error, and the oldest plugin is
gone all the same. -/
theorem addPluginToDb_not_atomic :
    (addPluginToDb exampleLib 10 (fun i => i == 2) "new" 10 "v1.0".toList "MyPlugin".toList
        scenarioArtifact "app" scenarioConfig tenPlugins).1 = .error (.store .fault) ∧
    ids (addPluginToDb exampleLib 10 (fun i => i == 2) "new" 10 "v1.0".toList "MyPlugin".toList
        scenarioArtifact "app" scenarioConfig tenPlugins).2 =
      ["1", "2", "3", "4", "5", "6", "7", "8", "9"] ∧
    ids tenPlugins = ["0", "1", "2", "3", "4", "5", "6", "7", "8", "9"] := by
  refine ⟨?_, ?_, ?_⟩
  · rfl
  · decide
  · decide

/-- C5, amended: a create is not atomic. When `addPluginToDb` returns an error
the new plugin is not stored and the collection is the one before the call
without the first `j` excess plugins, those removed before the operation that
failed; nothing has changed when the eviction query fails or the first
`RemoveId` does, and every excess plugin is gone when the `Insert` fails. When
it returns no error the new plugin is stored and every excess plugin is gone. -/
theorem addPluginToDb_on_failure (L : Lib) (MaxPlugins : Nat) (fault : Nat → Bool) (id : String)
    (now : Int) (version name content : List Char) (appId : String) (d : JObj) (s : Store)
    (hN : 0 < MaxPlugins) (hn : (ids s).Nodup) :
    (∀ e, (addPluginToDb L MaxPlugins fault id now version name content appId d s).1 = .error e →
      ∃ j, j ≤ (excess MaxPlugins appId s).length ∧
        (addPluginToDb L MaxPlugins fault id now version name content appId d s).2 =
          without (ids ((excess MaxPlugins appId s).take j)) s) ∧
    (∀ p, (addPluginToDb L MaxPlugins fault id now version name content appId d s).1 = .ok p →
      p = pluginDoc L id now version name content appId d ∧
      (addPluginToDb L MaxPlugins fault id now version name content appId d s).2 =
        without (ids (excess MaxPlugins appId s)) s ++ [p]) ∧
    (fault 0 = true ∨ (fault 1 = true ∧ (excess MaxPlugins appId s) ≠ []) →
      addPluginToDb L MaxPlugins fault id now version name content appId d s =
        (.error (.store .fault), s)) ∧
    ((∀ j, j ≤ (excess MaxPlugins appId s).length → fault j = false) →
      fault ((excess MaxPlugins appId s).length + 1) = true →
      addPluginToDb L MaxPlugins fault id now version name content appId d s =
        (.error (.store .fault), without (ids (excess MaxPlugins appId s)) s)) := by
  obtain ⟨c1, c2, c3⟩ := addPluginToDb_cases L MaxPlugins fault id now version name content
    appId d s hN hn
  obtain ⟨j, hj, hj2, hj3⟩ := removeOld_prefix fault ((excess MaxPlugins appId s).map withoutContent)
    1 s hn (by rw [ids_map_withoutContent]; exact excess_ids_nodup _ _ _ hn)
      (by rw [ids_map_withoutContent]; exact excess_ids_subset _ _ _)
  rw [← List.map_take, ids_map_withoutContent] at hj2
  rw [List.length_map] at hj hj3
  have hshape := addPluginToDb_shape L MaxPlugins fault id now version name content appId d s hN
  refine ⟨?_, ?_, ?_, ?_⟩
  · intro e he
    rw [hshape] at he ⊢
    cases h0 : fault 0 with
    | true => exact ⟨0, Nat.zero_le _, by simp [ids, without_nil]⟩
    | false =>
      simp only [h0, Bool.false_eq_true, if_false] at he ⊢
      cases hr : (removeOld fault 1 ((excess MaxPlugins appId s).map withoutContent) s).1 with
      | some e1 => exact ⟨j, hj, by simp only [hj2]⟩
      | none =>
        rw [hr] at he
        simp only at he ⊢
        refine ⟨(excess MaxPlugins appId s).length, le_refl _, ?_⟩
        rw [insertPlugin_error _ _ _ e he, hj2, hj3 hr]
  · intro p hp
    rw [hshape] at hp ⊢
    cases h0 : fault 0 with
    | true => simp [h0] at hp
    | false =>
      simp only [h0, Bool.false_eq_true, if_false] at hp ⊢
      cases hr : (removeOld fault 1 ((excess MaxPlugins appId s).map withoutContent) s).1 with
      | some e1 => rw [hr] at hp; cases hp
      | none =>
        rw [hr] at hp
        simp only at hp ⊢
        obtain ⟨g1, g2⟩ := insertPlugin_ok _ _ _ _ hp
        refine ⟨g1, ?_⟩
        rw [g2, hj2, hj3 hr, List.take_length, g1]
  · rintro (h0 | ⟨h1, hne⟩)
    · exact c1 h0
    · cases h0 : fault 0 with
      | true => exact c1 h0
      | false =>
        have := c2 h0 0 (List.length_pos.2 hne) (fun j1 hj1 => absurd hj1 (Nat.not_lt_zero _)) h1
        simpa [ids, without_nil] using this
  · intro hf hlast
    rw [c3 (hf 0 (Nat.zero_le _)) (fun j hj => hf (1 + j) (by omega))]
    simp [insertPlugin, mongo.Insert, hlast]

/-- C5 at the ten stored plugins and a failing `Insert`. -/
theorem addPluginToDb_on_failure_witness :
    0 < 10 ∧ (ids tenPlugins).Nodup ∧
    addPluginToDb exampleLib 10 (fun i => i == 2) "new" 10 "v1.0".toList "MyPlugin".toList
        scenarioArtifact "app" scenarioConfig tenPlugins =
      (.error (.store .fault), without (ids (excess 10 "app" tenPlugins)) tenPlugins) :=
  ⟨by decide, by decide,
    (addPluginToDb_on_failure exampleLib 10 (fun i => i == 2) "new" 10 "v1.0".toList
      "MyPlugin".toList scenarioArtifact "app" scenarioConfig tenPlugins (by decide)
      (by decide)).2.2.2 (by decide) rfl⟩

/-- C6, the code at a configuration with a `$`: for the plugin created from
the scenario's artifact and the configuration `a ↦ (b ↦ "$5")`, which
`validAlgorithmConfig` accepts, `UpdateAlgorithmConfig` (through
`handleAlgorithmConfig`) succeeds and stores the configuration as given, but
the content it stores has the empty string where the serialized configuration
has `$5`: `ReplaceAllString` took `$5` of the replacement text for a
reference to a submatch. The stored content is not the old content with the
region replaced by the serialized block. -/
theorem handleAlgorithmConfig_dollar :
    UpdateAlgorithmConfig exampleLib false false "p1" dollarConfig scenarioStore =
      (.ok "app", [rewritten exampleLib scenarioPlugin dollarConfig]) ∧
    handleAlgorithmConfig exampleLib false scenarioPlugin dollarConfig scenarioStore =
      (.ok "app", [rewritten exampleLib scenarioPlugin dollarConfig]) ∧
    (rewritten exampleLib scenarioPlugin dollarConfig).AlgorithmConfig = dollarConfig ∧
    (rewritten exampleLib scenarioPlugin dollarConfig).Content =
      ("const version = \"v1.0\"\nconst name = \"MyPlugin\"\n// BEGIN ALGORITHM CONFIG //\n\n" ++
        "var algorithmConfig = \x7b\n\t\"a\": \x7b\n\t\t\"b\": \"\"\n\t\x7d\n\x7d\n\n" ++
        "// END ALGORITHM CONFIG //").toList ∧
    newContent exampleLib dollarConfig =
      ("// BEGIN ALGORITHM CONFIG //\n\n" ++
        "var algorithmConfig = \x7b\n\t\"a\": \x7b\n\t\t\"b\": \"$5\"\n\t\x7d\n\x7d\n\n" ++
        "// END ALGORITHM CONFIG //").toList ∧
    (rewritten exampleLib scenarioPlugin dollarConfig).Content ≠
      "const version = \"v1.0\"\nconst name = \"MyPlugin\"\n".toList ++
        newContent exampleLib dollarConfig :=
  ⟨rfl, rfl, rfl, by decide, by decide, by decide⟩

/-- C7, the claim as stated fails: the artifact of the specification's scenario
parses, and re-serializing its configuration and substituting it back gives a
content that differs from the original (the block is written pretty-printed,
between blank lines). -/
theorem roundTrip_changes_scenario :
    parsePlugin exampleLib scenarioArtifact =
      .ok ("v1.0".toList, "MyPlugin".toList, scenarioConfig) ∧
    ReplaceAllString exampleLib scenarioArtifact (newContent exampleLib scenarioConfig) ≠
      scenarioArtifact ∧
    ReplaceAllString exampleLib scenarioArtifact (newContent exampleLib scenarioConfig) =
      ("const version = \"v1.0\"\nconst name = \"MyPlugin\"\n// BEGIN ALGORITHM CONFIG //\n\n" ++
        "var algorithmConfig = \x7b\n\t\"a\": \x7b\n\t\t\"b\": 1\n\t\x7d\n\x7d\n\n" ++
        "// END ALGORITHM CONFIG //").toList :=
  ⟨rfl, by decide, by decide⟩

/-- C7, amended: for every valid artifact whose configuration serializes
without a `$`, the sentinel expression matches in the content; when it
matches once only, re-serializing the extracted configuration and
substituting it back leaves the text before and after the matched region
unchanged and puts the block `newContent` in its place, so the rewritten
content equals the original exactly when the region already is that block. -/
theorem roundTrip_region (L : Lib) (content v n : List Char) (cfg : JObj)
    (hparse : parsePlugin L content = .ok (v, n, cfg)) (hd : '$' ∉ L.MarshalIndent cfg) :
    ∃ b m a, findRegion content = some (b, m, a) ∧ content = b ++ (m ++ a) ∧
      (findRegion a = none →
        ReplaceAllString L content (newContent L cfg) = b ++ (newContent L cfg ++ a) ∧
        (ReplaceAllString L content (newContent L cfg) = content ↔ m = newContent L cfg)) := by
  have hr := findRegion_of_markers content (parsePlugin_ok_markers L content _ hparse)
  cases hf : findRegion content with
  | none => exact absurd hf hr
  | some r =>
    obtain ⟨b, m, a⟩ := r
    have hsplit := (findRegion_some content b m a hf).1
    refine ⟨b, m, a, rfl, hsplit, fun hone => ?_⟩
    have hrep : ReplaceAllString L content (newContent L cfg) = b ++ (newContent L cfg ++ a) := by
      rw [replaceAllString_some L content _ b m a hf, expand_newContent_plain L cfg m hd,
        replaceAllAux_none _ _ a hone, List.append_assoc]
    refine ⟨hrep, ?_⟩
    rw [hrep]
    constructor
    · intro h
      have h1 : b ++ (newContent L cfg ++ a) = b ++ (m ++ a) := by rw [h, ← hsplit]
      exact (List.append_cancel_right (List.append_cancel_left h1)).symm
    · intro h
      rw [← h, ← hsplit]

/-- C7 at an artifact whose block already has the written form: the round
trip gives the content back. -/
theorem roundTrip_region_witness :
    parsePlugin exampleLib canonicalArtifact =
      .ok ("v1.0".toList, "MyPlugin".toList, scenarioConfig) ∧
    '$' ∉ exampleLib.MarshalIndent scenarioConfig ∧
    (∃ b m a, findRegion canonicalArtifact = some (b, m, a) ∧ canonicalArtifact = b ++ (m ++ a) ∧
      (findRegion a = none →
        ReplaceAllString exampleLib canonicalArtifact (newContent exampleLib scenarioConfig) =
          b ++ (newContent exampleLib scenarioConfig ++ a) ∧
        (ReplaceAllString exampleLib canonicalArtifact (newContent exampleLib scenarioConfig) =
          canonicalArtifact ↔ m = newContent exampleLib scenarioConfig))) ∧
    ReplaceAllString exampleLib canonicalArtifact (newContent exampleLib scenarioConfig) =
      canonicalArtifact :=
  ⟨rfl, by decide,
    roundTrip_region exampleLib canonicalArtifact "v1.0".toList "MyPlugin".toList scenarioConfig
      rfl (by decide), by decide⟩

/-- C8, the claim as stated fails: the first line `const version = ""` holds a
double-quoted literal, the empty one, and `AddPlugin` fails with "failed to
find the plugin version": the expression asks for one character or more
between the quotes. -/
theorem addPlugin_empty_literal :
    (readLine emptyVersionArtifact).map Prod.fst = some "const version = \"\"\n".toList ∧
    "const version = \"\"\n".toList = "const version = ".toList ++ '\x22' :: '\x22' :: ['\n'] ∧
    (AddPlugin exampleLib 10 (fun _ => false) "p1" 1 emptyVersionArtifact "app" []).1 =
      .error (.error "failed to find the plugin version") :=
  ⟨by decide, by decide, rfl⟩

/-- C8, amended: for an artifact that starts with two newline-terminated lines,
`AddPlugin` fails with "failed to find the plugin version" exactly when the
first line holds no non-empty quoted literal (a single or double quote, one
character or more, the same quote again); when it holds one, `AddPlugin`
fails with "failed to find the plugin name" exactly when the second line
holds none; and the plugin a successful call returns has as version the text
between the quotes of the first line's literal and as name that of the
second line's, the literal of a line being the leftmost one and the longest
that starts there (up to the last matching quote of the line). -/
theorem addPlugin_version_and_name (L : Lib) (MaxPlugins : Nat) (fault : Nat → Bool)
    (id : String) (now : Int) (appId : String) (s : Store) (x1 x2 rest : List Char)
    (h1 : '\n' ∉ x1) (h2 : '\n' ∉ x2) :
    ((AddPlugin L MaxPlugins fault id now (x1 ++ '\n' :: (x2 ++ '\n' :: rest)) appId s).1 =
        .error (.error "failed to find the plugin version") ↔
      ¬ HasQuotedLiteral (x1 ++ ['\n'])) ∧
    (HasQuotedLiteral (x1 ++ ['\n']) →
      ((AddPlugin L MaxPlugins fault id now (x1 ++ '\n' :: (x2 ++ '\n' :: rest)) appId s).1 =
          .error (.error "failed to find the plugin name") ↔
        ¬ HasQuotedLiteral (x2 ++ ['\n']))) ∧
    (∀ v n cfg, parsePlugin L (x1 ++ '\n' :: (x2 ++ '\n' :: rest)) = .ok (v, n, cfg) →
      IsLiteralOf (x1 ++ ['\n']) v ∧ IsLiteralOf (x2 ++ ['\n']) n) ∧
    (∀ p, (AddPlugin L MaxPlugins fault id now (x1 ++ '\n' :: (x2 ++ '\n' :: rest)) appId s).1 =
        .ok p →
      IsLiteralOf (x1 ++ ['\n']) p.Version ∧ IsLiteralOf (x2 ++ ['\n']) p.Name) := by
  obtain ⟨a, b, c⟩ := parsePlugin_lines L x1 x2 rest h1 h2
  have hto : ∀ msg, parsePlugin L (x1 ++ '\n' :: (x2 ++ '\n' :: rest)) = .error (.error msg) →
      (AddPlugin L MaxPlugins fault id now (x1 ++ '\n' :: (x2 ++ '\n' :: rest)) appId s).1 =
        .error (.error msg) := by
    intro msg h
    simp only [AddPlugin, h]
  refine ⟨?_, ?_, ?_, ?_⟩
  · rw [← findQuoted_eq_none_iff, ← a]
    exact ⟨addPlugin_error_msg L MaxPlugins fault id now _ appId s _, hto _⟩
  · intro hl
    have hne : findQuoted (x1 ++ ['\n']) ≠ none :=
      fun h => (findQuoted_eq_none_iff _).1 h hl
    rw [← findQuoted_eq_none_iff, ← b hne]
    exact ⟨addPlugin_error_msg L MaxPlugins fault id now _ appId s _, hto _⟩
  · intro v n cfg hparse
    obtain ⟨m1, m2, g1, g2, g3, g4⟩ := c v n cfg hparse
    rw [g3, g4]
    exact ⟨findQuoted_literal _ m1 g1, findQuoted_literal _ m2 g2⟩
  · intro p hp
    obtain ⟨v, n, cfg, hparse, hdoc⟩ := addPlugin_ok L MaxPlugins fault id now _ appId s p hp
    obtain ⟨m1, m2, g1, g2, g3, g4⟩ := c v n cfg hparse
    subst hdoc
    simp only [pluginDoc, g3, g4]
    exact ⟨findQuoted_literal _ m1 g1, findQuoted_literal _ m2 g2⟩

/-- C8 at the artifact of the specification's scenario: it parses to version
`v1.0` and name `MyPlugin`. -/
theorem addPlugin_version_and_name_witness :
    (AddPlugin exampleLib 10 (fun _ => false) "p1" 1 scenarioArtifact "app" []).1 =
      .ok (pluginDoc exampleLib "p1" 1 "v1.0".toList "MyPlugin".toList scenarioArtifact "app"
        scenarioConfig) ∧
    IsLiteralOf "const version = \"v1.0\"\n".toList "v1.0".toList ∧
    IsLiteralOf "const name = \"MyPlugin\"\n".toList "MyPlugin".toList :=
  ⟨rfl, (addPlugin_version_and_name exampleLib 10 (fun _ => false) "p1" 1 "app" []
    "const version = \"v1.0\"".toList "const name = \"MyPlugin\"".toList
    ("// BEGIN ALGORITHM CONFIG //\n" ++
      "var algorithmConfig = \x7b\"a\": \x7b\"b\": 1\x7d\x7d\n// END ALGORITHM CONFIG //").toList
    (by decide) (by decide)).2.2.2 _ rfl⟩

/-- C9: the default configuration of a plugin (a Go map: its keys are
distinct) is valid against itself, `validAlgorithmConfig(plugin,
plugin.DefaultAlgorithmConfig)` returns no error; so for a stored plugin
`RestoreDefaultConfiguration`, which skips the validation, does exactly what
`UpdateAlgorithmConfig` does with the default as the new configuration. -/
theorem restoreDefault_valid (plugin : Plugin)
    (hn : (keys plugin.DefaultAlgorithmConfig).Nodup) :
    validAlgorithmConfig plugin plugin.DefaultAlgorithmConfig = none ∧
    ∀ (L : Lib) (faultUpdate : Bool) (s : Store) (pluginId : String),
      GetPluginById false s pluginId true = .ok plugin →
      RestoreDefaultConfiguration L false faultUpdate pluginId s =
        UpdateAlgorithmConfig L false faultUpdate pluginId plugin.DefaultAlgorithmConfig s := by
  have hv : validAlgorithmConfig plugin plugin.DefaultAlgorithmConfig = none :=
    (checkEntries_eq_none_iff _ _).2 (entryOk_self _ hn)
  refine ⟨hv, fun L faultUpdate s pluginId hget => ?_⟩
  simp only [RestoreDefaultConfiguration, UpdateAlgorithmConfig, hget, hv]

/-- C9 at the plugin of the specification's scenario, stored alone. -/
theorem restoreDefault_valid_witness :
    (keys scenarioConfig).Nodup ∧
    validAlgorithmConfig (examplePlugin scenarioArtifact scenarioConfig) scenarioConfig = none ∧
    RestoreDefaultConfiguration exampleLib false false "p1"
        [examplePlugin scenarioArtifact scenarioConfig] =
      UpdateAlgorithmConfig exampleLib false false "p1" scenarioConfig
        [examplePlugin scenarioArtifact scenarioConfig] :=
  ⟨by simp [keys, scenarioConfig],
    (restoreDefault_valid (examplePlugin scenarioArtifact scenarioConfig)
      (by simp [keys, scenarioConfig, examplePlugin])).1,
    (restoreDefault_valid (examplePlugin scenarioArtifact scenarioConfig)
      (by simp [keys, scenarioConfig, examplePlugin])).2 exampleLib false
      [examplePlugin scenarioArtifact scenarioConfig] "p1" rfl⟩

/-- C10: in every collection reached by calls of `AddPlugin`,
`UpdateAlgorithmConfig` and `RestoreDefaultConfiguration` (whatever fails in
the store), every stored plugin's `AlgorithmConfig` has every top-level key
of its `DefaultAlgorithmConfig`, and at every key whose default value is an
object its value is an object having every sub-key of the default object. -/
theorem keySet_invariant (L : Lib) (MaxPlugins : Nat) (s : Store)
    (h : Reachable L MaxPlugins s) : ∀ p ∈ s, KeySetOk p :=
  fun p hp => ((reachable_storeOk L MaxPlugins s h).2 p hp).2.1

/-- C10 at the collection reached by a create, an update with a wider
configuration and a rejected update: the stored plugin has the wider
configuration, and it matches the default. -/
theorem keySet_invariant_witness :
    Reachable exampleLib 10
      (UpdateAlgorithmConfig exampleLib false false "p1" [("a", .obj [])]
        (UpdateAlgorithmConfig exampleLib false false "p1" widerConfig scenarioStore).2).2 ∧
    (UpdateAlgorithmConfig exampleLib false false "p1" [("a", .obj [])]
        (UpdateAlgorithmConfig exampleLib false false "p1" widerConfig scenarioStore).2).2 =
      [rewritten exampleLib scenarioPlugin widerConfig] ∧
    KeySetOk (rewritten exampleLib scenarioPlugin widerConfig) :=
  have hr : Reachable exampleLib 10
      (UpdateAlgorithmConfig exampleLib false false "p1" [("a", .obj [])]
        (UpdateAlgorithmConfig exampleLib false false "p1" widerConfig scenarioStore).2).2 :=
    Reachable.update _ false false "p1" [("a", .obj [])]
      (Reachable.update _ false false "p1" widerConfig
        (Reachable.add [] (fun _ => false) "p1" 1 scenarioArtifact "app" Reachable.empty))
  ⟨hr, rfl, keySet_invariant exampleLib 10 _ hr _ (List.mem_singleton.2 rfl)⟩

/-- C11: for every category string, every event and every state of the two
channels, `AddLogWithES` returns nil; when the category is `attack-alarm` or
`policy-alarm` and its channel holds fewer events than its capacity, the
event is appended at the tail of that channel and the other channel is
unchanged; when that channel is full the channels are unchanged and the
drop is logged; when the category is neither of the two the channels are
unchanged. Hence channels within their capacity stay within it, under
`AddLogWithES` and under a cycle of `handleEsLogPush`, as are the empty
channels `init` makes. -/
theorem addLogWithES_nonblocking (alarmType : String) (alarm : JObj) (b : AlarmBuffers) :
    (AddLogWithES alarmType alarm b).err = none ∧
    (∀ cat : Category, alarmType = cat.alarmType →
      (b.chan cat).buf.length < (b.chan cat).cap →
      ((AddLogWithES alarmType alarm b).buffers.chan cat).buf = (b.chan cat).buf ++ [alarm] ∧
      ((AddLogWithES alarmType alarm b).buffers.chan cat).cap = (b.chan cat).cap ∧
      (AddLogWithES alarmType alarm b).buffers.chan cat.other = b.chan cat.other ∧
      (AddLogWithES alarmType alarm b).dropped = none) ∧
    (∀ cat : Category, alarmType = cat.alarmType →
      (b.chan cat).cap ≤ (b.chan cat).buf.length →
      (AddLogWithES alarmType alarm b).buffers = b ∧
      (AddLogWithES alarmType alarm b).dropped = some alarm) ∧
    (alarmType ≠ AttackAlarmType → alarmType ≠ PolicyAlarmType →
      (AddLogWithES alarmType alarm b).buffers = b ∧
      (AddLogWithES alarmType alarm b).dropped = none) ∧
    (WithinCapacity b → WithinCapacity (AddLogWithES alarmType alarm b).buffers) ∧
    (∀ pick bulk cycle, handleEsLogPush pick bulk b = some cycle → WithinCapacity b →
      WithinCapacity cycle.buffers) ∧
    (∀ size, WithinCapacity (makeBuffers size)) := by
  have hsent : ∀ cat : Category, alarmType = cat.alarmType →
      (b.chan cat).buf.length < (b.chan cat).cap →
      AddLogWithES alarmType alarm b =
        { err := none, buffers := b.setBuf cat ((b.chan cat).buf ++ [alarm]), dropped := none } := by
    intro cat ht hlt
    rw [ht, addLogWithES_category, if_pos hlt]
  have hfull : ∀ cat : Category, alarmType = cat.alarmType →
      (b.chan cat).cap ≤ (b.chan cat).buf.length →
      AddLogWithES alarmType alarm b = { err := none, buffers := b, dropped := some alarm } := by
    intro cat ht hle
    rw [ht, addLogWithES_category, if_neg (by omega)]
  have hcases : (∃ cat : Category, alarmType = cat.alarmType) ∨
      (alarmType ≠ AttackAlarmType ∧ alarmType ≠ PolicyAlarmType) := by
    by_cases h1 : alarmType = AttackAlarmType
    · exact Or.inl ⟨.attack, h1⟩
    · by_cases h2 : alarmType = PolicyAlarmType
      · exact Or.inl ⟨.policy, h2⟩
      · exact Or.inr ⟨h1, h2⟩
  refine ⟨?_, ?_, ?_, ?_, ?_, ?_, ?_⟩
  · rcases hcases with ⟨cat, ht⟩ | ⟨h1, h2⟩
    · by_cases hlt : (b.chan cat).buf.length < (b.chan cat).cap
      · rw [hsent cat ht hlt]
      · rw [hfull cat ht (by omega)]
    · rw [addLogWithES_unknown alarmType alarm b h1 h2]
  · intro cat ht hlt
    rw [hsent cat ht hlt]
    obtain ⟨k1, k2, k3⟩ := chan_setBuf b cat ((b.chan cat).buf ++ [alarm])
    exact ⟨k1, k2, k3, rfl⟩
  · intro cat ht hle
    rw [hfull cat ht hle]
    exact ⟨rfl, rfl⟩
  · intro h1 h2
    rw [addLogWithES_unknown alarmType alarm b h1 h2]
    exact ⟨rfl, rfl⟩
  · intro hw
    rcases hcases with ⟨cat, ht⟩ | ⟨h1, h2⟩
    · by_cases hlt : (b.chan cat).buf.length < (b.chan cat).cap
      · rw [hsent cat ht hlt]
        cases cat with
        | attack =>
          simp only [AlarmBuffers.chan] at hlt
          exact ⟨by simp only [AlarmBuffers.setBuf, AlarmBuffers.chan, List.length_append,
            List.length_singleton]; omega, hw.2⟩
        | policy =>
          simp only [AlarmBuffers.chan] at hlt
          exact ⟨hw.1, by simp only [AlarmBuffers.setBuf, AlarmBuffers.chan, List.length_append,
            List.length_singleton]; omega⟩
      · rw [hfull cat ht (by omega)]; exact hw
    · rw [addLogWithES_unknown alarmType alarm b h1 h2]; exact hw
  · intro pick bulk cycle hcycle hw
    rcases handleEsLogPush_cases pick bulk b with ⟨_, _, hnone⟩ | ⟨cat, _, hsome⟩
    · rw [hnone] at hcycle; cases hcycle
    · rw [hsome] at hcycle
      cases hcycle
      cases cat with
      | attack =>
        exact ⟨by simp only [cycleFor, AlarmBuffers.setBuf, AlarmBuffers.chan, List.length_drop]
                  have := hw.1; omega, hw.2⟩
      | policy =>
        exact ⟨hw.1, by simp only [cycleFor, AlarmBuffers.setBuf, AlarmBuffers.chan,
                  List.length_drop]
                        have := hw.2; omega⟩
  · intro size
    exact ⟨Nat.zero_le _, Nat.zero_le _⟩

/-- C12: in every state in which the category whose case the `select` takes
holds `n >= 1` events (its is the only channel with events, or the one Go
picks), and with no send during the cycle, one cycle of `handleEsLogPush`
makes exactly one call of `es.BulkInsert`, for that category, with the first
`min(n, 200)` events of the channel in the order they were sent, leaves the
channel with the other `n - min(n, 200)` events in order, and leaves the
other category's channel unchanged; all this whatever the call returns: an
error or a panic is logged and the batch is not put back. -/
theorem handleEsLogPush_drains (pick : Category) (bulk : String → List JObj → BulkResult)
    (b : AlarmBuffers) (cat : Category) (hn : 1 ≤ (b.chan cat).buf.length)
    (hsel : (b.chan cat.other).buf = [] ∨ pick = cat) :
    ∃ cycle, handleEsLogPush pick bulk b = some cycle ∧
      cycle.bulkCalls =
        [(cat.alarmType, (b.chan cat).buf.take (min (b.chan cat).buf.length 200))] ∧
      (cycle.buffers.chan cat).buf =
        (b.chan cat).buf.drop (min (b.chan cat).buf.length 200) ∧
      (cycle.buffers.chan cat).buf.length =
        (b.chan cat).buf.length - min (b.chan cat).buf.length 200 ∧
      (cycle.buffers.chan cat).cap = (b.chan cat).cap ∧
      cycle.buffers.chan cat.other = b.chan cat.other ∧
      cycle.logged = afterBulk (bulk cat.alarmType
        ((b.chan cat).buf.take (min (b.chan cat).buf.length 200))) := by
  have hne : (b.chan cat).buf ≠ [] := List.length_pos.1 hn
  have htake : (b.chan cat).buf.take (min (b.chan cat).buf.length 200) =
      (b.chan cat).buf.take 200 := by
    by_cases h : (b.chan cat).buf.length ≤ 200
    · rw [Nat.min_eq_left h, List.take_length, List.take_of_length_le h]
    · rw [Nat.min_eq_right (by omega)]
  have hdrop : (b.chan cat).buf.drop (min (b.chan cat).buf.length 200) =
      (b.chan cat).buf.drop 200 := by
    by_cases h : (b.chan cat).buf.length ≤ 200
    · rw [Nat.min_eq_left h, List.drop_length, List.drop_of_length_le h]
    · rw [Nat.min_eq_right (by omega)]
  obtain ⟨k1, k2, k3⟩ := chan_setBuf b cat ((b.chan cat).buf.drop 200)
  refine ⟨cycleFor cat bulk b, handleEsLogPush_eq pick bulk b cat hne hsel, ?_, ?_, ?_, k2, k3, ?_⟩
  · rw [htake]; rfl
  · rw [hdrop]; exact k1
  · show ((b.setBuf cat ((b.chan cat).buf.drop 200)).chan cat).buf.length = _
    rw [k1, ← hdrop, List.length_drop]
  · rw [htake]; rfl

/-- C12 at channels with 201 attack events and one policy event, the `select`
taking the attack case and `es.BulkInsert` failing: the batch is the first
200 events and one event stays. -/
theorem handleEsLogPush_drains_witness :
    1 ≤ (busyBuffers.chan .attack).buf.length ∧
    ∃ cycle, handleEsLogPush .attack (fun _ _ => .error "es: no available connection")
        busyBuffers = some cycle ∧
      cycle.bulkCalls =
        [(Category.attack.alarmType,
          (busyBuffers.chan .attack).buf.take (min (busyBuffers.chan .attack).buf.length 200))] ∧
      (cycle.buffers.chan .attack).buf =
        (busyBuffers.chan .attack).buf.drop (min (busyBuffers.chan .attack).buf.length 200) ∧
      (cycle.buffers.chan .attack).buf.length =
        (busyBuffers.chan .attack).buf.length - min (busyBuffers.chan .attack).buf.length 200 ∧
      (cycle.buffers.chan .attack).cap = (busyBuffers.chan .attack).cap ∧
      cycle.buffers.chan Category.attack.other = busyBuffers.chan Category.attack.other ∧
      cycle.logged = afterBulk ((fun _ _ => BulkResult.error "es: no available connection")
        Category.attack.alarmType
        ((busyBuffers.chan .attack).buf.take (min (busyBuffers.chan .attack).buf.length 200))) :=
  ⟨by decide,
    handleEsLogPush_drains .attack (fun _ _ => .error "es: no available connection")
      busyBuffers .attack (by decide) (Or.inr rfl)⟩

/-- C13: for every configured size with effective capacity `c` (at least
100), every sequence of events of one category sent with `AddLogWithES`
into an empty channel of capacity `c` before any cycle runs, and enough
cycles of `handleEsLogPush` to empty the channels, the events handed to
`es.BulkInsert` for that category are the first `c` events sent, in order,
each once; the events after the first `c` are dropped, and the channel ends
empty. With `m > c` events sent, `c` are delivered and `m - c` dropped. -/
theorem overflow_delivery (configured : Int) (c : Nat)
    (hc : alarmBufferSize configured = some c) (cat : Category) (events : List JObj)
    (b0 : AlarmBuffers) (hempty : (b0.chan cat).buf = []) (hcap : (b0.chan cat).cap = c)
    (pick : Nat → Category) (bulk : String → List JObj → BulkResult) (fuel : Nat)
    (hfuel : c + (b0.chan cat.other).buf.length ≤ fuel) :
    100 ≤ c ∧
    ((enqueueAll cat.alarmType events b0).1.chan cat).buf = events.take c ∧
    (enqueueAll cat.alarmType events b0).2 = events.drop c ∧
    delivered cat.alarmType
      (pushCycles pick bulk fuel 0 (enqueueAll cat.alarmType events b0).1).1 = events.take c ∧
    ((pushCycles pick bulk fuel 0 (enqueueAll cat.alarmType events b0).1).2.chan cat).buf = [] ∧
    (c < events.length →
      (delivered cat.alarmType
        (pushCycles pick bulk fuel 0 (enqueueAll cat.alarmType events b0).1).1).length = c ∧
      (enqueueAll cat.alarmType events b0).2.length = events.length - c) := by
  have henq := enqueueAll_eq cat events b0
  rw [hempty, hcap, List.length_nil, Nat.sub_zero, List.nil_append] at henq
  obtain ⟨k1, _, k3⟩ := chan_setBuf b0 cat (events.take c)
  have hq1 : ((enqueueAll cat.alarmType events b0).1.chan cat).buf = events.take c := by
    rw [henq]; exact k1
  have hq2 : (enqueueAll cat.alarmType events b0).1.chan cat.other = b0.chan cat.other := by
    rw [henq]; exact k3
  have hlen : (events.take c).length ≤ c := by
    rw [List.length_take]; exact Nat.min_le_left _ _
  have htotal : (enqueueAll cat.alarmType events b0).1.esAttackAlarmBuffer.buf.length +
      (enqueueAll cat.alarmType events b0).1.esPolicyAlarmBuffer.buf.length ≤ fuel := by
    cases cat with
    | attack =>
      have e1 : (enqueueAll AttackAlarmType events b0).1.esAttackAlarmBuffer.buf =
          events.take c := hq1
      have e2 : (enqueueAll AttackAlarmType events b0).1.esPolicyAlarmBuffer =
          b0.esPolicyAlarmBuffer := hq2
      have hf : c + b0.esPolicyAlarmBuffer.buf.length ≤ fuel := hfuel
      show (enqueueAll AttackAlarmType events b0).1.esAttackAlarmBuffer.buf.length +
        (enqueueAll AttackAlarmType events b0).1.esPolicyAlarmBuffer.buf.length ≤ fuel
      rw [e1, e2]; omega
    | policy =>
      have e1 : (enqueueAll PolicyAlarmType events b0).1.esPolicyAlarmBuffer.buf =
          events.take c := hq1
      have e2 : (enqueueAll PolicyAlarmType events b0).1.esAttackAlarmBuffer =
          b0.esAttackAlarmBuffer := hq2
      have hf : c + b0.esAttackAlarmBuffer.buf.length ≤ fuel := hfuel
      show (enqueueAll PolicyAlarmType events b0).1.esAttackAlarmBuffer.buf.length +
        (enqueueAll PolicyAlarmType events b0).1.esPolicyAlarmBuffer.buf.length ≤ fuel
      rw [e1, e2]; omega
  obtain ⟨d1, d2, _⟩ := pushCycles_delivers pick bulk fuel 0
    (enqueueAll cat.alarmType events b0).1 htotal cat
  rw [hq1] at d1
  have hdropped : (enqueueAll cat.alarmType events b0).2 = events.drop c := by rw [henq]
  refine ⟨(alarmBufferSize_some configured c hc).1, hq1, hdropped, d1, d2, ?_⟩
  intro hm
  refine ⟨?_, ?_⟩
  · rw [d1, List.length_take]; omega
  · rw [hdropped, List.length_drop]

/-- C13 at the configured size 50, raised to the capacity 100, with 103
attack events sent into the empty channels: one batch with the events
numbered 0 to 99 is handed to `es.BulkInsert` and the last three events are
dropped. -/
theorem overflow_delivery_witness :
    alarmBufferSize 50 = some 100 ∧
    100 + ((makeBuffers 100).chan Category.attack.other).buf.length ≤ 100 ∧
    (100 < (exampleAlarms 103).length →
      (delivered Category.attack.alarmType
        (pushCycles (fun _ => .policy) (fun _ _ => .ok) 100 0
          (enqueueAll Category.attack.alarmType (exampleAlarms 103) (makeBuffers 100)).1).1).length
        = 100 ∧
      (enqueueAll Category.attack.alarmType (exampleAlarms 103) (makeBuffers 100)).2.length =
        (exampleAlarms 103).length - 100) ∧
    delivered Category.attack.alarmType
      (pushCycles (fun _ => .policy) (fun _ _ => .ok) 100 0
        (enqueueAll Category.attack.alarmType (exampleAlarms 103) (makeBuffers 100)).1).1 =
      (exampleAlarms 103).take 100 ∧
    (pushCycles (fun _ => .policy) (fun _ _ => .ok) 100 0
      (enqueueAll Category.attack.alarmType (exampleAlarms 103) (makeBuffers 100)).1).1.map
        (fun call => (call.1, call.2.length)) = [("attack-alarm", 100)] ∧
    (enqueueAll Category.attack.alarmType (exampleAlarms 103) (makeBuffers 100)).2 =
      [exampleAlarm 100, exampleAlarm 101, exampleAlarm 102] :=
  ⟨rfl, by decide,
    (overflow_delivery 50 100 rfl .attack (exampleAlarms 103) (makeBuffers 100) rfl rfl
      (fun _ => .policy) (fun _ _ => .ok) 100 (by decide)).2.2.2.2.2,
    (overflow_delivery 50 100 rfl .attack (exampleAlarms 103) (makeBuffers 100) rfl rfl
      (fun _ => .policy) (fun _ _ => .ok) 100 (by decide)).2.2.2.1, by decide, rfl⟩

/-- C14 fails on the code: the parsing stage of `AddPlugin` checks that each
marker is found but not their order. On an artifact whose END marker comes
before its BEGIN marker, and on one whose markers overlap as in
`// BEGIN ALGORITHM CONFIG // END ALGORITHM CONFIG //`, both markers are
found, the index just past the BEGIN marker is greater than the index of the
END marker, and the slice `pluginContent[algorithmStart:algorithmEnd]`
panics: the stage neither returns an error nor reaches the interpreter,
whatever the libraries and the store are. -/
theorem parsePlugin_slice_panics :
    indexOf algorithmStartMsg endFirstArtifact = some 105 ∧
    indexOf algorithmEndMsg endFirstArtifact = some 47 ∧
    indexOf algorithmStartMsg overlapArtifact = some 47 ∧
    indexOf algorithmEndMsg overlapArtifact = some 73 ∧
    algorithmStartMsg.length = 28 ∧
    (∀ L : Lib, parsePlugin L endFirstArtifact = .error .panic) ∧
    (∀ L : Lib, parsePlugin L overlapArtifact = .error .panic) ∧
    (∀ (L : Lib) (MaxPlugins : Nat) (fault : Nat → Bool) (id : String) (now : Int)
        (appId : String) (s : Store),
      AddPlugin L MaxPlugins fault id now endFirstArtifact appId s = (.error .panic, s) ∧
      AddPlugin L MaxPlugins fault id now overlapArtifact appId s = (.error .panic, s)) := by
  have h1 : ∀ L : Lib, parsePlugin L endFirstArtifact = .error .panic := fun _ => rfl
  have h2 : ∀ L : Lib, parsePlugin L overlapArtifact = .error .panic := fun _ => rfl
  refine ⟨by decide, by decide, by decide, by decide, by decide, h1, h2, ?_⟩
  intro L MaxPlugins fault id now appId s
  exact ⟨by rw [AddPlugin, h1], by rw [AddPlugin, h2]⟩

end RaspCloud
